import Mathlib

/-!
# DynamicList.h : the `List<T>` container, its searches and its sorts

A shallow embedding of `Source (Data Structures)/DynamicList.h` with `T = int`.

* The backing buffer `data` is a Lean list holding one entry per allocated slot,
  so its length is the capacity; slots `[size, capacity)` are the reserved slots and
  keep whatever was stored there last.
* `unsigned int` is a natural number below `2 ^ 32`; `uadd` and `usub` wrap around at
  `2 ^ 32` as the machine operations do (`uadd_eq_mod`, `usub_eq_mod`).  `int` is an integer,
  and the conversions between the two are `toInt` and `toUnsigned`.  Under the container
  invariant (`capacity <= 500`) no signed computation of the file leaves the `int` range.
* An element access outside the allocated buffer is undefined behaviour in C++; the
  embedding stops there with `Fault.outOfBounds index`.
* `operator[]` throws the C++ exception `out_of_range`; the embedding reports it as
  `Fault.outOfRange`.
* `new T[n]` followed by `memcpy(newData, data, sizeof(T) * k)` is `reallocate`: copying more
  elements than the source buffer holds leaves the buffer and is `Fault.outOfBounds`; the
  slots of the new buffer that `memcpy` does not write are indeterminate in C++ and hold `0`
  in the embedding.
* A parameter `T& value` is a reference (`Ref`): to an object outside the list's buffer, or
  to a slot of the list's own buffer, as in `list.Remove(list[k])`; the code reads it again at
  every comparison.  A reference into the buffer dangles once the buffer is released
  (`delete[] data`), and a read through it then is `Fault.useAfterFree`.
* Every loop of the source is a recursive function that carries a fuel counter;
  running out of fuel is reported as `Fault.outOfFuel`, so a result `Except.ok _`
  always is a result the source computes.
-/

namespace DynamicList

/-- The ways a run of the embedded code can stop without a result. -/
inductive Fault where
  | outOfBounds (index : Int)
  | outOfFuel
  | outOfRange
  | useAfterFree
  deriving DecidableEq, Repr

deriving instance DecidableEq for Except

/-- The state of a `List<int>`: the buffer, the size and the capacity. -/
structure DynList where
  data : List Int
  size : Nat
  capacity : Nat
  deriving DecidableEq, Repr

/-- `MAX_CAPACITY`. -/
def MAX_CAPACITY : Nat := 500

/-- Number of values of an `unsigned int`, `2 ^ 32`. -/
def UINT_RANGE : Nat := 4294967296

/-- Addition of two `unsigned int` (operands below `2 ^ 32`): the sum modulo `2 ^ 32`. -/
def uadd (a b : Nat) : Nat := if a + b < 4294967296 then a + b else a + b - 4294967296

/-- Subtraction of two `unsigned int` (operands below `2 ^ 32`): the difference modulo
`2 ^ 32`. -/
def usub (a b : Nat) : Nat := if b ≤ a then a - b else a + 4294967296 - b

/-- Conversion `unsigned int -> int` (operand below `2 ^ 32`): the value modulo `2 ^ 32`
that lies in the `int` range. -/
def toInt (u : Nat) : Int := if u < 2147483648 then (u : Int) else (u : Int) - 4294967296

/-- Conversion `int -> unsigned int` (operand in the `int` range): the value modulo `2 ^ 32`. -/
def toUnsigned (i : Int) : Nat := if 0 ≤ i then i.toNat else (i + 4294967296).toNat

/-- The element read `data[i]`. -/
def rd (d : List Int) (i : Int) : Except Fault Int :=
  if 0 ≤ i then
    match d[i.toNat]? with
    | some x => .ok x
    | none => .error (.outOfBounds i)
  else .error (.outOfBounds i)

/-- The element write `data[i] = v`. -/
def wr (d : List Int) (i : Int) (v : Int) : Except Fault (List Int) :=
  if 0 ≤ i ∧ i.toNat < d.length then .ok (d.set i.toNat v)
  else .error (.outOfBounds i)

/-- `Swap(&data[a], &data[b])`. -/
def Swap (d : List Int) (a b : Int) : Except Fault (List Int) := do
  let temp ← rd d a
  let y ← rd d b
  let d1 ← wr d a y
  wr d1 b temp

/-- `Min(x, y)`. -/
def Min (x y : Int) : Int := if x ≤ y then x else y

/-- The live range `[0, size)` of the buffer. -/
def live (l : DynList) : List Int := l.data.take l.size

/-- The container invariant: the buffer has `capacity` slots, at least one and at most
`MAX_CAPACITY`, and `size` of them are live. -/
def WF (l : DynList) : Prop :=
  l.data.length = l.capacity ∧ l.size ≤ l.capacity ∧ 1 ≤ l.capacity ∧ l.capacity ≤ MAX_CAPACITY

instance (l : DynList) : Decidable (WF l) := by
  unfold WF; infer_instance

/-- The default constructor `List()`. -/
def mkDefault : DynList := { data := List.replicate 5 0, size := 0, capacity := 5 }

/-! ## Searching -/

/-- The `while (startIndex <= endIndex)` loop of `BinarySearch`. -/
def BinarySearch.loop (l : DynList) (value : Int) : Nat → Nat → Nat → Except Fault Int
  | 0, _, _ => .error .outOfFuel
  | fuel + 1, startIndex, endIndex =>
    if startIndex ≤ endIndex then
      let pivot := uadd startIndex endIndex / 2
      match rd l.data pivot with
      | .error e => .error e
      | .ok x =>
        if x = value then .ok (toInt pivot)
        else if value < x then BinarySearch.loop l value fuel startIndex (usub pivot 1)
        else BinarySearch.loop l value fuel (uadd pivot 1) endIndex
    else .ok (-1)

/-- `int BinarySearch(const T& value) const`. -/
def BinarySearch (l : DynList) (value : Int) : Except Fault Int :=
  if l.size = 0 then .ok (-1)
  else BinarySearch.loop l value (l.size + 1) 0 (usub l.size 1)

/-- `(int)sqrt(n)` for an `unsigned int` `n`: the integer part of the square root
(the `double` square root of an integer below `2 ^ 32` truncates to the floor). -/
def sqrtFloor.go (n : Nat) : Nat → Nat
  | 0 => 0
  | r + 1 => if (r + 1) * (r + 1) ≤ n then r + 1 else sqrtFloor.go n r

/-- `(int)sqrt(n)`. -/
def sqrtFloor (n : Nat) : Int := (sqrtFloor.go n n : Nat)

/-- The first loop of `FibonacciSearch`: the smallest Fibonacci number that is at least
`size`, with its two predecessors `(fibMMm2, fibMMm1, fibM)`. -/
def FibonacciSearch.grow (size : Nat) : Nat → Int → Int → Int → Except Fault (Int × Int × Int)
  | 0, _, _, _ => .error .outOfFuel
  | fuel + 1, fibMMm2, fibMMm1, fibM =>
    if fibM < toInt size then FibonacciSearch.grow size fuel fibMMm1 fibM (fibM + fibMMm1)
    else .ok (fibMMm2, fibMMm1, fibM)

/-- The `while (fibM > 1)` loop of `FibonacciSearch` followed by the comparison of the
last element. -/
def FibonacciSearch.loop (l : DynList) (value : Int) :
    Nat → Int → Int → Int → Int → Except Fault Int
  | 0, _, _, _, _ => .error .outOfFuel
  | fuel + 1, fibMMm2, fibMMm1, fibM, offset =>
    if fibM > 1 then
      let i := Min (offset + fibMMm2) (toInt (usub l.size 1))
      match rd l.data i with
      | .error e => .error e
      | .ok x =>
        if x < value then
          FibonacciSearch.loop l value fuel (fibMMm1 - fibMMm2) fibMMm2 fibMMm1 i
        else if x > value then
          FibonacciSearch.loop l value fuel (fibMMm2 - (fibMMm1 - fibMMm2))
            (fibMMm1 - fibMMm2) fibMMm2 offset
        else .ok i
    else if fibMMm1 ≠ 0 then
      match rd l.data (offset + 1) with
      | .error e => .error e
      | .ok x => if x = value then .ok (offset + 1) else .ok (-1)
    else .ok (-1)

/-- `int FibonacciSearch(const T& value) const`. -/
def FibonacciSearch (l : DynList) (value : Int) : Except Fault Int :=
  match FibonacciSearch.grow l.size (l.size + 1) 0 1 (1 + 0) with
  | .error e => .error e
  | .ok (fibMMm2, fibMMm1, fibM) =>
    FibonacciSearch.loop l value (l.size + 1) fibMMm2 fibMMm1 fibM (-1)

/-- The linear scan of `JumpSearch` (second loop) and the final comparison. -/
def JumpSearch.scan (l : DynList) (value : Int) (step : Int) : Nat → Int → Except Fault Int
  | 0, _ => .error .outOfFuel
  | fuel + 1, prev =>
    match rd l.data prev with
    | .error e => .error e
    | .ok x =>
      if x < value then
        if prev + 1 = Min step (toInt l.size) then .ok (-1)
        else JumpSearch.scan l value step fuel (prev + 1)
      else
        match rd l.data prev with
        | .error e => .error e
        | .ok y => if y = value then .ok prev else .ok (-1)

/-- The block-finding loop of `JumpSearch` (first loop), continued by the linear scan. -/
def JumpSearch.jump (l : DynList) (value : Int) : Nat → Int → Int → Except Fault Int
  | 0, _, _ => .error .outOfFuel
  | fuel + 1, step, prev =>
    match rd l.data (Min step (toInt l.size) - 1) with
    | .error e => .error e
    | .ok x =>
      if x < value then
        if step ≥ toInt l.size then .ok (-1)
        else JumpSearch.jump l value fuel (step + sqrtFloor l.size) step
      else JumpSearch.scan l value step (l.size + 1) prev

/-- `int JumpSearch(const T& value) const`. -/
def JumpSearch (l : DynList) (value : Int) : Except Fault Int :=
  if l.size = 0 then .ok (-1)
  else JumpSearch.jump l value (l.size + 1) (sqrtFloor l.size) 0

/-! ## Sorting -/

/-- The `for (j = low; j <= high - 1; ++j)` loop of `Partition`; returns the buffer and `i`. -/
def Partition.loop (pivot high : Int) : Nat → List Int → Int → Int → Except Fault (List Int × Int)
  | 0, _, _, _ => .error .outOfFuel
  | fuel + 1, d, i, j =>
    if j ≤ high - 1 then
      match rd d j with
      | .error e => .error e
      | .ok x =>
        if x ≤ pivot then
          match Swap d (i + 1) j with
          | .error e => .error e
          | .ok d1 => Partition.loop pivot high fuel d1 (i + 1) (j + 1)
        else Partition.loop pivot high fuel d i (j + 1)
    else .ok (d, i)

/-- `int Partition(int low, int high)`: the new buffer and the partitioning index. -/
def Partition (d : List Int) (low high : Int) : Except Fault (List Int × Int) :=
  match rd d high with
  | .error e => .error e
  | .ok pivot =>
    match Partition.loop pivot high (d.length + 1) d (low - 1) low with
    | .error e => .error e
    | .ok (d1, i) =>
      match Swap d1 (i + 1) high with
      | .error e => .error e
      | .ok d2 => .ok (d2, i + 1)

/-- `void QuickSort(int low, int high)`. -/
def QuickSort.sort : Nat → List Int → Int → Int → Except Fault (List Int)
  | 0, _, _, _ => .error .outOfFuel
  | fuel + 1, d, low, high =>
    if low < high then
      match Partition d low high with
      | .error e => .error e
      | .ok (d1, partitionIndex) =>
        match QuickSort.sort fuel d1 low (partitionIndex - 1) with
        | .error e => .error e
        | .ok d2 => QuickSort.sort fuel d2 (partitionIndex + 1) high
    else .ok d

/-- `void QuickSort()`. -/
def QuickSort (l : DynList) : Except Fault DynList :=
  match QuickSort.sort (l.size + 1) l.data 0 (toInt (usub l.size 1)) with
  | .error e => .error e
  | .ok d => .ok { l with data := d }

/-- The forward sweep of `CocktailShakerSort`; `bound` is `size - (passes + 1)`. -/
def CocktailShakerSort.forward (bound : Nat) :
    Nat → List Int → Nat → Bool → Except Fault (List Int × Bool)
  | 0, _, _, _ => .error .outOfFuel
  | fuel + 1, d, i, sorted =>
    if i < bound then
      match rd d i, rd d (uadd i 1) with
      | .error e, _ => .error e
      | .ok _, .error e => .error e
      | .ok x, .ok y =>
        if x > y then
          match Swap d i (uadd i 1) with
          | .error e => .error e
          | .ok d1 => CocktailShakerSort.forward bound fuel d1 (uadd i 1) false
        else CocktailShakerSort.forward bound fuel d (uadd i 1) sorted
    else .ok (d, sorted)

/-- The backward sweep of `CocktailShakerSort`. -/
def CocktailShakerSort.backward : Nat → List Int → Nat → Bool → Except Fault (List Int × Bool)
  | 0, _, _, _ => .error .outOfFuel
  | fuel + 1, d, i, sorted =>
    if i > 0 then
      match rd d (usub i 1), rd d i with
      | .error e, _ => .error e
      | .ok _, .error e => .error e
      | .ok x, .ok y =>
        if x > y then
          match Swap d i (usub i 1) with
          | .error e => .error e
          | .ok d1 => CocktailShakerSort.backward fuel d1 (usub i 1) false
        else CocktailShakerSort.backward fuel d (usub i 1) sorted
    else .ok (d, sorted)

/-- The `while (!sorted)` loop of `CocktailShakerSort`, entered with `sorted == false`. -/
def CocktailShakerSort.outer (size : Nat) : Nat → List Int → Int → Except Fault (List Int)
  | 0, _, _ => .error .outOfFuel
  | fuel + 1, d, passes =>
    match CocktailShakerSort.forward (usub size (toUnsigned (passes + 1))) (d.length + 1) d 0 true with
    | .error e => .error e
    | .ok (d1, sorted1) =>
      match CocktailShakerSort.backward (d.length + 1) d1 (usub size 1) sorted1 with
      | .error e => .error e
      | .ok (d2, sorted2) =>
        if sorted2 then .ok d2 else CocktailShakerSort.outer size fuel d2 (passes + 1)

/-- `void CocktailShakerSort()`. -/
def CocktailShakerSort (l : DynList) : Except Fault DynList :=
  if l.size < 2 then .ok l
  else
    match CocktailShakerSort.outer l.size (l.size + 1) l.data 0 with
    | .error e => .error e
    | .ok d => .ok { l with data := d }

/-- The `while (j >= 0 && data[j] > key)` loop of `InsertionSort`; returns the buffer and `j`.
The assignment `data[j + 1] = data[j]` stores the value `x` that the loop test just read from
`data[j]`. -/
def InsertionSort.shift (key : Int) : Nat → List Int → Int → Except Fault (List Int × Int)
  | 0, _, _ => .error .outOfFuel
  | fuel + 1, d, j =>
    if j ≥ 0 then
      match rd d j with
      | .error e => .error e
      | .ok x =>
        if x > key then
          match wr d (j + 1) x with
          | .error e => .error e
          | .ok d1 => InsertionSort.shift key fuel d1 (j - 1)
        else .ok (d, j)
    else .ok (d, j)

/-- The `for (unsigned int i = 1; i < size; ++i)` loop of `InsertionSort`. -/
def InsertionSort.outer (size : Nat) : Nat → List Int → Nat → Except Fault (List Int)
  | 0, _, _ => .error .outOfFuel
  | fuel + 1, d, i =>
    if i < size then
      match rd d i with
      | .error e => .error e
      | .ok key =>
        match InsertionSort.shift key (d.length + 1) d (toInt (usub i 1)) with
        | .error e => .error e
        | .ok (d1, j) =>
          match wr d1 (j + 1) key with
          | .error e => .error e
          | .ok d2 => InsertionSort.outer size fuel d2 (uadd i 1)
    else .ok d

/-- `void InsertionSort()`. -/
def InsertionSort (l : DynList) : Except Fault DynList :=
  match InsertionSort.outer l.size (l.size + 1) l.data 1 with
  | .error e => .error e
  | .ok d => .ok { l with data := d }

/-- The choice of `largest` in `Heapify`: `child < _size && data[child] > data[largest]`. -/
def Heapify.pick (d : List Int) (_size child largest : Int) : Except Fault Int :=
  if child < _size then
    match rd d child, rd d largest with
    | .error e, _ => .error e
    | .ok _, .error e => .error e
    | .ok x, .ok y => if x > y then .ok child else .ok largest
  else .ok largest

/-- `void Heapify(int _size, int index)`. -/
def Heapify : Nat → List Int → Int → Int → Except Fault (List Int)
  | 0, _, _, _ => .error .outOfFuel
  | fuel + 1, d, _size, index =>
    match Heapify.pick d _size (2 * index + 1) index with
    | .error e => .error e
    | .ok largest1 =>
      match Heapify.pick d _size (2 * index + 2) largest1 with
      | .error e => .error e
      | .ok largest =>
        if largest ≠ index then
          match Swap d index largest with
          | .error e => .error e
          | .ok d1 => Heapify fuel d1 _size largest
        else .ok d

/-- The first loop of `HeapSort`: build the heap. -/
def HeapSort.build (size : Nat) : Nat → List Int → Int → Except Fault (List Int)
  | 0, _, _ => .error .outOfFuel
  | fuel + 1, d, i =>
    if i ≥ 0 then
      match Heapify (d.length + 1) d (toInt size) i with
      | .error e => .error e
      | .ok d1 => HeapSort.build size fuel d1 (i - 1)
    else .ok d

/-- The second loop of `HeapSort`: move the root to the end and restore the heap. -/
def HeapSort.extract : Nat → List Int → Int → Except Fault (List Int)
  | 0, _, _ => .error .outOfFuel
  | fuel + 1, d, i =>
    if i ≥ 0 then
      match Swap d 0 i with
      | .error e => .error e
      | .ok d1 =>
        match Heapify (d.length + 1) d1 i 0 with
        | .error e => .error e
        | .ok d2 => HeapSort.extract fuel d2 (i - 1)
    else .ok d

/-- `void HeapSort()`. -/
def HeapSort (l : DynList) : Except Fault DynList :=
  match HeapSort.build l.size (l.size + 1) l.data (toInt (usub (l.size / 2) 1)) with
  | .error e => .error e
  | .ok d1 =>
    match HeapSort.extract (l.size + 1) d1 (toInt (usub l.size 1)) with
    | .error e => .error e
    | .ok d2 => .ok { l with data := d2 }

/-! ## Storage and mutation -/

/-- The constructor `List(unsigned int _capacity)`. -/
def mkCapacity (_capacity : Nat) : DynList :=
  let capacity :=
    if _capacity = 0 then 1
    else if _capacity > MAX_CAPACITY then MAX_CAPACITY
    else _capacity
  { data := List.replicate capacity 0, size := 0, capacity := capacity }

/-- `T* newData = new T[n]; memcpy(newData, data, sizeof(T) * k);`: the new buffer.  `memcpy`
reads `k` elements of the old buffer and writes `k` elements of the new one. -/
def reallocate (d : List Int) (n k : Nat) : Except Fault (List Int) :=
  if d.length < k then .error (.outOfBounds d.length)
  else if n < k then .error (.outOfBounds n)
  else .ok (d.take k ++ List.replicate (n - k) 0)

/-- `void Reserve(unsigned int amount)`. -/
def Reserve (l : DynList) (amount : Nat) : Except Fault DynList :=
  if l.capacity = MAX_CAPACITY then .ok l
  else if uadd l.capacity amount > MAX_CAPACITY then
    match reallocate l.data MAX_CAPACITY MAX_CAPACITY with
    | .error e => .error e
    | .ok newData => .ok { l with data := newData, capacity := MAX_CAPACITY }
  else
    match reallocate l.data (uadd l.capacity amount) l.capacity with
    | .error e => .error e
    | .ok newData => .ok { l with data := newData, capacity := uadd l.capacity amount }

/-- `void Discard(unsigned int amount)`; the test `capacity - amount <= 0` is between
`unsigned int`. -/
def Discard (l : DynList) (amount : Nat) : Except Fault DynList :=
  if usub l.capacity amount ≤ 0 then .ok { data := [0], size := 0, capacity := 1 }
  else
    match reallocate l.data (usub l.capacity amount) (usub l.capacity amount) with
    | .error e => .error e
    | .ok newData =>
      .ok { data := newData, capacity := usub l.capacity amount,
            size := if l.size > usub l.capacity amount then usub l.capacity amount else l.size }

/-- `void ReduceSize(unsigned int amount)`. -/
def ReduceSize (l : DynList) (amount : Nat) : Except Fault DynList :=
  let l1 : DynList := { l with size := if amount > l.size then 0 else usub l.size amount }
  if l1.capacity > 5 ∧ l1.size < usub (l1.capacity / 2) 2 then Discard l1 (l1.capacity / 2)
  else .ok l1

/-- `void Push(const T& value)`. -/
def Push (l : DynList) (value : Int) : Except Fault DynList :=
  match (if l.size = l.capacity then Reserve l l.capacity else .ok l) with
  | .error e => .error e
  | .ok l1 =>
    if l1.size ≠ l1.capacity then
      match wr l1.data l1.size value with
      | .error e => .error e
      | .ok d => .ok { l1 with data := d, size := uadd l1.size 1 }
    else .ok l1

/-- The loop `for (unsigned int i = size - 1; i != index; --i) Swap(&data[i], &data[i - 1]);`
of `Insert`. -/
def Insert.shift (index : Nat) : Nat → List Int → Nat → Except Fault (List Int)
  | 0, _, _ => .error .outOfFuel
  | fuel + 1, d, i =>
    if i ≠ index then
      match Swap d i (usub i 1) with
      | .error e => .error e
      | .ok d1 => Insert.shift index fuel d1 (usub i 1)
    else .ok d

/-- `void Insert(unsigned int index, const T& value)`; `index < 0` is false for an
`unsigned int`. -/
def Insert (l : DynList) (index : Nat) (value : Int) : Except Fault DynList :=
  if index > l.size then .ok l
  else if index = l.size then Push l value
  else
    match Push l value with
    | .error e => .error e
    | .ok l1 =>
      match Insert.shift index (l1.size + 1) l1.data (usub l1.size 1) with
      | .error e => .error e
      | .ok d =>
        match wr d index value with
        | .error e => .error e
        | .ok d2 => .ok { l1 with data := d2 }

/-- `T& operator[] (const unsigned int index) const`; `index >= 0` is true for an
`unsigned int`. -/
def subscript (l : DynList) (index : Nat) : Except Fault Int :=
  if index < l.size then rd l.data index else .error .outOfRange

/-- The loop of `Insert(unsigned int index, const List<T>& values)`. -/
def InsertList.loop (index : Nat) (values : DynList) : Nat → DynList → Nat → Except Fault DynList
  | 0, _, _ => .error .outOfFuel
  | fuel + 1, l, i =>
    if i < values.size then
      match subscript values i with
      | .error e => .error e
      | .ok v =>
        match Insert l (uadd index i) v with
        | .error e => .error e
        | .ok l1 => InsertList.loop index values fuel l1 (uadd i 1)
    else .ok l

/-- `void Insert(unsigned int index, const List<T>& values)`, for `values` another list. -/
def InsertList (l : DynList) (index : Nat) (values : DynList) : Except Fault DynList :=
  if values.size = 0 then .ok l
  else InsertList.loop index values (values.size + 1) l 0

/-- `void Pop()`. -/
def Pop (l : DynList) : Except Fault DynList :=
  if l.size > 0 then ReduceSize l 1 else .ok l

/-- `void Remove(unsigned int index)`; `index >= 0` is true for an `unsigned int`. -/
def Remove (l : DynList) (index : Nat) : Except Fault DynList :=
  if l.size > 0 ∧ index < l.size then
    if l.size = 1 ∨ index = usub l.size 1 then Pop l
    else
      match rd l.data (usub l.size 1) with
      | .error e => .error e
      | .ok x =>
        match wr l.data index x with
        | .error e => .error e
        | .ok d => ReduceSize { l with data := d } 1
  else .ok l

/-- The loop `for (unsigned int i = index; i < size - 1; ++i) data[i] = data[i + 1];` of
`RemoveKeepOrder`. -/
def RemoveKeepOrder.shift (size : Nat) : Nat → List Int → Nat → Except Fault (List Int)
  | 0, _, _ => .error .outOfFuel
  | fuel + 1, d, i =>
    if i < usub size 1 then
      match rd d (uadd i 1) with
      | .error e => .error e
      | .ok x =>
        match wr d i x with
        | .error e => .error e
        | .ok d1 => RemoveKeepOrder.shift size fuel d1 (uadd i 1)
    else .ok d

/-- `void RemoveKeepOrder(unsigned int index)`. -/
def RemoveKeepOrder (l : DynList) (index : Nat) : Except Fault DynList :=
  if l.size = 0 then .ok l
  else if index = usub l.size 1 ∨ l.size = 1 then Pop l
  else
    match RemoveKeepOrder.shift l.size (l.size + 1) l.data index with
    | .error e => .error e
    | .ok d => ReduceSize { l with data := d } 1

/-- The argument `T& value` of `Remove` and `RemoveKeepOrder`: a reference to an object that
is not part of the list's buffer and holds `v`, a reference to the slot `k` of the list's
buffer (`list.Remove(list[k])`), or a reference into a buffer that has been released. -/
inductive Ref where
  | outside (v : Int)
  | slot (k : Nat)
  | released
  deriving DecidableEq, Repr

/-- Reading the referenced object, with `d` the current buffer of the list. -/
def Ref.read (d : List Int) : Ref → Except Fault Int
  | .outside v => .ok v
  | .slot k => rd d k
  | .released => .error .useAfterFree

/-- The reference after a call of `Remove(index)` or `RemoveKeepOrder(index)` that took the
list from `l` to `l1`.  The call releases the buffer (`delete[] data` in `Discard`) exactly when
`ReduceSize` calls `Discard(capacity / 2)`, that is exactly when the capacity changes; a
reference into the old buffer dangles from then on. -/
def Ref.after (l l1 : DynList) : Ref → Ref
  | .outside v => .outside v
  | .slot k => if l1.capacity = l.capacity then .slot k else .released
  | .released => .released

/-- The loop of `void Remove(T& value)`: `data[i] == value` reads the referenced object at
every iteration; after a removal `--i` and the `++i` of the loop leave `i` where it was. -/
def RemoveValue.loop : Nat → Ref → DynList → Nat → Except Fault DynList
  | 0, _, _, _ => .error .outOfFuel
  | fuel + 1, value, l, i =>
    if i < l.size then
      match rd l.data i with
      | .error e => .error e
      | .ok x =>
        match value.read l.data with
        | .error e => .error e
        | .ok v =>
          if x = v then
            match Remove l i with
            | .error e => .error e
            | .ok l1 => RemoveValue.loop fuel (value.after l l1) l1 (uadd (usub i 1) 1)
          else RemoveValue.loop fuel value l (uadd i 1)
    else .ok l

/-- `void Remove(T& value)`. -/
def RemoveValue (l : DynList) (value : Ref) : Except Fault DynList :=
  RemoveValue.loop (2 * l.size + 1) value l 0

/-- The loop of `void RemoveKeepOrder(T& value)`: `data[i] == value` reads the referenced
object at every iteration. -/
def RemoveKeepOrderValue.loop : Nat → Ref → DynList → Nat → Except Fault DynList
  | 0, _, _, _ => .error .outOfFuel
  | fuel + 1, value, l, i =>
    if i < l.size then
      match rd l.data i with
      | .error e => .error e
      | .ok x =>
        match value.read l.data with
        | .error e => .error e
        | .ok v =>
          if x = v then
            match RemoveKeepOrder l i with
            | .error e => .error e
            | .ok l1 =>
              RemoveKeepOrderValue.loop fuel (value.after l l1) l1 (uadd (usub i 1) 1)
          else RemoveKeepOrderValue.loop fuel value l (uadd i 1)
    else .ok l

/-- `void RemoveKeepOrder(T& value)`. -/
def RemoveKeepOrderValue (l : DynList) (value : Ref) : Except Fault DynList :=
  RemoveKeepOrderValue.loop (2 * l.size + 1) value l 0

/-- `void Clear()`. -/
def Clear (l : DynList) : Except Fault DynList := Discard l l.capacity

/-- A sequence of `Push` calls, one for each value of the list, in order. -/
def PushAll : DynList → List Int → Except Fault DynList
  | l, [] => .ok l
  | l, v :: vs =>
    match Push l v with
    | .error e => .error e
    | .ok l1 => PushAll l1 vs

/-- A sequence of `n` calls of `Pop`. -/
def PopTimes : Nat → DynList → Except Fault DynList
  | 0, l => .ok l
  | n + 1, l =>
    match Pop l with
    | .error e => .error e
    | .ok l1 => PopTimes n l1

/-! ## Vocabulary of the statements -/

/-- Total element access: the content of slot `i`, and `0` outside the buffer. -/
def at0 (d : List Int) (i : Int) : Int := if 0 ≤ i then d.getD i.toNat 0 else 0

/-- The first `n` slots are in non-decreasing order, index by index. -/
def SortedUpTo (d : List Int) (n : Int) : Prop :=
  ∀ i j : Int, 0 ≤ i → i ≤ j → j < n → at0 d i ≤ at0 d j

/-- The buffer after exchanging the slots `a` and `b`. -/
def swapL (d : List Int) (a b : Int) : List Int :=
  (d.set a.toNat (at0 d b)).set b.toNat (at0 d a)

/-- What a search may return: an index of the live range holding the value, or `-1` when no
slot of the live range holds it. -/
def SearchResult (l : DynList) (value : Int) (r : Int) : Prop :=
  (0 ≤ r ∧ r < l.size ∧ at0 l.data r = value) ∨
  (r = -1 ∧ ∀ j : Int, 0 ≤ j → j < l.size → at0 l.data j ≠ value)

/-- The buffer `d'` is a rearrangement of the buffer `d` inside the first `n` slots: same
number of slots, the first `n` slots are a permutation, the other slots are untouched. -/
def Rearr (n : Nat) (d d' : List Int) : Prop :=
  d'.length = d.length ∧ (d'.take n).Perm (d.take n) ∧ d'.drop n = d.drop n

/-- What the shifting loop of `InsertionSort` establishes, started on buffer `d` with index `j`
and ending on buffer `d'` with index `j'`: the slots `(j', j]` were moved one place up, they all
hold values above `key`, and the slot below them does not. -/
def ShiftPost (n : Nat) (key : Int) (d : List Int) (j : Int) (d' : List Int) (j' : Int) : Prop :=
  -1 ≤ j' ∧ j' ≤ j ∧
  (∀ k : Int, k ≤ j' ∨ j + 1 < k → at0 d' k = at0 d k) ∧
  (∀ k : Int, j' + 1 < k → k ≤ j + 1 → at0 d' k = at0 d (k - 1) ∧ key < at0 d' k) ∧
  (0 ≤ j' → at0 d' j' ≤ key) ∧
  Rearr n (d.set (j + 1).toNat key) (d'.set (j' + 1).toNat key)

/-- The first `k` slots are final: they are in order and none of them exceeds a later slot of
the first `n`. -/
def Final (d : List Int) (k n : Int) : Prop :=
  ∀ a b : Int, 0 ≤ a → a < k → a ≤ b → b < n → at0 d a ≤ at0 d b

/-- Neighbouring slots of the first `n` are in order. -/
def AdjSorted (d : List Int) (n : Int) : Prop :=
  ∀ c : Int, 1 ≤ c → c < n → at0 d (c - 1) ≤ at0 d c

/-- During the backward sweep at index `i`: the slot `max i k` does not exceed any later slot. -/
def Low (d : List Int) (k i n : Int) : Prop :=
  ∀ b : Int, i ≤ b → k ≤ b → b < n → at0 d (if i ≤ k then k else i) ≤ at0 d b

/-- The buffer `d'` differs from `d` only inside the index range `[lo, hi]`, and every value
found there in `d'` was there in `d`. -/
def Within (lo hi : Int) (d d' : List Int) : Prop :=
  (∀ k : Int, k < lo ∨ hi < k → at0 d' k = at0 d k) ∧
  (∀ k : Int, lo ≤ k → k ≤ hi → ∃ k' : Int, lo ≤ k' ∧ k' ≤ hi ∧ at0 d' k = at0 d k')

/-- The state of the scanning loop of `Partition` and its result: slots `[low, i]` hold values
not above the pivot, slots `(i, j)` hold values above it. -/
def Parted (d : List Int) (pivot low i j : Int) : Prop :=
  (∀ k : Int, low ≤ k → k ≤ i → at0 d k ≤ pivot) ∧
  (∀ k : Int, i < k → k < j → pivot < at0 d k)

/-- The heap condition at node `k` of a heap of `hsz` slots: no child (`2k+1`, `2k+2`) inside
the heap exceeds its parent. -/
def HeapAt (d : List Int) (hsz k : Int) : Prop :=
  ∀ ch : Int, ch = 2 * k + 1 ∨ ch = 2 * k + 2 → ch < hsz → at0 d ch ≤ at0 d k

/-- The heap condition at every node from `lo` on. -/
def HeapFrom (d : List Int) (lo hsz : Int) : Prop :=
  ∀ k : Int, lo ≤ k → HeapAt d hsz k

/-- The heap condition at every node from `lo` on, the node `idx` excepted. -/
def HeapExcept (d : List Int) (lo hsz idx : Int) : Prop :=
  ∀ k : Int, lo ≤ k → k ≠ idx → HeapAt d hsz k

/-- The children of `idx` do not exceed the parent of `idx` (when that parent is at or after
`lo`). -/
def Bridge (d : List Int) (lo hsz idx : Int) : Prop :=
  ∀ q : Int, lo ≤ q → (idx = 2 * q + 1 ∨ idx = 2 * q + 2) →
    ∀ ch : Int, ch = 2 * idx + 1 ∨ ch = 2 * idx + 2 → ch < hsz → at0 d ch ≤ at0 d q

/-- The effect of an operation that only rearranges the live range: size and capacity are kept,
the buffer keeps its length, and the reserved slots `[size, capacity)` keep their contents. -/
def Frame (l l' : DynList) : Prop :=
  l'.size = l.size ∧ l'.capacity = l.capacity ∧ l'.data.length = l.data.length ∧
  l'.data.drop l.size = l.data.drop l.size

/-- The slots `[low, high]` of the buffer, as a list. -/
def slots (d : List Int) (low high : Int) : List Int :=
  (d.drop low.toNat).take (high - low + 1).toNat

/-- The first `m` slots are a max-heap: no slot exceeds its parent `(i - 1) / 2`. -/
def MaxHeap (d : List Int) (m : Int) : Prop :=
  ∀ i : Int, 0 < i → i < m → at0 d i ≤ at0 d ((i - 1) / 2)

/-- The size and capacity bounds of the container: `1 <= capacity <= MAX_CAPACITY` and
`0 <= size <= capacity`. -/
def Inv (l : DynList) : Prop :=
  1 ≤ l.capacity ∧ l.capacity ≤ MAX_CAPACITY ∧ 0 ≤ l.size ∧ l.size ≤ l.capacity

instance (l : DynList) : Decidable (Inv l) := by
  unfold Inv; infer_instance

/-- The last `k` of the first `n` slots are final: each of them is at least every slot before
it. -/
def Top (d : List Int) (k n : Int) : Prop :=
  ∀ a b : Int, 0 ≤ a → a ≤ b → n - k ≤ b → b < n → at0 d a ≤ at0 d b

/-! ## Machine arithmetic and buffer access -/

theorem uadd_eq_mod {a b : Nat} (ha : a < UINT_RANGE) (hb : b < UINT_RANGE) :
    uadd a b = (a + b) % UINT_RANGE := by
  unfold uadd; unfold UINT_RANGE at *; split <;> omega

theorem usub_eq_mod {a b : Nat} (ha : a < UINT_RANGE) (hb : b < UINT_RANGE) :
    usub a b = (a + (UINT_RANGE - b)) % UINT_RANGE := by
  unfold usub; unfold UINT_RANGE at *; split <;> omega

theorem toUnsigned_eq_mod {i : Int} (h0 : -2147483648 ≤ i) (h : i < 2147483648) :
    (toUnsigned i : Int) = i % (UINT_RANGE : Int) := by
  unfold toUnsigned UINT_RANGE; split <;> omega

theorem toInt_toUnsigned {i : Int} (h0 : -2147483648 ≤ i) (h : i < 2147483648) :
    toInt (toUnsigned i) = i := by
  unfold toUnsigned toInt; split <;> split <;> omega

theorem uadd_small {a b : Nat} (h : a + b < 4294967296) : uadd a b = a + b := by
  unfold uadd; rw [if_pos h]

theorem usub_small {a b : Nat} (hb : b ≤ a) : usub a b = a - b := by
  unfold usub; rw [if_pos hb]

theorem usub_zero_one : usub 0 1 = 4294967295 := by decide

theorem toInt_small {u : Nat} (h : u < 2147483648) : toInt u = (u : Int) := by
  unfold toInt; rw [if_pos h]

theorem toInt_max : toInt 4294967295 = -1 := by decide

theorem toUnsigned_small {i : Int} (h0 : 0 ≤ i) : toUnsigned i = i.toNat := by
  unfold toUnsigned; rw [if_pos h0]

theorem at0_nat {d : List Int} {i : Nat} (h : i < d.length) : at0 d (i : Int) = d[i] := by
  unfold at0
  simp [List.getElem?_eq_getElem h]

theorem rd_ok {d : List Int} {i : Int} (h0 : 0 ≤ i) (h : i < d.length) :
    rd d i = .ok (at0 d i) := by
  have hlt : i.toNat < d.length := by omega
  unfold rd at0
  simp [h0, List.getElem?_eq_getElem hlt]

theorem rd_neg {d : List Int} {i : Int} (h : i < 0) : rd d i = .error (.outOfBounds i) := by
  unfold rd; simp; omega

theorem rd_ge {d : List Int} {i : Int} (h : (d.length : Int) ≤ i) :
    rd d i = .error (.outOfBounds i) := by
  have hge : d.length ≤ i.toNat := by omega
  unfold rd
  simp [List.getElem?_eq_none hge]

theorem wr_ok {d : List Int} {i : Int} (v : Int) (h0 : 0 ≤ i) (h : i < d.length) :
    wr d i v = .ok (d.set i.toNat v) := by
  have hlt : i.toNat < d.length := by omega
  unfold wr
  simp [h0, hlt]

theorem at0_set {d : List Int} {a : Int} (v : Int) (h0 : 0 ≤ a) (h : a < d.length) (k : Int) :
    at0 (d.set a.toNat v) k = if k = a then v else at0 d k := by
  unfold at0
  by_cases hk : 0 ≤ k
  · simp only [if_pos hk, List.getD_eq_getElem?_getD, List.getElem?_set]
    by_cases hka : k = a
    · subst hka
      have : k.toNat < d.length := by omega
      simp [this]
    · have : ¬ a.toNat = k.toNat := by omega
      simp [this, hka]
  · have : k ≠ a := by omega
    simp [hk, this]

theorem Swap_ok {d : List Int} {a b : Int} (ha0 : 0 ≤ a) (ha : a < d.length)
    (hb0 : 0 ≤ b) (hb : b < d.length) : Swap d a b = .ok (swapL d a b) := by
  unfold Swap swapL
  simp only [rd_ok ha0 ha, rd_ok hb0 hb, wr_ok _ ha0 ha, bind, Except.bind]
  rw [wr_ok _ hb0 (by simpa using hb)]

theorem length_swapL (d : List Int) (a b : Int) : (swapL d a b).length = d.length := by
  simp [swapL]

theorem at0_swapL {d : List Int} {a b : Int} (ha0 : 0 ≤ a) (ha : a < d.length)
    (hb0 : 0 ≤ b) (hb : b < d.length) (k : Int) :
    at0 (swapL d a b) k = if k = b then at0 d a else if k = a then at0 d b else at0 d k := by
  unfold swapL
  rw [at0_set _ hb0 (by simpa using hb), at0_set _ ha0 ha]

theorem swapL_perm {d : List Int} {a b : Int} (ha0 : 0 ≤ a) (ha : a < d.length)
    (hb0 : 0 ≤ b) (hb : b < d.length) : (swapL d a b).Perm d := by
  have hA : a.toNat < d.length := by omega
  have hB : b.toNat < d.length := by omega
  have hva : at0 d a = d[a.toNat] := by
    have := at0_nat hA
    rwa [Int.toNat_of_nonneg ha0] at this
  have hvb : at0 d b = d[b.toNat] := by
    have := at0_nat hB
    rwa [Int.toNat_of_nonneg hb0] at this
  rw [List.perm_iff_count]
  intro x
  unfold swapL
  rw [List.count_set _ _ _ _ (by simpa using hB), List.count_set _ _ _ _ hA,
    List.getElem_set, hva, hvb]
  have h1 := List.count_pos_iff.mpr (List.getElem_mem hA)
  have h2 := List.count_pos_iff.mpr (List.getElem_mem hB)
  by_cases hab : a.toNat = b.toNat
  · simp only [hab, if_true]
    by_cases hx : d[b.toNat] = x
    · simp only [hab] at h1
      rw [hx] at h2
      simp only [hx, beq_self_eq_true, if_true]
      omega
    · have hx' : (d[b.toNat] == x) = false := by simpa using hx
      simp only [hx']
      simp
  · simp only [if_neg hab]
    by_cases hxa : d[a.toNat] = x <;> by_cases hxb : d[b.toNat] = x
    · rw [hxa] at h1
      simp only [hxa, hxb, beq_self_eq_true, if_true]
      omega
    · rw [hxa] at h1
      have hxb' : (d[b.toNat] == x) = false := by simpa using hxb
      simp only [hxa, hxb', beq_self_eq_true, if_true]
      simp
      omega
    · rw [hxb] at h2
      have hxa' : (d[a.toNat] == x) = false := by simpa using hxa
      simp only [hxa', hxb, beq_self_eq_true, if_true]
      simp
    · have hxa' : (d[a.toNat] == x) = false := by simpa using hxa
      have hxb' : (d[b.toNat] == x) = false := by simpa using hxb
      simp [hxa', hxb']

theorem take_swapL {d : List Int} {a b : Int} (n : Nat) (ha0 : 0 ≤ a) (ha : a < n)
    (hb0 : 0 ≤ b) (hb : b < n) :
    (swapL d a b).take n = swapL (d.take n) a b := by
  have e : ∀ k : Int, 0 ≤ k → k < n → at0 (d.take n) k = at0 d k := by
    intro k hk0 hk
    unfold at0
    have : k.toNat < n := by omega
    simp [hk0, List.getElem?_take, this]
  unfold swapL
  rw [List.set_take, List.set_take, e a ha0 ha, e b hb0 hb]

theorem take_swapL_perm {d : List Int} {a b : Int} (n : Nat) (ha0 : 0 ≤ a) (ha : a < n)
    (hb0 : 0 ≤ b) (hb : b < n) (hn : n ≤ d.length) :
    ((swapL d a b).take n).Perm (d.take n) := by
  rw [take_swapL n ha0 ha hb0 hb]
  have hl : (d.take n).length = n := by simp; omega
  exact swapL_perm ha0 (by omega) hb0 (by omega)

theorem drop_swapL {d : List Int} {a b : Int} (n : Nat) (ha0 : 0 ≤ a) (ha : a < n)
    (_hb0 : 0 ≤ b) (hb : b < n) : (swapL d a b).drop n = d.drop n := by
  unfold swapL
  have h1 : a.toNat < n := by omega
  have h2 : b.toNat < n := by omega
  rw [List.drop_set, if_pos h2, List.drop_set, if_pos h1]

/-! ## From the index-wise statements to the live range -/

theorem live_length {l : DynList} (hwf : WF l) : (live l).length = l.size := by
  obtain ⟨hlen, hsz, -, -⟩ := hwf
  simp [live]; omega

theorem at0_live {l : DynList} (hwf : WF l) {p : Nat} (hp : p < (live l).length) :
    (live l)[p] = at0 l.data (p : Int) := by
  have hlive := live_length hwf
  obtain ⟨hlen, hsz, -, -⟩ := hwf
  rw [at0_nat (by omega)]
  simp [live]

theorem sortedUpTo_of_live {l : DynList} (hwf : WF l) (hs : (live l).Sorted (· ≤ ·)) :
    SortedUpTo l.data l.size := by
  intro i j hi hij hj
  have hlive := live_length hwf
  rcases eq_or_lt_of_le hij with rfl | hlt
  · exact le_refl _
  · have h := List.pairwise_iff_getElem.mp hs i.toNat j.toNat (by omega) (by omega) (by omega)
    rw [at0_live hwf, at0_live hwf, Int.toNat_of_nonneg hi,
      Int.toNat_of_nonneg (by omega)] at h
    exact h

theorem live_sorted_of_sortedUpTo {l : DynList} (hwf : WF l)
    (hs : SortedUpTo l.data l.size) : (live l).Sorted (· ≤ ·) := by
  have hlive := live_length hwf
  apply List.pairwise_iff_getElem.mpr
  intro i j hi hj hij
  rw [at0_live hwf, at0_live hwf]
  exact hs i j (by omega) (by omega) (by omega)

theorem mem_live_iff {l : DynList} (hwf : WF l) (v : Int) :
    v ∈ live l ↔ ∃ p : Int, 0 ≤ p ∧ p < l.size ∧ at0 l.data p = v := by
  have hlive := live_length hwf
  constructor
  · intro h
    obtain ⟨p, hp, hpv⟩ := List.getElem_of_mem h
    refine ⟨(p : Int), by omega, by omega, ?_⟩
    rw [← at0_live hwf]
    exact hpv
  · rintro ⟨p, hp0, hp, hpv⟩
    have hlt : p.toNat < (live l).length := by omega
    have h := at0_live hwf hlt
    rw [Int.toNat_of_nonneg hp0, hpv] at h
    subst h
    exact List.getElem_mem _

/-! ## BinarySearch -/

theorem BinarySearch_loop_found (l : DynList) (value : Int) (hwf : WF l)
    (hs : SortedUpTo l.data l.size) (p : Nat) (hp : at0 l.data p = value) :
    ∀ fuel s e, s ≤ p → p ≤ e → e < l.size → e - s < fuel →
      ∃ i : Int, BinarySearch.loop l value fuel s e = .ok i ∧ 0 ≤ i ∧ i < l.size ∧
        at0 l.data i = value := by
  obtain ⟨hlen, hsz, -, hcap⟩ := hwf
  unfold MAX_CAPACITY at hcap
  intro fuel
  induction fuel with
  | zero => intro s e _ _ _ h; omega
  | succ n ih =>
    intro s e hsp hpe he hfuel
    have hse : s ≤ e := le_trans hsp hpe
    have hpiv : uadd s e / 2 = (s + e) / 2 := by rw [uadd_small (by omega)]
    have hlt : (((s + e) / 2 : Nat) : Int) < l.data.length := by omega
    simp only [BinarySearch.loop, if_pos hse, hpiv, rd_ok (Int.natCast_nonneg _) hlt]
    by_cases hx : at0 l.data (((s + e) / 2 : Nat) : Int) = value
    · simp only [if_pos hx]
      exact ⟨_, by rw [toInt_small (by omega)], by omega, by omega, hx⟩
    · simp only [if_neg hx]
      by_cases hv : value < at0 l.data (((s + e) / 2 : Nat) : Int)
      · simp only [if_pos hv]
        have hpp : p < (s + e) / 2 := by
          by_contra hcon
          have := hs (((s + e) / 2 : Nat) : Int) p (by omega) (by omega) (by omega)
          rw [hp] at this; omega
        rw [usub_small (by omega)]
        exact ih s ((s + e) / 2 - 1) hsp (by omega) (by omega) (by omega)
      · simp only [if_neg hv]
        have hpp : (s + e) / 2 < p := by
          by_contra hcon
          have := hs p (((s + e) / 2 : Nat) : Int) (by omega) (by omega) (by omega)
          rw [hp] at this
          omega
        rw [uadd_small (by omega)]
        exact ih ((s + e) / 2 + 1) e (by omega) hpe he (by omega)

/-- C4: on a list whose live range is sorted ascending, `BinarySearch` of a value that occurs
in the live range returns an index `i` with `0 <= i < size` and `data[i] == value`. -/
theorem BinarySearch_found (l : DynList) (value : Int) (hwf : WF l)
    (hs : (live l).Sorted (· ≤ ·)) (hmem : value ∈ live l) :
    ∃ i : Int, BinarySearch l value = .ok i ∧ 0 ≤ i ∧ i < l.size ∧
      l.data[i.toNat]? = some value := by
  obtain ⟨p, hp0, hp, hpv⟩ := (mem_live_iff hwf value).mp hmem
  have hsz : l.size ≠ 0 := by omega
  have hcap : l.size ≤ 500 := le_trans hwf.2.1 hwf.2.2.2
  have hpv' : at0 l.data (p.toNat : Int) = value := by rwa [Int.toNat_of_nonneg hp0]
  obtain ⟨i, hi, hi0, hil, hiv⟩ := BinarySearch_loop_found l value hwf
    (sortedUpTo_of_live hwf hs) p.toNat hpv' (l.size + 1) 0 (l.size - 1)
    (by omega) (by omega) (by omega) (by omega)
  refine ⟨i, ?_, hi0, hil, ?_⟩
  · unfold BinarySearch
    rw [if_neg hsz, usub_small (by omega)]
    exact hi
  · have hlt : i.toNat < l.data.length := by have := hwf.1; have := hwf.2.1; omega
    have h := at0_nat hlt
    rw [Int.toNat_of_nonneg hi0, hiv] at h
    rw [List.getElem?_eq_getElem hlt, h]

/-- Witness for C4: scenario 3 of the specification, `BinarySearch(7)` on `[1,3,5,7,9,11]`. -/
theorem BinarySearch_found_witness :
    WF ⟨[1, 3, 5, 7, 9, 11], 6, 6⟩ ∧ (live ⟨[1, 3, 5, 7, 9, 11], 6, 6⟩).Sorted (· ≤ ·) ∧
    (7 : Int) ∈ live ⟨[1, 3, 5, 7, 9, 11], 6, 6⟩ ∧
    ∃ i : Int, BinarySearch ⟨[1, 3, 5, 7, 9, 11], 6, 6⟩ 7 = .ok i ∧ 0 ≤ i ∧
      i < (6 : Nat) ∧ [1, 3, 5, 7, 9, 11][i.toNat]? = some (7 : Int) :=
  ⟨by decide, by decide, by decide,
    BinarySearch_found ⟨[1, 3, 5, 7, 9, 11], 6, 6⟩ 7 (by decide) (by decide) (by decide)⟩

/-- C1: `BinarySearch` of an absent value that is smaller than every element does not return
the sentinel: on the one-element list `[1]` the search for `0` sets `endIndex = 0 - 1`, which
wraps to `4294967295`, and the next pivot `2147483647` is read outside the buffer. -/
theorem BinarySearch_absent_small_reads_outside :
    WF ⟨[1, 0, 0, 0, 0], 1, 5⟩ ∧ (live ⟨[1, 0, 0, 0, 0], 1, 5⟩).Sorted (· ≤ ·) ∧
    (0 : Int) ∉ live ⟨[1, 0, 0, 0, 0], 1, 5⟩ ∧
    BinarySearch ⟨[1, 0, 0, 0, 0], 1, 5⟩ 0 = .error (.outOfBounds 2147483647) := by
  decide

/-! ## FibonacciSearch -/

theorem le_fib_add_two (k : Nat) : k + 1 ≤ Nat.fib (k + 2) := by
  induction k with
  | zero => decide
  | succ n ih =>
    rw [Nat.fib_add_two]
    have : 1 ≤ Nat.fib (n + 1) := Nat.fib_pos.mpr (by omega)
    rw [show n + 1 + 1 = n + 2 from rfl]
    omega

theorem FibonacciSearch_grow_spec (size : Nat) (hsz : size ≤ 500) :
    ∀ fuel k, k ≤ size → size < fuel + k →
      ∃ k', FibonacciSearch.grow size fuel (Nat.fib k) (Nat.fib (k + 1)) (Nat.fib (k + 2)) =
          .ok ((Nat.fib k' : Int), (Nat.fib (k' + 1) : Int), (Nat.fib (k' + 2) : Int)) ∧
        size ≤ Nat.fib (k' + 2) ∧ k' ≤ size := by
  intro fuel
  induction fuel with
  | zero => intro k h1 h2; omega
  | succ n ih =>
    intro k hk hfuel
    have hto : toInt size = (size : Int) := toInt_small (by omega)
    by_cases hlt : ((Nat.fib (k + 2) : Nat) : Int) < (size : Int)
    · simp only [FibonacciSearch.grow, hto, if_pos hlt]
      have hk1 := le_fib_add_two k
      have hrec : ((Nat.fib (k + 2) : Nat) : Int) + ((Nat.fib (k + 1) : Nat) : Int) =
          ((Nat.fib (k + 1 + 2) : Nat) : Int) := by
        rw [Nat.fib_add_two (n := k + 1)]; push_cast; ring
      rw [hrec]
      exact ih (k + 1) (by omega) (by omega)
    · simp only [FibonacciSearch.grow, hto, if_neg hlt]
      exact ⟨k, rfl, by omega, hk⟩

theorem FibonacciSearch_loop_found (l : DynList) (value : Int) (hwf : WF l)
    (hs : SortedUpTo l.data l.size) (p : Int) (hp0 : 0 ≤ p) (hpl : p < l.size)
    (hp : at0 l.data p = value) :
    ∀ fuel k (offset : Int), k < fuel → -1 ≤ offset → offset < p →
      p ≤ offset + Nat.fib (k + 2) →
      ∃ i : Int, FibonacciSearch.loop l value fuel (Nat.fib k) (Nat.fib (k + 1))
          (Nat.fib (k + 2)) offset = .ok i ∧ 0 ≤ i ∧ i < l.size ∧ at0 l.data i = value := by
  obtain ⟨hlen, hsz, -, hcap⟩ := hwf
  unfold MAX_CAPACITY at hcap
  have hlast : toInt (usub l.size 1) = (l.size : Int) - 1 := by
    rw [usub_small (by omega), toInt_small (by omega)]; omega
  intro fuel
  induction fuel with
  | zero => intro k offset h; omega
  | succ n ih =>
    intro k offset hk hoff hop hpo
    cases k with
    | zero =>
      have hM : ¬ ((Nat.fib (0 + 2) : Nat) : Int) > 1 := by decide
      have hm1 : ((Nat.fib (0 + 1) : Nat) : Int) ≠ 0 := by decide
      have hpe : p = offset + 1 := by
        have : ((Nat.fib (0 + 2) : Nat) : Int) = 1 := by decide
        omega
      simp only [FibonacciSearch.loop, if_neg hM, if_pos hm1]
      rw [← hpe, rd_ok hp0 (by omega)]
      simp only [if_pos hp]
      exact ⟨p, rfl, hp0, hpl, hp⟩
    | succ k =>
      have hf1 : 1 ≤ Nat.fib (k + 1) := Nat.fib_pos.mpr (by omega)
      have hrec1 : Nat.fib (k + 1 + 2) = Nat.fib (k + 1) + Nat.fib (k + 2) :=
        Nat.fib_add_two
      have hrec0 : Nat.fib (k + 2) = Nat.fib k + Nat.fib (k + 1) := Nat.fib_add_two
      have hM : ((Nat.fib (k + 1 + 2) : Nat) : Int) > 1 := by
        have := le_fib_add_two (k + 1); omega
      simp only [FibonacciSearch.loop, if_pos hM, hlast]
      rw [show k + 1 + 1 = k + 2 from rfl]
      generalize hi : Min (offset + ((Nat.fib (k + 1) : Nat) : Int)) ((l.size : Int) - 1) = i
      have hi0 : 0 ≤ i := by
        rw [← hi]; unfold Min; split <;> omega
      have hil : i < l.size := by
        rw [← hi]; unfold Min; split <;> omega
      have hile : i ≤ offset + ((Nat.fib (k + 1) : Nat) : Int) := by
        rw [← hi]; unfold Min; split <;> omega
      have hicase : i = offset + ((Nat.fib (k + 1) : Nat) : Int) ∨ i = (l.size : Int) - 1 := by
        rw [← hi]; unfold Min; split
        · left; rfl
        · right; rfl
      simp only [rd_ok hi0 (show i < l.data.length by omega)]
      by_cases hlt : at0 l.data i < value
      · simp only [if_pos hlt]
        have hip : i < p := by
          by_contra hcon
          have := hs p i hp0 (by omega) hil
          omega
        have e1 : ((Nat.fib (k + 2) : Nat) : Int) - ((Nat.fib (k + 1) : Nat) : Int) =
            ((Nat.fib k : Nat) : Int) := by omega
        rw [e1]
        exact ih k i (by omega) (by omega) hip (by omega)
      · simp only [if_neg hlt]
        by_cases hgt : at0 l.data i > value
        · simp only [if_pos hgt]
          have hip : p < i := by
            by_contra hcon
            have := hs i p hi0 (by omega) hpl
            omega
          cases k with
          | zero =>
            have : ((Nat.fib (0 + 1) : Nat) : Int) = 1 := by decide
            omega
          | succ k =>
            simp only [show k + 1 + 1 = k + 2 from rfl, show k + 1 + 2 = k + 3 from rfl] at *
            have hrec2 : Nat.fib (k + 2) = Nat.fib k + Nat.fib (k + 1) := Nat.fib_add_two
            have hrec3 : Nat.fib (k + 3) = Nat.fib (k + 1) + Nat.fib (k + 2) := Nat.fib_add_two
            have e1 : ((Nat.fib (k + 3) : Nat) : Int) - ((Nat.fib (k + 2) : Nat) : Int) =
                ((Nat.fib (k + 1) : Nat) : Int) := by omega
            have e2 : ((Nat.fib (k + 2) : Nat) : Int) - ((Nat.fib (k + 1) : Nat) : Int) =
                ((Nat.fib k : Nat) : Int) := by omega
            rw [e1, e2]
            exact ih k offset (by omega) hoff hop (by omega)
        · simp only [if_neg hgt]
          exact ⟨i, rfl, hi0, hil, by omega⟩

/-- C5: on a list whose live range is sorted ascending, `FibonacciSearch` of a value that
occurs in the live range returns an index `i` with `0 <= i < size` and `data[i] == value`. -/
theorem FibonacciSearch_found (l : DynList) (value : Int) (hwf : WF l)
    (hs : (live l).Sorted (· ≤ ·)) (hmem : value ∈ live l) :
    ∃ i : Int, FibonacciSearch l value = .ok i ∧ 0 ≤ i ∧ i < l.size ∧
      l.data[i.toNat]? = some value := by
  obtain ⟨p, hp0, hp, hpv⟩ := (mem_live_iff hwf value).mp hmem
  have hcap : l.size ≤ 500 := le_trans hwf.2.1 hwf.2.2.2
  obtain ⟨k, hk, hkM, hkl⟩ := FibonacciSearch_grow_spec l.size hcap (l.size + 1) 0
    (by omega) (by omega)
  obtain ⟨i, hi, hi0, hil, hiv⟩ := FibonacciSearch_loop_found l value hwf
    (sortedUpTo_of_live hwf hs) p hp0 hp hpv (l.size + 1) k (-1) (by omega) (by omega)
    (by omega) (by omega)
  refine ⟨i, ?_, hi0, hil, ?_⟩
  · unfold FibonacciSearch
    have h0 : ((Nat.fib 0 : Nat) : Int) = 0 := by decide
    have h1 : ((Nat.fib (0 + 1) : Nat) : Int) = 1 := by decide
    have h2 : ((Nat.fib (0 + 2) : Nat) : Int) = 1 + 0 := by decide
    rw [h0, h1, h2] at hk
    rw [hk]
    exact hi
  · have hlt : i.toNat < l.data.length := by have := hwf.1; have := hwf.2.1; omega
    have h := at0_nat hlt
    rw [Int.toNat_of_nonneg hi0, hiv] at h
    rw [List.getElem?_eq_getElem hlt, h]

/-- Witness for C5: `FibonacciSearch(9)` on `[1,3,5,7,9,11]`. -/
theorem FibonacciSearch_found_witness :
    WF ⟨[1, 3, 5, 7, 9, 11], 6, 6⟩ ∧ (live ⟨[1, 3, 5, 7, 9, 11], 6, 6⟩).Sorted (· ≤ ·) ∧
    (9 : Int) ∈ live ⟨[1, 3, 5, 7, 9, 11], 6, 6⟩ ∧
    ∃ i : Int, FibonacciSearch ⟨[1, 3, 5, 7, 9, 11], 6, 6⟩ 9 = .ok i ∧ 0 ≤ i ∧
      i < (6 : Nat) ∧ [1, 3, 5, 7, 9, 11][i.toNat]? = some (9 : Int) :=
  ⟨by decide, by decide, by decide,
    FibonacciSearch_found ⟨[1, 3, 5, 7, 9, 11], 6, 6⟩ 9 (by decide) (by decide) (by decide)⟩

/-- C2: `FibonacciSearch` on the empty list built by the default constructor compares the
reserved slot `data[0]` with the value; the search for the absent value `0` returns index `0`
and not the sentinel `-1`. -/
theorem FibonacciSearch_empty_returns_index :
    WF mkDefault ∧ (live mkDefault).Sorted (· ≤ ·) ∧ (0 : Int) ∉ live mkDefault ∧
    FibonacciSearch mkDefault 0 = .ok 0 := by
  decide

/-- The final comparison of `FibonacciSearch` on a non-empty list: searching `[1,2,3,4]` for
the absent value `5` ends with `offset == 3` and compares `data[4]`, which is a reserved slot
(the stale `5` is reported as found at index `4 == size`) or, when `size == capacity`, a slot
outside the buffer. -/
theorem FibonacciSearch_reads_slot_size :
    FibonacciSearch ⟨[1, 2, 3, 4, 5], 4, 5⟩ 5 = .ok 4 ∧
    FibonacciSearch ⟨[1, 2, 3, 4], 4, 4⟩ 5 = .error (.outOfBounds 4) := by
  decide

/-! ## JumpSearch -/

theorem sqrtFloor_go_spec (n : Nat) :
    ∀ r, sqrtFloor.go n r * sqrtFloor.go n r ≤ n ∧ sqrtFloor.go n r ≤ r ∧
      ∀ m, m ≤ r → m * m ≤ n → m ≤ sqrtFloor.go n r := by
  intro r
  induction r with
  | zero => simp [sqrtFloor.go]
  | succ r ih =>
    unfold sqrtFloor.go
    by_cases h : (r + 1) * (r + 1) ≤ n
    · rw [if_pos h]
      exact ⟨h, le_refl _, fun m hm _ => hm⟩
    · rw [if_neg h]
      refine ⟨ih.1, by have := ih.2.1; omega, ?_⟩
      intro m hm hmm
      rcases Nat.eq_or_lt_of_le hm with rfl | hlt
      · exact absurd hmm h
      · exact ih.2.2 m (by omega) hmm

/-- The embedding of `(int)sqrt(size)` is the integer square root. -/
theorem sqrtFloor_eq_sqrt (n : Nat) : sqrtFloor n = (Nat.sqrt n : Int) := by
  unfold sqrtFloor
  congr 1
  obtain ⟨h1, -, h3⟩ := sqrtFloor_go_spec n n
  apply Nat.eq_sqrt.mpr
  refine ⟨h1, ?_⟩
  by_contra hcon
  have hle : (sqrtFloor.go n n + 1) * (sqrtFloor.go n n + 1) ≤ n := by omega
  have hn : sqrtFloor.go n n + 1 ≤ n := by nlinarith
  have := h3 _ hn hle
  omega

theorem sqrtFloor_pos {n : Nat} (h : 1 ≤ n) : 1 ≤ sqrtFloor n := by
  unfold sqrtFloor
  have := (sqrtFloor_go_spec n n).2.2 1 h (by omega)
  omega

theorem JumpSearch_scan_spec (l : DynList) (value : Int) (hwf : WF l)
    (hs : SortedUpTo l.data l.size) (step : Int) (_h1 : 1 ≤ Min step (toInt l.size))
    (hm : Min step (toInt l.size) ≤ l.size)
    (hbound : value ≤ at0 l.data (Min step (toInt l.size) - 1)) :
    ∀ (fuel : Nat) (prev : Int), 0 ≤ prev → prev ≤ Min step (toInt l.size) - 1 →
      Min step (toInt l.size) - prev ≤ fuel →
      (∀ j : Int, 0 ≤ j → j < prev → at0 l.data j < value) →
      ∃ r, JumpSearch.scan l value step fuel prev = .ok r ∧ SearchResult l value r := by
  obtain ⟨hlen, hsz, -, hcap⟩ := hwf
  intro fuel
  induction fuel with
  | zero => intro prev h0 hle hf; omega
  | succ n ih =>
    intro prev h0 hle hf hbefore
    have hr : rd l.data prev = .ok (at0 l.data prev) := rd_ok h0 (by omega)
    simp only [JumpSearch.scan, hr]
    by_cases hlt : at0 l.data prev < value
    · have hne : prev ≠ Min step (toInt l.size) - 1 := by
        intro h; rw [h] at hlt; omega
      have hne2 : ¬ prev + 1 = Min step (toInt l.size) := by omega
      simp only [if_pos hlt, if_neg hne2]
      apply ih (prev + 1) (by omega) (by omega) (by omega)
      intro j hj0 hj
      have := hs j prev hj0 (by omega) (by omega)
      omega
    · simp only [if_neg hlt]
      by_cases heq : at0 l.data prev = value
      · simp only [if_pos heq]
        exact ⟨prev, rfl, Or.inl ⟨h0, by omega, heq⟩⟩
      · simp only [if_neg heq]
        refine ⟨-1, rfl, Or.inr ⟨rfl, ?_⟩⟩
        intro j hj0 hj
        by_cases hjp : j < prev
        · have := hbefore j hj0 hjp; omega
        · have := hs prev j h0 (by omega) hj
          omega

theorem JumpSearch_jump_spec (l : DynList) (value : Int) (hwf : WF l)
    (hs : SortedUpTo l.data l.size) :
    ∀ (fuel : Nat) (step prev : Int), 0 ≤ prev → prev < step → prev < l.size →
      (l.size : Int) - prev ≤ fuel → step = prev + sqrtFloor l.size →
      (∀ j : Int, 0 ≤ j → j < prev → at0 l.data j < value) →
      ∃ r, JumpSearch.jump l value fuel step prev = .ok r ∧ SearchResult l value r := by
  have hwf' := hwf
  obtain ⟨hlen, hsz, -, hcap⟩ := hwf
  unfold MAX_CAPACITY at hcap
  have hto : toInt l.size = (l.size : Int) := toInt_small (by omega)
  intro fuel
  induction fuel with
  | zero => intro step prev h0 h1 h2 hf; omega
  | succ n ih =>
    intro step prev h0 hps hpl hf hstep hbefore
    have hm1 : 1 ≤ Min step (toInt l.size) := by
      rw [hto]; unfold Min; split <;> omega
    have hm2 : Min step (toInt l.size) ≤ l.size := by
      rw [hto]; unfold Min; split <;> omega
    have hr : rd l.data (Min step (toInt l.size) - 1) =
        .ok (at0 l.data (Min step (toInt l.size) - 1)) := rd_ok (by omega) (by omega)
    simp only [JumpSearch.jump, hr]
    by_cases hlt : at0 l.data (Min step (toInt l.size) - 1) < value
    · simp only [if_pos hlt]
      by_cases hge : step ≥ toInt l.size
      · simp only [if_pos hge]
        refine ⟨-1, rfl, Or.inr ⟨rfl, ?_⟩⟩
        intro j hj0 hj
        have hmin : Min step (toInt l.size) = l.size := by
          rw [hto] at hge ⊢; unfold Min; split <;> omega
        rw [hmin] at hlt
        have := hs j ((l.size : Int) - 1) hj0 (by omega) (by omega)
        omega
      · simp only [if_neg hge]
        have hmin : Min step (toInt l.size) = step := by
          rw [hto] at hge ⊢; unfold Min; split <;> omega
        rw [hmin] at hlt
        rw [hto] at hge
        have hpos := sqrtFloor_pos (n := l.size) (by omega)
        apply ih (step + sqrtFloor l.size) step (by omega) (by omega) (by omega) (by omega) rfl
        intro j hj0 hj
        have := hs j (step - 1) hj0 (by omega) (by omega)
        omega
    · simp only [if_neg hlt]
      have hpm : prev ≤ Min step (toInt l.size) - 1 := by
        rw [hto]; unfold Min; split <;> omega
      exact JumpSearch_scan_spec l value hwf' hs step hm1 hm2 (by omega) (l.size + 1) prev h0
        hpm (by push_cast; omega) hbefore

theorem JumpSearch_spec (l : DynList) (value : Int) (hwf : WF l)
    (hs : (live l).Sorted (· ≤ ·)) :
    ∃ r, JumpSearch l value = .ok r ∧ SearchResult l value r := by
  unfold JumpSearch
  by_cases h0 : l.size = 0
  · rw [if_pos h0]
    exact ⟨-1, rfl, Or.inr ⟨rfl, fun j hj0 hj => by omega⟩⟩
  · rw [if_neg h0]
    have hpos := sqrtFloor_pos (n := l.size) (by omega)
    exact JumpSearch_jump_spec l value hwf (sortedUpTo_of_live hwf hs) (l.size + 1)
      (sqrtFloor l.size) 0 (le_refl _) (by omega) (by omega) (by push_cast; omega) (by omega)
      (fun j hj0 hj => by omega)

/-- C3: on a list whose live range is sorted ascending (the empty list included),
`JumpSearch` of a value that does not occur in the live range returns the sentinel `-1`. -/
theorem JumpSearch_absent (l : DynList) (value : Int) (hwf : WF l)
    (hs : (live l).Sorted (· ≤ ·)) (habs : value ∉ live l) :
    JumpSearch l value = .ok (-1) := by
  obtain ⟨r, hr, hres⟩ := JumpSearch_spec l value hwf hs
  rcases hres with ⟨h0, hl, hv⟩ | ⟨rfl, -⟩
  · exact absurd ((mem_live_iff hwf value).mpr ⟨r, h0, hl, hv⟩) habs
  · exact hr

/-- Witness for C3: `JumpSearch(8)` on `[1,3,5,7,9,11]`. -/
theorem JumpSearch_absent_witness :
    WF ⟨[1, 3, 5, 7, 9, 11], 6, 6⟩ ∧ (live ⟨[1, 3, 5, 7, 9, 11], 6, 6⟩).Sorted (· ≤ ·) ∧
    (8 : Int) ∉ live ⟨[1, 3, 5, 7, 9, 11], 6, 6⟩ ∧
    JumpSearch ⟨[1, 3, 5, 7, 9, 11], 6, 6⟩ 8 = .ok (-1) :=
  ⟨by decide, by decide, by decide,
    JumpSearch_absent ⟨[1, 3, 5, 7, 9, 11], 6, 6⟩ 8 (by decide) (by decide) (by decide)⟩

/-- C6: on a list whose live range is sorted ascending, `JumpSearch` (block size
`floor(sqrt(size))`) of a value that occurs in the live range returns an index `i` with
`0 <= i < size` and `data[i] == value`. -/
theorem JumpSearch_found (l : DynList) (value : Int) (hwf : WF l)
    (hs : (live l).Sorted (· ≤ ·)) (hmem : value ∈ live l) :
    ∃ i : Int, JumpSearch l value = .ok i ∧ 0 ≤ i ∧ i < l.size ∧
      l.data[i.toNat]? = some value := by
  obtain ⟨r, hr, hres⟩ := JumpSearch_spec l value hwf hs
  rcases hres with ⟨h0, hl, hv⟩ | ⟨rfl, hno⟩
  · refine ⟨r, hr, h0, hl, ?_⟩
    have hlt : r.toNat < l.data.length := by have := hwf.1; have := hwf.2.1; omega
    have h := at0_nat hlt
    rw [Int.toNat_of_nonneg h0, hv] at h
    rw [List.getElem?_eq_getElem hlt, h]
  · obtain ⟨p, hp0, hp, hpv⟩ := (mem_live_iff hwf value).mp hmem
    exact absurd hpv (hno p hp0 hp)

/-- Witness for C6: `JumpSearch(11)` on `[1,3,5,7,9,11]`. -/
theorem JumpSearch_found_witness :
    WF ⟨[1, 3, 5, 7, 9, 11], 6, 6⟩ ∧ (live ⟨[1, 3, 5, 7, 9, 11], 6, 6⟩).Sorted (· ≤ ·) ∧
    (11 : Int) ∈ live ⟨[1, 3, 5, 7, 9, 11], 6, 6⟩ ∧
    ∃ i : Int, JumpSearch ⟨[1, 3, 5, 7, 9, 11], 6, 6⟩ 11 = .ok i ∧ 0 ≤ i ∧
      i < (6 : Nat) ∧ [1, 3, 5, 7, 9, 11][i.toNat]? = some (11 : Int) :=
  ⟨by decide, by decide, by decide,
    JumpSearch_found ⟨[1, 3, 5, 7, 9, 11], 6, 6⟩ 11 (by decide) (by decide) (by decide)⟩

/-! ## Rearrangements of the buffer -/

theorem ext_at0 {d d' : List Int} (hl : d'.length = d.length)
    (h : ∀ k : Int, 0 ≤ k → k < d.length → at0 d' k = at0 d k) : d' = d := by
  apply List.ext_getElem hl
  intro i h1 h2
  have := h i (by omega) (by omega)
  rwa [at0_nat h1, at0_nat h2] at this

theorem at0_set_self {d : List Int} {a : Int} (h0 : 0 ≤ a) (h : a < d.length) :
    d.set a.toNat (at0 d a) = d := by
  apply ext_at0 (by simp)
  intro k _ _
  rw [at0_set _ h0 h]
  split
  · subst k; rfl
  · rfl

theorem Rearr_refl (n : Nat) (d : List Int) : Rearr n d d :=
  ⟨rfl, List.Perm.refl _, rfl⟩

theorem Rearr_trans {n : Nat} {d1 d2 d3 : List Int} (h12 : Rearr n d1 d2)
    (h23 : Rearr n d2 d3) : Rearr n d1 d3 :=
  ⟨h23.1.trans h12.1, h23.2.1.trans h12.2.1, h23.2.2.trans h12.2.2⟩

theorem Rearr_swapL {n : Nat} {d : List Int} {a b : Int} (ha0 : 0 ≤ a) (ha : a < n)
    (hb0 : 0 ≤ b) (hb : b < n) (hn : n ≤ d.length) : Rearr n d (swapL d a b) :=
  ⟨length_swapL d a b, take_swapL_perm n ha0 ha hb0 hb hn, drop_swapL n ha0 ha hb0 hb⟩

/-! ## InsertionSort -/

theorem shift_step_eq {d : List Int} {j : Int} (key : Int) (hj0 : 0 ≤ j)
    (hj : j + 1 < d.length) :
    (d.set (j + 1).toNat (at0 d j)).set (j - 1 + 1).toNat key =
      swapL (d.set (j + 1).toNat key) j (j + 1) := by
  have hl : ((d.set (j + 1).toNat key).length : Int) = d.length := by simp
  apply ext_at0 (by simp [swapL])
  intro k hk0 hk
  rw [show j - 1 + 1 = j by omega]
  rw [at0_swapL hj0 (by omega) (by omega) (by omega)]
  rw [at0_set _ hj0 (by simp; omega), at0_set _ (by omega) hj,
    at0_set _ (by omega) hj, at0_set _ (by omega) hj, at0_set _ (by omega) hj]
  by_cases h1 : k = j
  · subst h1
    have : ¬ k = k + 1 := by omega
    simp [this]
  · by_cases h2 : k = j + 1
    · subst h2
      have : ¬ j = j + 1 := by omega
      simp [this]
    · simp [h1, h2]

theorem InsertionSort_shift_spec (n : Nat) (key : Int) :
    ∀ (fuel : Nat) (d : List Int) (j : Int), -1 ≤ j → j + 1 < n → n ≤ d.length →
      j + 2 ≤ fuel →
      ∃ d' j', InsertionSort.shift key fuel d j = .ok (d', j') ∧ ShiftPost n key d j d' j' := by
  intro fuel
  induction fuel with
  | zero => intro d j h1 h2 h3 h4; omega
  | succ m ih =>
    intro d j hj hjn hn hf
    have base : ShiftPost n key d j d j → ∃ d' j', (Except.ok (d, j) : Except Fault _) =
        .ok (d', j') ∧ ShiftPost n key d j d' j' := fun h => ⟨d, j, rfl, h⟩
    by_cases hj0 : j ≥ 0
    · have hr : rd d j = .ok (at0 d j) := rd_ok hj0 (by omega)
      simp only [InsertionSort.shift, if_pos hj0, hr]
      by_cases hgt : at0 d j > key
      · have hw : wr d (j + 1) (at0 d j) = .ok (d.set (j + 1).toNat (at0 d j)) :=
          wr_ok _ (by omega) (by omega)
        simp only [if_pos hgt, hw]
        obtain ⟨d', j', hrun, h1, h2, h3, h4, h5, h6⟩ :=
          ih (d.set (j + 1).toNat (at0 d j)) (j - 1) (by omega) (by omega) (by simpa using hn)
            (by omega)
        refine ⟨d', j', hrun, h1, by omega, ?_, ?_, h5, ?_⟩
        · intro k hk
          rw [h3 k (by omega), at0_set _ (by omega) (by omega)]
          have : ¬ k = j + 1 := by omega
          simp [this]
        · intro k hk1 hk2
          by_cases hkj : k ≤ j
          · obtain ⟨e1, e2⟩ := h4 k hk1 (by omega)
            refine ⟨?_, e2⟩
            rw [e1, at0_set _ (by omega) (by omega)]
            have : ¬ k - 1 = j + 1 := by omega
            simp [this]
          · have hk : k = j + 1 := by omega
            subst hk
            have e := h3 (j + 1) (by omega)
            rw [at0_set _ (by omega) (by omega)] at e
            simp only [if_true, if_pos] at e
            rw [e, show j + 1 - 1 = j by omega]
            exact ⟨rfl, hgt⟩
        · have hsw := shift_step_eq (d := d) key hj0 (by omega)
          rw [hsw] at h6
          have hl : n ≤ (d.set (j + 1).toNat key).length := by simpa using hn
          exact Rearr_trans (Rearr_swapL hj0 (by omega) (by omega) hjn hl) h6
      · simp only [if_neg hgt]
        apply base
        exact ⟨hj, le_refl _, fun k _ => rfl, fun k h1 h2 => by omega, fun _ => by omega,
          Rearr_refl _ _⟩
    · simp only [InsertionSort.shift, if_neg hj0]
      apply base
      exact ⟨hj, le_refl _, fun k _ => rfl, fun k h1 h2 => by omega, fun h => by omega,
        Rearr_refl _ _⟩

theorem SortedUpTo_mono {d : List Int} {a b : Int} (h : SortedUpTo d b) (hab : a ≤ b) :
    SortedUpTo d a :=
  fun i j hi hij hj => h i j hi hij (by omega)

theorem insert_sorted {n : Nat} {d d' : List Int} {key : Int} {i j' : Int}
    (hl : i < d.length) (hs : SortedUpTo d i)
    (hp : ShiftPost n key d (i - 1) d' j') :
    SortedUpTo (d'.set (j' + 1).toNat key) (i + 1) := by
  obtain ⟨h1, h2, h3, h4, h5, h6⟩ := hp
  have hlen : d'.length = d.length := by simpa using h6.1
  have hA : ∀ x : Int, x ≤ j' → at0 (d'.set (j' + 1).toNat key) x = at0 d x := by
    intro x hx
    rw [at0_set _ (by omega) (by omega), if_neg (by omega), h3 x (Or.inl hx)]
  have hB : at0 (d'.set (j' + 1).toNat key) (j' + 1) = key := by
    rw [at0_set _ (by omega) (by omega), if_pos rfl]
  have hC : ∀ x : Int, j' + 1 < x → x ≤ i →
      at0 (d'.set (j' + 1).toNat key) x = at0 d (x - 1) ∧
        key < at0 (d'.set (j' + 1).toNat key) x := by
    intro x hx1 hx2
    rw [at0_set _ (by omega) (by omega), if_neg (by omega)]
    exact h4 x hx1 (by omega)
  have hD : 0 ≤ j' → at0 d j' ≤ key := by
    intro h; rw [← h3 j' (Or.inl (le_refl _))]; exact h5 h
  intro a b ha0 hab hb
  rcases lt_trichotomy a (j' + 1) with ha | ha | ha
  · rw [hA a (by omega)]
    rcases lt_trichotomy b (j' + 1) with hb' | hb' | hb'
    · rw [hA b (by omega)]; exact hs a b ha0 hab (by omega)
    · rw [hb', hB]
      exact le_trans (hs a j' ha0 (by omega) (by omega)) (hD (by omega))
    · rw [(hC b hb' (by omega)).1]
      exact hs a (b - 1) ha0 (by omega) (by omega)
  · rcases eq_or_lt_of_le hab with rfl | hlt
    · exact le_refl _
    · rw [ha, hB]
      exact le_of_lt (hC b (by omega) (by omega)).2
  · rw [(hC a ha (by omega)).1, (hC b (by omega) (by omega)).1]
    exact hs (a - 1) (b - 1) (by omega) (by omega) (by omega)

theorem InsertionSort_outer_spec (n : Nat) (hn500 : n ≤ 500) :
    ∀ (fuel : Nat) (d : List Int) (i : Nat), 1 ≤ i → i ≤ n + 1 → n ≤ d.length →
      n + 2 ≤ fuel + i → SortedUpTo d i →
      ∃ d', InsertionSort.outer n fuel d i = .ok d' ∧ Rearr n d d' ∧ SortedUpTo d' n := by
  intro fuel
  induction fuel with
  | zero => intro d i h1 h2 h3 h4; omega
  | succ m ih =>
    intro d i hi1 hin hn hf hs
    by_cases hlt : i < n
    · have hr : rd d (i : Int) = .ok (at0 d i) := rd_ok (by omega) (by omega)
      have hj : toInt (usub i 1) = (i : Int) - 1 := by
        rw [usub_small hi1, toInt_small (by omega)]; omega
      obtain ⟨d', j', hrun, hpost⟩ := InsertionSort_shift_spec n (at0 d i) (d.length + 1) d
        ((i : Int) - 1) (by omega) (by omega) hn (by push_cast; omega)
      have hsorted := insert_sorted (n := n) (by omega) hs hpost
      obtain ⟨h1, h2, -, -, -, h6⟩ := hpost
      have hlen : d'.length = d.length := by simpa using h6.1
      have hw : wr d' (j' + 1) (at0 d i) = .ok (d'.set (j' + 1).toNat (at0 d i)) :=
        wr_ok _ (by omega) (by omega)
      simp only [InsertionSort.outer, if_pos hlt, hr, hj, hrun, hw]
      rw [uadd_small (by omega)]
      rw [show (i : Int) - 1 + 1 = i by omega, at0_set_self (by omega) (by omega)] at h6
      obtain ⟨d'', hrun', hre, hso⟩ := ih (d'.set (j' + 1).toNat (at0 d i)) (i + 1) (by omega)
        (by omega) (by simp; omega) (by omega) (by exact_mod_cast hsorted)
      exact ⟨d'', hrun', Rearr_trans h6 hre, hso⟩
    · simp only [InsertionSort.outer, if_neg hlt]
      exact ⟨d, rfl, Rearr_refl _ _, SortedUpTo_mono hs (by omega)⟩

theorem sortedUpTo_one (d : List Int) : SortedUpTo d 1 := by
  intro i j hi hij hj
  have : i = j := by omega
  rw [this]

theorem live_of_Rearr {l : DynList} {d' : List Int} (hwf : WF l) (hre : Rearr l.size l.data d')
    (hs : SortedUpTo d' l.size) :
    (live { l with data := d' }).Sorted (· ≤ ·) ∧ (live { l with data := d' }).Perm (live l) := by
  have hwf' : WF { l with data := d' } := ⟨hre.1.trans hwf.1, hwf.2⟩
  exact ⟨live_sorted_of_sortedUpTo hwf' hs, hre.2.1⟩

/-- C10: `InsertionSort` returns, and afterwards the live range `[0, size)` is in
non-decreasing order and is a permutation of the live range before the call. -/
theorem InsertionSort_sorts (l : DynList) (hwf : WF l) :
    ∃ d', InsertionSort l = .ok { l with data := d' } ∧
      (live { l with data := d' }).Sorted (· ≤ ·) ∧
      (live { l with data := d' }).Perm (live l) := by
  have hn : l.size ≤ l.data.length := by have := hwf.1; have := hwf.2.1; omega
  have h500 : l.size ≤ 500 := le_trans hwf.2.1 hwf.2.2.2
  obtain ⟨d', hrun, hre, hs⟩ := InsertionSort_outer_spec l.size h500 (l.size + 1) l.data 1
    (le_refl _) (by omega) hn (by omega) (by exact_mod_cast sortedUpTo_one l.data)
  refine ⟨d', ?_, live_of_Rearr hwf hre hs⟩
  unfold InsertionSort
  rw [hrun]

/-- Witness for C10: `InsertionSort` on `[5,1,4,1]` inside a buffer of six slots. -/
theorem InsertionSort_sorts_witness :
    WF ⟨[5, 1, 4, 1, 9, 9], 4, 6⟩ ∧
    ∃ d', InsertionSort ⟨[5, 1, 4, 1, 9, 9], 4, 6⟩ = .ok { data := d', size := 4, capacity := 6 } ∧
      (live { data := d', size := 4, capacity := 6 }).Sorted (· ≤ ·) ∧
      (live { data := d', size := 4, capacity := 6 }).Perm (live ⟨[5, 1, 4, 1, 9, 9], 4, 6⟩) :=
  ⟨by decide, InsertionSort_sorts ⟨[5, 1, 4, 1, 9, 9], 4, 6⟩ (by decide)⟩

/-! ## CocktailShakerSort -/

theorem Final_swapL {d : List Int} {k n i : Int} (hf : Final d k n) (hi0 : 0 ≤ i)
    (hin : i + 1 < n) (hn : n ≤ d.length) (hgt : at0 d i > at0 d (i + 1)) :
    Final (swapL d i (i + 1)) k n := by
  have hik : k ≤ i := by
    by_contra hcon
    have := hf i (i + 1) hi0 (by omega) (by omega) hin
    omega
  intro a b ha0 hak hab hb
  rw [at0_swapL hi0 (by omega) (by omega) (by omega),
    at0_swapL hi0 (by omega) (by omega) (by omega)]
  rw [if_neg (by omega), if_neg (by omega)]
  split
  · exact hf a i ha0 hak (by omega) (by omega)
  · split
    · exact hf a (i + 1) ha0 hak (by omega) (by omega)
    · exact hf a b ha0 hak hab hb

theorem SortedUpTo_of_AdjSorted {d : List Int} {n : Int} (h : AdjSorted d n) :
    SortedUpTo d n := by
  intro i j hi hij hj
  obtain ⟨m, hm⟩ : ∃ m : Nat, j = i + m := ⟨(j - i).toNat, by omega⟩
  subst hm
  clear hij
  induction m with
  | zero => simp
  | succ m ih =>
    have h1 := ih (by omega)
    have h2 := h (i + (m + 1 : Nat)) (by omega) hj
    rw [show i + ((m + 1 : Nat) : Int) - 1 = i + (m : Int) by push_cast; omega] at h2
    exact le_trans h1 h2

theorem AdjSorted_of_SortedUpTo {d : List Int} {n : Int} (h : SortedUpTo d n) :
    AdjSorted d n :=
  fun c hc hcn => h (c - 1) c (by omega) (by omega) hcn

theorem CocktailShakerSort_forward_spec (n bound : Nat) (hb : bound + 1 ≤ n) (hn500 : n ≤ 500) :
    ∀ (fuel : Nat) (d : List Int) (i : Nat) (s : Bool), i ≤ bound → n ≤ d.length →
      bound + 1 ≤ fuel + i →
      ∃ d' s', CocktailShakerSort.forward bound fuel d i s = .ok (d', s') ∧ Rearr n d d' ∧
        (∀ k : Int, Final d k n → Final d' k n) ∧
        (s' = true → s = true ∧ d' = d) ∧
        (AdjSorted d n → d' = d ∧ s' = s) := by
  intro fuel
  induction fuel with
  | zero => intro d i s h1 h2 h3; omega
  | succ m ih =>
    intro d i s hib hn hf
    by_cases hlt : i < bound
    · have hr1 : rd d (i : Int) = .ok (at0 d i) := rd_ok (by omega) (by omega)
      have hu : uadd i 1 = i + 1 := uadd_small (by omega)
      have hr2 : rd d ((i + 1 : Nat) : Int) = .ok (at0 d ((i + 1 : Nat) : Int)) :=
        rd_ok (by omega) (by omega)
      simp only [CocktailShakerSort.forward, if_pos hlt, hu, hr1, hr2]
      by_cases hgt : at0 d (i : Int) > at0 d ((i + 1 : Nat) : Int)
      · have hsw : Swap d (i : Int) ((i + 1 : Nat) : Int) = .ok (swapL d i ((i + 1 : Nat) : Int)) :=
          Swap_ok (by omega) (by omega) (by omega) (by omega)
        simp only [if_pos hgt, hsw]
        obtain ⟨d', s', hrun, h1, h2, h3, h4⟩ := ih (swapL d i ((i + 1 : Nat) : Int)) (i + 1) false
          (by omega) (by simpa [length_swapL] using hn) (by omega)
        refine ⟨d', s', hrun, ?_, ?_, ?_, ?_⟩
        · exact Rearr_trans (Rearr_swapL (by omega) (by omega) (by omega) (by omega) hn) h1
        · intro k hk
          apply h2 k
          have := Final_swapL (i := (i : Int)) hk (by omega) (by omega)
            (by exact_mod_cast hn) (by push_cast at hgt; exact hgt)
          push_cast
          exact this
        · intro hs'
          have := (h3 hs').1
          exact absurd this (by simp)
        · intro hadj
          have := hadj ((i + 1 : Nat) : Int) (by omega) (by omega)
          rw [show ((i + 1 : Nat) : Int) - 1 = (i : Int) by push_cast; omega] at this
          omega
      · simp only [if_neg hgt]
        exact ih d (i + 1) s (by omega) hn (by omega)
    · simp only [CocktailShakerSort.forward, if_neg hlt]
      exact ⟨d, s, rfl, Rearr_refl _ _, fun k hk => hk, fun h => ⟨h, rfl⟩, fun _ => ⟨rfl, rfl⟩⟩

theorem swapL_comm {d : List Int} {a b : Int} (ha0 : 0 ≤ a) (ha : a < d.length)
    (hb0 : 0 ≤ b) (hb : b < d.length) : swapL d a b = swapL d b a := by
  apply ext_at0 (by simp [length_swapL])
  intro k _ _
  rw [at0_swapL ha0 ha hb0 hb, at0_swapL hb0 hb ha0 ha]
  by_cases h1 : k = a <;> by_cases h2 : k = b
  · subst h1; subst h2; simp
  · subst h1
    rw [if_neg h2, if_pos rfl, if_pos rfl]
  · subst h2
    rw [if_pos rfl, if_neg h1, if_pos rfl]
  · rw [if_neg h2, if_neg h1, if_neg h1, if_neg h2]

theorem Low_step_swap {d : List Int} {k n i : Int} (hk : Final d k n) (hlow : Low d k i n)
    (hi : 1 ≤ i) (hin : i < n) (hn : n ≤ d.length) (hgt : at0 d (i - 1) > at0 d i) :
    Low (swapL d (i - 1) i) k (i - 1) n := by
  have hik : k ≤ i - 1 := by
    by_contra hcon
    have := hk (i - 1) i (by omega) (by omega) (by omega) hin
    omega
  intro b hb1 hb2 hb3
  have hm : (if i - 1 ≤ k then k else i - 1) = i - 1 := by split <;> omega
  rw [hm, at0_swapL (by omega) (by omega) (by omega) (by omega),
    at0_swapL (by omega) (by omega) (by omega) (by omega)]
  rw [if_neg (by omega), if_pos rfl]
  have hlow' : ∀ b : Int, i ≤ b → b < n → at0 d i ≤ at0 d b := by
    intro b h1 h2
    have := hlow b h1 (by omega) h2
    rwa [if_neg (by omega)] at this
  by_cases h1 : b = i
  · rw [if_pos h1]; omega
  · rw [if_neg h1]
    by_cases h2 : b = i - 1
    · rw [if_pos h2]
    · rw [if_neg h2]; exact hlow' b (by omega) hb3

theorem Low_step_keep {d : List Int} {k n i : Int} (hlow : Low d k i n)
    (hle : at0 d (i - 1) ≤ at0 d i) : Low d k (i - 1) n := by
  intro b hb1 hb2 hb3
  by_cases hik : i ≤ k
  · have := hlow b (by omega) hb2 hb3
    rw [if_pos hik] at this
    rw [if_pos (by omega)]
    exact this
  · have hm : (if i - 1 ≤ k then k else i - 1) = i - 1 := by split <;> omega
    rw [hm]
    by_cases hb : b = i - 1
    · rw [hb]
    · have := hlow b (by omega) hb2 hb3
      rw [if_neg hik] at this
      omega

theorem CocktailShakerSort_backward_spec (n : Nat) :
    ∀ (fuel : Nat) (d : List Int) (i : Nat) (s : Bool), i < n → n ≤ d.length → i + 1 ≤ fuel →
      ∃ d' s', CocktailShakerSort.backward fuel d i s = .ok (d', s') ∧ Rearr n d d' ∧
        (∀ k : Int, Final d k n → Low d k i n → Final d' k n ∧ Low d' k 0 n) ∧
        (s' = true → s = true ∧ d' = d ∧ ∀ c : Int, 1 ≤ c → c ≤ i → at0 d (c - 1) ≤ at0 d c) ∧
        (AdjSorted d n → d' = d ∧ s' = s) := by
  intro fuel
  induction fuel with
  | zero => intro d i s h1 h2 h3; omega
  | succ m ih =>
    intro d i s hin hn hf
    by_cases hpos : i > 0
    · have hu : usub i 1 = i - 1 := usub_small (by omega)
      have hc : ((i - 1 : Nat) : Int) = (i : Int) - 1 := by omega
      have hr1 : rd d ((i : Int) - 1) = .ok (at0 d ((i : Int) - 1)) :=
        rd_ok (by omega) (by omega)
      have hr2 : rd d (i : Int) = .ok (at0 d i) := rd_ok (by omega) (by omega)
      simp only [CocktailShakerSort.backward, if_pos hpos, hu, hc, hr1, hr2]
      by_cases hgt : at0 d ((i : Int) - 1) > at0 d (i : Int)
      · have hsw : Swap d (i : Int) ((i : Int) - 1) = .ok (swapL d ((i : Int) - 1) i) := by
          rw [Swap_ok (by omega) (by omega) (by omega) (by omega)]
          rw [swapL_comm (by omega) (by omega) (by omega) (by omega)]
        simp only [if_pos hgt, hsw]
        obtain ⟨d', s', hrun, h1, h2, h3, h4⟩ := ih (swapL d ((i : Int) - 1) i) (i - 1) false
          (by omega) (by simpa [length_swapL] using hn) (by omega)
        refine ⟨d', s', hrun, ?_, ?_, ?_, ?_⟩
        · exact Rearr_trans (Rearr_swapL (by omega) (by omega) (by omega) (by omega) hn) h1
        · intro k hk hlow
          apply h2 k
          · have := Final_swapL (i := (i : Int) - 1) hk (by omega) (by omega)
              (by exact_mod_cast hn) (by rw [show (i : Int) - 1 + 1 = i by omega]; exact hgt)
            rwa [show (i : Int) - 1 + 1 = i by omega] at this
          · rw [hc]
            exact Low_step_swap hk hlow (by omega) (by omega) (by exact_mod_cast hn) hgt
        · intro hs'
          have := (h3 hs').1
          exact absurd this (by simp)
        · intro hadj
          have := hadj (i : Int) (by omega) (by omega)
          omega
      · simp only [if_neg hgt]
        obtain ⟨d', s', hrun, h1, h2, h3, h4⟩ := ih d (i - 1) s (by omega) hn (by omega)
        refine ⟨d', s', hrun, h1, ?_, ?_, h4⟩
        · intro k hk hlow
          apply h2 k hk
          rw [hc]
          exact Low_step_keep hlow (by omega)
        · intro hs'
          obtain ⟨e1, e2, e3⟩ := h3 hs'
          refine ⟨e1, e2, ?_⟩
          intro c hc1 hc2
          by_cases hci : c = i
          · rw [hci]; omega
          · exact e3 c hc1 (by omega)
    · simp only [CocktailShakerSort.backward, if_neg hpos]
      have hi0 : i = 0 := by omega
      subst hi0
      exact ⟨d, s, rfl, Rearr_refl _ _, fun k hk hlow => ⟨hk, by simpa using hlow⟩,
        fun h => ⟨h, rfl, fun c h1 h2 => by omega⟩, fun _ => ⟨rfl, rfl⟩⟩

theorem CocktailShakerSort_outer_spec (n : Nat) (hn500 : n ≤ 500) :
    ∀ (fuel : Nat) (d : List Int) (p : Nat), p + 1 ≤ n → n ≤ d.length → n ≤ fuel + p →
      Final d p n →
      ∃ d', CocktailShakerSort.outer n fuel d (p : Int) = .ok d' ∧ Rearr n d d' ∧
        SortedUpTo d' n := by
  intro fuel
  induction fuel with
  | zero => intro d p h1 h2 h3; omega
  | succ m ih =>
    intro d p hp hn hf hfin
    have hbound : usub n (toUnsigned ((p : Int) + 1)) = n - (p + 1) := by
      rw [toUnsigned_small (by omega), usub_small (by omega)]
      congr 1
    obtain ⟨d1, s1, hrun1, hre1, hfin1, hs1, hadj1⟩ :=
      CocktailShakerSort_forward_spec n (n - (p + 1)) (by omega) hn500 (d.length + 1) d 0 true
        (by omega) hn (by omega)
    have hlen1 : d1.length = d.length := hre1.1
    obtain ⟨d2, s2, hrun2, hre2, hfin2, hs2, hadj2⟩ :=
      CocktailShakerSort_backward_spec n (d.length + 1) d1 (n - 1) s1 (by omega) (by omega)
        (by omega)
    have hu : usub n 1 = n - 1 := usub_small (by omega)
    simp only [CocktailShakerSort.outer, hbound, hrun1, hu, hrun2]
    by_cases hs : s2 = true
    · rw [if_pos hs]
      obtain ⟨e1, e2, e3⟩ := hs2 hs
      obtain ⟨-, e4⟩ := hs1 e1
      subst e2; subst e4
      refine ⟨d2, rfl, Rearr_refl _ _, SortedUpTo_of_AdjSorted ?_⟩
      intro c hc1 hc2
      exact e3 c hc1 (by omega)
    · rw [if_neg hs]
      have hlow1 : Low d1 p ((n - 1 : Nat) : Int) n := by
        intro b hb1 hb2 hb3
        have hb : b = ((n - 1 : Nat) : Int) := by omega
        have hm : (if ((n - 1 : Nat) : Int) ≤ (p : Int) then (p : Int) else ((n - 1 : Nat) : Int))
            = ((n - 1 : Nat) : Int) := by split <;> omega
        rw [hm, hb]
      obtain ⟨hfin3, hlow3⟩ := hfin2 p (hfin1 p hfin) hlow1
      have hfin4 : Final d2 ((p + 1 : Nat) : Int) n := by
        intro a b ha0 hap hab hbn
        by_cases hpa : a < p
        · exact hfin3 a b ha0 hpa hab hbn
        · have ha : a = p := by omega
          have := hlow3 b (by omega) (by omega) hbn
          rw [if_pos (by omega)] at this
          rw [ha]; exact this
      by_cases hlast : p + 2 ≤ n
      · obtain ⟨d', hrun, hre, hso⟩ := ih d2 (p + 1) (by omega) (by have := hre2.1; omega)
          (by omega) hfin4
        exact ⟨d', by exact_mod_cast hrun, Rearr_trans (Rearr_trans hre1 hre2) hre, hso⟩
      · exfalso
        have hadj : AdjSorted d n := by
          intro c hc1 hc2
          exact hfin (c - 1) c (by omega) (by omega) (by omega) hc2
        obtain ⟨e1, e2⟩ := hadj1 hadj
        subst e1
        obtain ⟨-, e4⟩ := hadj2 hadj
        rw [e4, e2] at hs
        exact hs rfl

/-- C9: `CocktailShakerSort` returns, and afterwards the live range `[0, size)` is in
non-decreasing order and is a permutation of the live range before the call (the forward sweep
runs to `size - (passes + 1)`, the backward sweep over the whole range). -/
theorem CocktailShakerSort_sorts (l : DynList) (hwf : WF l) :
    ∃ d', CocktailShakerSort l = .ok { l with data := d' } ∧
      (live { l with data := d' }).Sorted (· ≤ ·) ∧
      (live { l with data := d' }).Perm (live l) := by
  have hn : l.size ≤ l.data.length := by have := hwf.1; have := hwf.2.1; omega
  have h500 : l.size ≤ 500 := le_trans hwf.2.1 hwf.2.2.2
  unfold CocktailShakerSort
  by_cases hlt : l.size < 2
  · rw [if_pos hlt]
    refine ⟨l.data, rfl, live_of_Rearr hwf (Rearr_refl _ _) ?_⟩
    intro i j hi hij hj
    have : i = j := by omega
    rw [this]
  · rw [if_neg hlt]
    obtain ⟨d', hrun, hre, hs⟩ := CocktailShakerSort_outer_spec l.size h500 (l.size + 1) l.data 0
      (by omega) hn (by omega) (fun a b ha0 hak => by simp at hak; omega)
    refine ⟨d', ?_, live_of_Rearr hwf hre hs⟩
    have hrun' : CocktailShakerSort.outer l.size (l.size + 1) l.data 0 = .ok d' := by
      exact_mod_cast hrun
    rw [hrun']

/-- Witness for C9: `CocktailShakerSort` on `[5,1,4,1]` inside a buffer of six slots. -/
theorem CocktailShakerSort_sorts_witness :
    WF ⟨[5, 1, 4, 1, 9, 9], 4, 6⟩ ∧
    ∃ d', CocktailShakerSort ⟨[5, 1, 4, 1, 9, 9], 4, 6⟩ =
        .ok { data := d', size := 4, capacity := 6 } ∧
      (live { data := d', size := 4, capacity := 6 }).Sorted (· ≤ ·) ∧
      (live { data := d', size := 4, capacity := 6 }).Perm (live ⟨[5, 1, 4, 1, 9, 9], 4, 6⟩) :=
  ⟨by decide, CocktailShakerSort_sorts ⟨[5, 1, 4, 1, 9, 9], 4, 6⟩ (by decide)⟩

/-! ## QuickSort -/

theorem Within_refl (lo hi : Int) (d : List Int) : Within lo hi d d :=
  ⟨fun _ _ => rfl, fun k h1 h2 => ⟨k, h1, h2, rfl⟩⟩

theorem Within_trans {lo hi : Int} {d1 d2 d3 : List Int} (h12 : Within lo hi d1 d2)
    (h23 : Within lo hi d2 d3) : Within lo hi d1 d3 := by
  refine ⟨fun k hk => (h23.1 k hk).trans (h12.1 k hk), ?_⟩
  intro k h1 h2
  obtain ⟨k', a1, a2, a3⟩ := h23.2 k h1 h2
  obtain ⟨k'', b1, b2, b3⟩ := h12.2 k' a1 a2
  exact ⟨k'', b1, b2, a3.trans b3⟩

theorem Within_mono {lo hi lo' hi' : Int} {d d' : List Int} (h : Within lo hi d d')
    (hlo : lo' ≤ lo) (hhi : hi ≤ hi') : Within lo' hi' d d' := by
  refine ⟨fun k hk => h.1 k (by omega), ?_⟩
  intro k h1 h2
  by_cases hk : lo ≤ k ∧ k ≤ hi
  · obtain ⟨k', a1, a2, a3⟩ := h.2 k hk.1 hk.2
    exact ⟨k', by omega, by omega, a3⟩
  · exact ⟨k, h1, h2, h.1 k (by omega)⟩

theorem Within_swapL {lo hi : Int} {d : List Int} {a b : Int} (ha0 : 0 ≤ a)
    (ha : a < d.length) (hb0 : 0 ≤ b) (hb : b < d.length) (hla : lo ≤ a) (hah : a ≤ hi)
    (hlb : lo ≤ b) (hbh : b ≤ hi) : Within lo hi d (swapL d a b) := by
  constructor
  · intro k hk
    rw [at0_swapL ha0 ha hb0 hb, if_neg (by omega), if_neg (by omega)]
  · intro k h1 h2
    rw [at0_swapL ha0 ha hb0 hb]
    split
    · exact ⟨a, hla, hah, rfl⟩
    · split
      · exact ⟨b, hlb, hbh, rfl⟩
      · exact ⟨k, h1, h2, rfl⟩

theorem Partition_loop_spec (n : Nat) (pivot low high : Int) (hlow : 0 ≤ low)
    (hhigh : high < n) :
    ∀ (fuel : Nat) (d : List Int) (i j : Int), n ≤ d.length → low - 1 ≤ i → i < j → low ≤ j →
      j ≤ high → high - j + 1 ≤ fuel → at0 d high = pivot → Parted d pivot low i j →
      ∃ d' i', Partition.loop pivot high fuel d i j = .ok (d', i') ∧ low - 1 ≤ i' ∧ i' < high ∧
        at0 d' high = pivot ∧ Parted d' pivot low i' high ∧ Rearr n d d' ∧
        Within low high d d' := by
  intro fuel
  induction fuel with
  | zero => intro d i j h1 h2 h3 h4 h5 h6; omega
  | succ m ih =>
    intro d i j hn hi hij hlj hjh hf hpiv hpart
    by_cases hlt : j ≤ high - 1
    · have hr : rd d j = .ok (at0 d j) := rd_ok (by omega) (by omega)
      simp only [Partition.loop, if_pos hlt, hr]
      by_cases hle : at0 d j ≤ pivot
      · have hsw : Swap d (i + 1) j = .ok (swapL d (i + 1) j) :=
          Swap_ok (by omega) (by omega) (by omega) (by omega)
        simp only [if_pos hle, hsw]
        have hat := at0_swapL (d := d) (a := i + 1) (b := j) (by omega) (by omega) (by omega)
          (by omega)
        obtain ⟨d', i', hrun, h1, h2, h3, h4, h5, h6⟩ := ih (swapL d (i + 1) j) (i + 1) (j + 1)
          (by simpa [length_swapL] using hn) (by omega) (by omega) (by omega) (by omega)
          (by omega)
          (by rw [hat, if_neg (by omega), if_neg (by omega)]; exact hpiv)
          (by
            constructor
            · intro k hk1 hk2
              rw [hat]
              by_cases hkj : k = j
              · rw [if_pos hkj]
                by_cases hij' : i + 1 = j
                · rw [hij']; exact hle
                · exfalso; omega
              · rw [if_neg hkj]
                by_cases hki : k = i + 1
                · rw [if_pos hki]; exact hle
                · rw [if_neg hki]; exact hpart.1 k hk1 (by omega)
            · intro k hk1 hk2
              rw [hat]
              by_cases hkj : k = j
              · rw [if_pos hkj]
                exact hpart.2 (i + 1) (by omega) (by omega)
              · rw [if_neg hkj, if_neg (by omega)]
                exact hpart.2 k (by omega) (by omega))
        refine ⟨d', i', hrun, by omega, h2, h3, h4, ?_, ?_⟩
        · exact Rearr_trans (Rearr_swapL (by omega) (by omega) (by omega) (by omega) hn) h5
        · exact Within_trans (Within_swapL (by omega) (by omega) (by omega) (by omega)
            (by omega) (by omega) (by omega) (by omega)) h6
      · simp only [if_neg hle]
        apply ih d i (j + 1) hn hi (by omega) (by omega) (by omega) (by omega) hpiv
        constructor
        · exact hpart.1
        · intro k hk1 hk2
          by_cases hkj : k = j
          · rw [hkj]; omega
          · exact hpart.2 k hk1 (by omega)
    · simp only [Partition.loop, if_neg hlt]
      have hj : j = high := by omega
      subst hj
      exact ⟨d, i, rfl, hi, hij, hpiv, hpart, Rearr_refl _ _, Within_refl _ _ _⟩

theorem Partition_spec (n : Nat) (d : List Int) (low high : Int) (hlow : 0 ≤ low)
    (hlh : low ≤ high) (hhigh : high < n) (hn : n ≤ d.length) :
    ∃ d' p, Partition d low high = .ok (d', p) ∧ low ≤ p ∧ p ≤ high ∧
      at0 d' p = at0 d high ∧
      (∀ k : Int, low ≤ k → k < p → at0 d' k ≤ at0 d high) ∧
      (∀ k : Int, p < k → k ≤ high → at0 d high < at0 d' k) ∧
      Rearr n d d' ∧ Within low high d d' := by
  have hr : rd d high = .ok (at0 d high) := rd_ok (by omega) (by omega)
  obtain ⟨d1, i, hrun, h1, h2, h3, h4, h5, h6⟩ := Partition_loop_spec n (at0 d high) low high
    hlow hhigh (d.length + 1) d (low - 1) low hn (le_refl _) (by omega) (le_refl _) hlh
    (by omega) rfl ⟨fun k a b => by omega, fun k a b => by omega⟩
  have hlen : d1.length = d.length := h5.1
  have hsw : Swap d1 (i + 1) high = .ok (swapL d1 (i + 1) high) :=
    Swap_ok (by omega) (by omega) (by omega) (by omega)
  have hat := at0_swapL (d := d1) (a := i + 1) (b := high) (by omega) (by omega) (by omega)
    (by omega)
  refine ⟨swapL d1 (i + 1) high, i + 1, ?_, by omega, by omega, ?_, ?_, ?_, ?_, ?_⟩
  · unfold Partition
    simp only [hr, hrun, hsw]
  · rw [hat]
    by_cases hih : i + 1 = high
    · rw [if_pos hih, hih, h3]
    · rw [if_neg hih, if_pos rfl, h3]
  · intro k hk1 hk2
    rw [hat, if_neg (by omega), if_neg (by omega)]
    exact h4.1 k hk1 (by omega)
  · intro k hk1 hk2
    rw [hat]
    by_cases hkh : k = high
    · rw [if_pos hkh]
      exact h4.2 (i + 1) (by omega) (by omega)
    · rw [if_neg hkh, if_neg (by omega)]
      exact h4.2 k (by omega) (by omega)
  · exact Rearr_trans h5 (Rearr_swapL (by omega) (by omega) (by omega) (by omega) (by omega))
  · exact Within_trans h6 (Within_swapL (by omega) (by omega) (by omega) (by omega)
      (by omega) (by omega) (by omega) (by omega))

theorem QuickSort_sort_spec (n : Nat) :
    ∀ (fuel : Nat) (d : List Int) (low high : Int), 0 ≤ low → low ≤ high + 1 → high < n →
      n ≤ d.length → high - low + 2 ≤ fuel →
      ∃ d', QuickSort.sort fuel d low high = .ok d' ∧ Rearr n d d' ∧ Within low high d d' ∧
        ∀ a b : Int, low ≤ a → a ≤ b → b ≤ high → at0 d' a ≤ at0 d' b := by
  intro fuel
  induction fuel with
  | zero => intro d low high h1 h2 h3 h4 h5; omega
  | succ m ih =>
    intro d low high hlow hlh hhigh hn hf
    by_cases hlt : low < high
    · obtain ⟨d1, p, hrun1, hp1, hp2, hpv, hle, hgt, hre1, hw1⟩ :=
        Partition_spec n d low high hlow (by omega) hhigh hn
      obtain ⟨d2, hrun2, hre2, hw2, hs2⟩ := ih d1 low (p - 1) hlow (by omega) (by omega)
        (by have := hre1.1; omega) (by omega)
      obtain ⟨d3, hrun3, hre3, hw3, hs3⟩ := ih d2 (p + 1) high (by omega) (by omega) hhigh
        (by have := hre1.1; have := hre2.1; omega) (by omega)
      simp only [QuickSort.sort, if_pos hlt, hrun1, hrun2, hrun3]
      refine ⟨d3, rfl, Rearr_trans (Rearr_trans hre1 hre2) hre3, ?_, ?_⟩
      · exact Within_trans (Within_trans hw1 (Within_mono hw2 (le_refl _) (by omega)))
          (Within_mono hw3 (by omega) (le_refl _))
      · have hleft : ∀ k : Int, low ≤ k → k < p → at0 d3 k = at0 d2 k ∧ at0 d2 k ≤ at0 d high := by
          intro k hk1 hk2
          refine ⟨hw3.1 k (by omega), ?_⟩
          obtain ⟨k', a1, a2, a3⟩ := hw2.2 k hk1 (by omega)
          rw [a3]
          exact hle k' a1 (by omega)
        have hmid : at0 d3 p = at0 d high := by
          rw [hw3.1 p (by omega), hw2.1 p (by omega), hpv]
        have hright : ∀ k : Int, p < k → k ≤ high → at0 d high < at0 d3 k := by
          intro k hk1 hk2
          obtain ⟨k', a1, a2, a3⟩ := hw3.2 k (by omega) hk2
          rw [a3, hw2.1 k' (by omega)]
          exact hgt k' (by omega) a2
        intro a b ha hab hb
        rcases lt_trichotomy a p with hap | hap | hap
        · rcases lt_trichotomy b p with hbp | hbp | hbp
          · rw [(hleft a ha hap).1, (hleft b (by omega) hbp).1]
            exact hs2 a b ha hab (by omega)
          · rw [hbp, hmid, (hleft a ha hap).1]
            exact (hleft a ha hap).2
          · have h1 := (hleft a ha hap)
            have h2 := hright b hbp hb
            rw [h1.1]; omega
        · rcases eq_or_lt_of_le hab with hab' | hab'
          · rw [hab']
          · rw [hap, hmid]
            exact le_of_lt (hright b (by omega) hb)
        · exact hs3 a b (by omega) hab hb
    · simp only [QuickSort.sort, if_neg hlt]
      refine ⟨d, rfl, Rearr_refl _ _, Within_refl _ _ _, ?_⟩
      intro a b ha hab hb
      have : a = b := by omega
      rw [this]

/-- C7: `QuickSort` returns, and afterwards the live range `[0, size)` is in non-decreasing
order and is a permutation of the live range before the call, for every size (0 and 1
included) and all element values (duplicates included). -/
theorem QuickSort_sorts (l : DynList) (hwf : WF l) :
    ∃ d', QuickSort l = .ok { l with data := d' } ∧
      (live { l with data := d' }).Sorted (· ≤ ·) ∧
      (live { l with data := d' }).Perm (live l) := by
  have hn : l.size ≤ l.data.length := by have := hwf.1; have := hwf.2.1; omega
  have h500 : l.size ≤ 500 := le_trans hwf.2.1 hwf.2.2.2
  have hhigh : toInt (usub l.size 1) = (l.size : Int) - 1 := by
    by_cases h0 : l.size = 0
    · rw [h0, usub_zero_one, toInt_max]; rfl
    · rw [usub_small (by omega), toInt_small (by omega)]; omega
  obtain ⟨d', hrun, hre, -, hs⟩ := QuickSort_sort_spec l.size (l.size + 1) l.data 0
    ((l.size : Int) - 1) (le_refl _) (by omega) (by omega) hn (by push_cast; omega)
  refine ⟨d', ?_, live_of_Rearr hwf hre ?_⟩
  · unfold QuickSort
    rw [hhigh, hrun]
  · intro i j hi hij hj
    exact hs i j hi hij (by omega)

/-- Witness for C7: scenario 1 of the specification, `QuickSort` after pushing 1, 3, 2 on a
default-constructed list. -/
theorem QuickSort_sorts_witness :
    WF ⟨[1, 3, 2, 0, 0], 3, 5⟩ ∧
    ∃ d', QuickSort ⟨[1, 3, 2, 0, 0], 3, 5⟩ = .ok { data := d', size := 3, capacity := 5 } ∧
      (live { data := d', size := 3, capacity := 5 }).Sorted (· ≤ ·) ∧
      (live { data := d', size := 3, capacity := 5 }).Perm (live ⟨[1, 3, 2, 0, 0], 3, 5⟩) :=
  ⟨by decide, QuickSort_sorts ⟨[1, 3, 2, 0, 0], 3, 5⟩ (by decide)⟩

/-- Scenario 1 of the specification: push 1, 3, 2 on a default-constructed list, then
`QuickSort()`; the sequence is `[1,2,3]`. -/
theorem QuickSort_scenario :
    QuickSort ⟨[1, 3, 2, 0, 0], 3, 5⟩ = .ok ⟨[1, 2, 3, 0, 0], 3, 5⟩ := by
  decide

/-! ## HeapSort -/

theorem Heapify_pick_ge (d : List Int) (hsz child largest : Int) (h : hsz ≤ child) :
    Heapify.pick d hsz child largest = .ok largest := by
  unfold Heapify.pick
  rw [if_neg (by omega)]

theorem Heapify_pick_lt (d : List Int) (hsz child largest : Int) (h : child < hsz)
    (hc0 : 0 ≤ child) (hl0 : 0 ≤ largest) (hl : largest < d.length) (hh : hsz ≤ d.length) :
    Heapify.pick d hsz child largest =
      .ok (if at0 d child > at0 d largest then child else largest) := by
  unfold Heapify.pick
  rw [if_pos h, rd_ok hc0 (by omega), rd_ok hl0 hl]
  simp only []
  split <;> rfl

theorem Heapify_choice (d : List Int) (hsz idx : Int) (h0 : 0 ≤ idx) (hh : hsz ≤ d.length) :
    ∃ l1 c, Heapify.pick d hsz (2 * idx + 1) idx = .ok l1 ∧
      Heapify.pick d hsz (2 * idx + 2) l1 = .ok c ∧
      (c = idx ∨ (c = 2 * idx + 1 ∧ c < hsz) ∨ (c = 2 * idx + 2 ∧ c < hsz)) ∧
      (2 * idx + 1 < hsz → at0 d (2 * idx + 1) ≤ at0 d c) ∧
      (2 * idx + 2 < hsz → at0 d (2 * idx + 2) ≤ at0 d c) ∧
      (c ≠ idx → at0 d idx < at0 d c) := by
  by_cases hl : 2 * idx + 1 < hsz
  · have e1 := Heapify_pick_lt d hsz (2 * idx + 1) idx hl (by omega) h0 (by omega) hh
    by_cases hr : 2 * idx + 2 < hsz
    · by_cases c1 : at0 d (2 * idx + 1) > at0 d idx
      · rw [if_pos c1] at e1
        have e2 := Heapify_pick_lt d hsz (2 * idx + 2) (2 * idx + 1) hr (by omega) (by omega)
          (by omega) hh
        by_cases c2 : at0 d (2 * idx + 2) > at0 d (2 * idx + 1)
        · rw [if_pos c2] at e2
          exact ⟨_, _, e1, e2, Or.inr (Or.inr ⟨rfl, hr⟩), fun _ => by omega, fun _ => le_refl _,
            fun _ => by omega⟩
        · rw [if_neg c2] at e2
          exact ⟨_, _, e1, e2, Or.inr (Or.inl ⟨rfl, hl⟩), fun _ => le_refl _, fun _ => by omega,
            fun _ => by omega⟩
      · rw [if_neg c1] at e1
        have e2 := Heapify_pick_lt d hsz (2 * idx + 2) idx hr (by omega) (by omega)
          (by omega) hh
        by_cases c2 : at0 d (2 * idx + 2) > at0 d idx
        · rw [if_pos c2] at e2
          exact ⟨_, _, e1, e2, Or.inr (Or.inr ⟨rfl, hr⟩), fun _ => by omega, fun _ => le_refl _,
            fun _ => by omega⟩
        · rw [if_neg c2] at e2
          exact ⟨_, _, e1, e2, Or.inl rfl, fun _ => by omega, fun _ => by omega,
            fun h => absurd rfl h⟩
    · by_cases c1 : at0 d (2 * idx + 1) > at0 d idx
      · rw [if_pos c1] at e1
        have e2 := Heapify_pick_ge d hsz (2 * idx + 2) (2 * idx + 1) (not_lt.mp hr)
        exact ⟨_, _, e1, e2, Or.inr (Or.inl ⟨rfl, hl⟩), fun _ => le_refl _, fun h => absurd h hr,
          fun _ => by omega⟩
      · rw [if_neg c1] at e1
        have e2 := Heapify_pick_ge d hsz (2 * idx + 2) idx (not_lt.mp hr)
        exact ⟨_, _, e1, e2, Or.inl rfl, fun _ => by omega, fun h => absurd h hr,
          fun h => absurd rfl h⟩
  · have e1 := Heapify_pick_ge d hsz (2 * idx + 1) idx (not_lt.mp hl)
    have e2 := Heapify_pick_ge d hsz (2 * idx + 2) idx
      (by omega : hsz ≤ 2 * idx + 2)
    exact ⟨_, _, e1, e2, Or.inl rfl, fun h => absurd h hl, fun h => by omega,
      fun h => absurd rfl h⟩

theorem Heapify_spec (n : Nat) (hsz lo : Int) (hlo : 0 ≤ lo) (hh : hsz ≤ n) :
    ∀ (fuel : Nat) (d : List Int) (idx : Int), lo ≤ idx → n ≤ d.length → 1 ≤ fuel →
      hsz - idx + 1 ≤ fuel → HeapExcept d lo hsz idx → Bridge d lo hsz idx →
      ∃ d', Heapify fuel d hsz idx = .ok d' ∧ Rearr n d d' ∧ Within idx (hsz - 1) d d' ∧
        HeapFrom d' lo hsz := by
  intro fuel
  induction fuel with
  | zero => intro d idx h1 h2 h3; omega
  | succ m ih =>
    intro d idx hidx hn hf1 hf hexc hbr
    obtain ⟨l1, c, e1, e2, hc, hL, hR, hgt⟩ := Heapify_choice d hsz idx (by omega) (by omega)
    simp only [Heapify, e1, e2]
    by_cases hci : c = idx
    · rw [if_neg (not_not.mpr hci)]
      refine ⟨d, rfl, Rearr_refl _ _, Within_refl _ _ _, ?_⟩
      intro k hk
      by_cases hki : k = idx
      · intro ch hch hlt
        rw [hki] at hch ⊢
        rcases hch with h | h
        · have := hL (by omega)
          rw [hci] at this
          rw [h]; exact this
        · have := hR (by omega)
          rw [hci] at this
          rw [h]; exact this
      · exact hexc k hk hki
    · rw [if_pos hci]
      have hc' : (c = 2 * idx + 1 ∨ c = 2 * idx + 2) ∧ c < hsz := by
        rcases hc with h | h | h
        · exact absurd h hci
        · exact ⟨Or.inl h.1, h.2⟩
        · exact ⟨Or.inr h.1, h.2⟩
      obtain ⟨hcc, hclt⟩ := hc'
      have hsw : Swap d idx c = .ok (swapL d idx c) :=
        Swap_ok (by omega) (by omega) (by omega) (by omega)
      have hat := at0_swapL (d := d) (a := idx) (b := c) (by omega) (by omega) (by omega)
        (by omega)
      have hat_c : at0 (swapL d idx c) c = at0 d idx := by rw [hat, if_pos rfl]
      have hat_i : at0 (swapL d idx c) idx = at0 d c := by
        rw [hat, if_neg (by omega), if_pos rfl]
      have hat_o : ∀ x : Int, x ≠ c → x ≠ idx → at0 (swapL d idx c) x = at0 d x := by
        intro x h1 h2
        rw [hat, if_neg h1, if_neg h2]
      simp only [hsw]
      obtain ⟨d', hrun, hre, hw, hheap⟩ := ih (swapL d idx c) c (by omega)
        (by simpa [length_swapL] using hn) (by omega) (by omega)
        (by
          intro k hk hkc ch hch hlt
          by_cases hki : k = idx
          · rw [hki] at hch ⊢
            rw [hat_i]
            by_cases hchc : ch = c
            · rw [hchc, hat_c]; exact le_of_lt (hgt hci)
            · rw [hat_o ch hchc (by omega)]
              rcases hch with h | h
              · rw [h]; exact hL (by omega)
              · rw [h]; exact hR (by omega)
          · rw [hat_o k hkc hki]
            have hchc : ch ≠ c := by omega
            by_cases hchi : ch = idx
            · rw [hchi, hat_i]
              exact hbr k hk (by omega) c hcc hclt
            · rw [hat_o ch hchc hchi]
              exact hexc k hk hki ch hch hlt)
        (by
          intro q hq hqc ch hch hlt
          have hqi : q = idx := by omega
          rw [hqi, hat_i, hat_o ch (by omega) (by omega)]
          exact hexc c (by omega) hci ch hch hlt)
      refine ⟨d', hrun, ?_, ?_, hheap⟩
      · exact Rearr_trans (Rearr_swapL (by omega) (by omega) (by omega) (by omega) hn) hre
      · exact Within_trans (Within_swapL (by omega) (by omega) (by omega) (by omega)
          (le_refl _) (by omega) (by omega) (by omega)) (Within_mono hw (by omega) (le_refl _))

theorem heap_root_max {d : List Int} {m : Int} (h : HeapFrom d 0 m) :
    ∀ k : Nat, (k : Int) < m → at0 d k ≤ at0 d 0 := by
  intro k
  induction k using Nat.strong_induction_on with
  | _ k ih =>
    intro hk
    by_cases h0 : k = 0
    · subst h0; simp
    · have hq := ih ((k - 1) / 2) (by omega) (by omega)
      have hc := h (((k - 1) / 2 : Nat) : Int) (by omega) (k : Int) (by omega) hk
      exact le_trans hc hq

theorem HeapSort_build_spec (n : Nat) (hn500 : n ≤ 500) :
    ∀ (fuel : Nat) (d : List Int) (i : Int), -1 ≤ i → i < n → n ≤ d.length → i + 2 ≤ fuel →
      HeapFrom d (i + 1) n →
      ∃ d', HeapSort.build n fuel d i = .ok d' ∧ Rearr n d d' ∧ HeapFrom d' 0 n := by
  have hto : toInt n = (n : Int) := toInt_small (by omega)
  intro fuel
  induction fuel with
  | zero => intro d i h1 h2 h3 h4; omega
  | succ m ih =>
    intro d i hi hin hn hf hheap
    by_cases hge : i ≥ 0
    · obtain ⟨d1, hrun1, hre1, -, hheap1⟩ := Heapify_spec n (n : Int) i hge (le_refl _)
        (d.length + 1) d i (le_refl _) hn (by omega) (by push_cast; omega)
        (fun k hk hki => hheap k (by omega))
        (fun q hq hqi => by omega)
      obtain ⟨d', hrun, hre, hh⟩ := ih d1 (i - 1) (by omega) (by omega)
        (by have := hre1.1; omega) (by omega)
        (by rw [show i - 1 + 1 = i by omega]; exact hheap1)
      simp only [HeapSort.build, if_pos hge, hto, hrun1, hrun]
      exact ⟨d', rfl, Rearr_trans hre1 hre, hh⟩
    · simp only [HeapSort.build, if_neg hge]
      have : i + 1 = 0 := by omega
      rw [this] at hheap
      exact ⟨d, rfl, Rearr_refl _ _, hheap⟩

theorem HeapSort_extract_spec (n : Nat) :
    ∀ (fuel : Nat) (d : List Int) (i : Int), -1 ≤ i → i < n → n ≤ d.length → i + 2 ≤ fuel →
      HeapFrom d 0 (i + 1) →
      (∀ a b : Int, i < a → a ≤ b → b < n → at0 d a ≤ at0 d b) →
      (∀ a b : Int, 0 ≤ a → a ≤ i → i < b → b < n → at0 d a ≤ at0 d b) →
      ∃ d', HeapSort.extract fuel d i = .ok d' ∧ Rearr n d d' ∧ SortedUpTo d' n := by
  intro fuel
  induction fuel with
  | zero => intro d i h1 h2 h3 h4; omega
  | succ m ih =>
    intro d i hi hin hn hf hheap hsuf hps
    by_cases hge : i ≥ 0
    · have hsw : Swap d 0 i = .ok (swapL d 0 i) :=
        Swap_ok (le_refl _) (by omega) (by omega) (by omega)
      have hat := at0_swapL (d := d) (a := 0) (b := i) (le_refl _) (by omega) (by omega)
        (by omega)
      have hlen1 : (swapL d 0 i).length = d.length := length_swapL _ _ _
      obtain ⟨d2, hrun2, hre2, hw2, hheap2⟩ := Heapify_spec n i 0 (le_refl _) (by omega)
        (d.length + 1) (swapL d 0 i) 0 (le_refl _) (by omega) (by omega) (by push_cast; omega)
        (by
          intro k hk hk0 ch hch hlt
          rw [hat, hat, if_neg (by omega), if_neg (by omega), if_neg (by omega),
            if_neg (by omega)]
          exact hheap k hk ch hch (by omega))
        (fun q hq hqi => by omega)
      have hroot := heap_root_max hheap
      have hpre : ∀ a : Int, 0 ≤ a → a ≤ i - 1 → ∃ k : Int, 0 ≤ k ∧ k ≤ i ∧ at0 d2 a = at0 d k := by
        intro a ha0 hai
        obtain ⟨k', a1, a2, a3⟩ := hw2.2 a ha0 hai
        rw [hat, if_neg (by omega)] at a3
        by_cases hk0 : k' = 0
        · rw [if_pos hk0] at a3
          exact ⟨i, hge, le_refl _, a3⟩
        · rw [if_neg hk0] at a3
          exact ⟨k', a1, by omega, a3⟩
      have hpost : ∀ b : Int, i ≤ b →
          at0 d2 b = if b = i then at0 d 0 else at0 d b := by
        intro b hb
        rw [hw2.1 b (by omega), hat]
        by_cases hbi : b = i
        · rw [if_pos hbi, if_pos hbi]
        · rw [if_neg hbi, if_neg hbi, if_neg (by omega)]
      obtain ⟨d', hrun, hre, hso⟩ := ih d2 (i - 1) (by omega) (by omega)
        (by have := hre2.1; omega) (by omega)
        (by rw [show i - 1 + 1 = i by omega]; exact hheap2)
        (by
          intro a b ha hab hb
          rw [hpost a (by omega), hpost b (by omega)]
          by_cases hai : a = i
          · rw [if_pos hai]
            by_cases hbi : b = i
            · rw [if_pos hbi]
            · rw [if_neg hbi]
              exact hps 0 b (le_refl _) hge (by omega) hb
          · rw [if_neg hai, if_neg (by omega)]
            exact hsuf a b (by omega) hab hb)
        (by
          intro a b ha0 hai hib hb
          obtain ⟨k, k0, k1, k2⟩ := hpre a ha0 hai
          rw [k2, hpost b (by omega)]
          by_cases hbi : b = i
          · rw [if_pos hbi]
            have := hroot k.toNat (by omega)
            rwa [Int.toNat_of_nonneg k0] at this
          · rw [if_neg hbi]
            exact hps k b k0 k1 (by omega) hb)
      simp only [HeapSort.extract, if_pos hge, hsw, hrun2, hrun]
      exact ⟨d', rfl, Rearr_trans (Rearr_trans
        (Rearr_swapL (le_refl _) (by omega) (by omega) (by omega) hn) hre2) hre, hso⟩
    · simp only [HeapSort.extract, if_neg hge]
      refine ⟨d, rfl, Rearr_refl _ _, ?_⟩
      intro a b ha hab hb
      exact hsuf a b (by omega) hab hb

/-- C8: `HeapSort` returns, and afterwards the live range `[0, size)` is in non-decreasing
order and is a permutation of the live range before the call. -/
theorem HeapSort_sorts (l : DynList) (hwf : WF l) :
    ∃ d', HeapSort l = .ok { l with data := d' } ∧
      (live { l with data := d' }).Sorted (· ≤ ·) ∧
      (live { l with data := d' }).Perm (live l) := by
  have hn : l.size ≤ l.data.length := by have := hwf.1; have := hwf.2.1; omega
  have h500 : l.size ≤ 500 := le_trans hwf.2.1 hwf.2.2.2
  have hstart : toInt (usub (l.size / 2) 1) = ((l.size / 2 : Nat) : Int) - 1 := by
    by_cases h0 : l.size / 2 = 0
    · rw [h0, usub_zero_one, toInt_max]; rfl
    · rw [usub_small (by omega), toInt_small (by omega)]; omega
  have hhigh : toInt (usub l.size 1) = (l.size : Int) - 1 := by
    by_cases h0 : l.size = 0
    · rw [h0, usub_zero_one, toInt_max]; rfl
    · rw [usub_small (by omega), toInt_small (by omega)]; omega
  obtain ⟨d1, hrun1, hre1, hheap1⟩ := HeapSort_build_spec l.size h500 (l.size + 1) l.data
    (((l.size / 2 : Nat) : Int) - 1) (by omega) (by omega) hn (by push_cast; omega)
    (fun k hk ch hch hlt => by omega)
  obtain ⟨d2, hrun2, hre2, hs⟩ := HeapSort_extract_spec l.size (l.size + 1) d1
    ((l.size : Int) - 1) (by omega) (by omega) (by have := hre1.1; omega) (by push_cast; omega)
    (by rw [show (l.size : Int) - 1 + 1 = l.size by omega]; exact hheap1)
    (fun a b ha hab hb => by omega) (fun a b ha0 hai hib hb => by omega)
  refine ⟨d2, ?_, live_of_Rearr hwf (Rearr_trans hre1 hre2) hs⟩
  unfold HeapSort
  rw [hstart, hrun1]
  simp only []
  rw [hhigh, hrun2]

/-- Witness for C8: `HeapSort` on `[5,1,4,1]` inside a buffer of six slots. -/
theorem HeapSort_sorts_witness :
    WF ⟨[5, 1, 4, 1, 9, 9], 4, 6⟩ ∧
    ∃ d', HeapSort ⟨[5, 1, 4, 1, 9, 9], 4, 6⟩ = .ok { data := d', size := 4, capacity := 6 } ∧
      (live { data := d', size := 4, capacity := 6 }).Sorted (· ≤ ·) ∧
      (live { data := d', size := 4, capacity := 6 }).Perm (live ⟨[5, 1, 4, 1, 9, 9], 4, 6⟩) :=
  ⟨by decide, HeapSort_sorts ⟨[5, 1, 4, 1, 9, 9], 4, 6⟩ (by decide)⟩

/-! ## Reserve, Discard and Push -/

theorem reallocate_ok {d : List Int} {n k : Nat} (hk : k ≤ d.length) (hn : k ≤ n) :
    reallocate d n k = .ok (d.take k ++ List.replicate (n - k) 0) := by
  unfold reallocate
  rw [if_neg (by omega), if_neg (by omega)]

theorem reallocate_overread {d : List Int} {n k : Nat} (hk : d.length < k) :
    reallocate d n k = .error (.outOfBounds d.length) := by
  unfold reallocate
  rw [if_pos hk]

theorem Reserve_double {l : DynList} (hwf : WF l) (h : 2 * l.capacity ≤ MAX_CAPACITY) :
    Reserve l l.capacity =
      .ok { l with data := l.data ++ List.replicate l.capacity 0, capacity := 2 * l.capacity } := by
  obtain ⟨hlen, hsz, hc1, hcap⟩ := hwf
  unfold MAX_CAPACITY at h hcap
  have hu : uadd l.capacity l.capacity = 2 * l.capacity := by rw [uadd_small (by omega)]; omega
  unfold Reserve
  rw [if_neg (by unfold MAX_CAPACITY; omega), hu, if_neg (by unfold MAX_CAPACITY; omega),
    reallocate_ok (by omega) (by omega)]
  simp only []
  rw [List.take_of_length_le (by omega), show 2 * l.capacity - l.capacity = l.capacity by omega]

theorem Reserve_clamp_overread {l : DynList} (hwf : WF l) (hlt : l.capacity < MAX_CAPACITY)
    (amount : Nat) (h : MAX_CAPACITY < uadd l.capacity amount) :
    Reserve l amount = .error (.outOfBounds l.capacity) := by
  obtain ⟨hlen, hsz, hc1, hcap⟩ := hwf
  unfold Reserve
  rw [if_neg (by omega), if_pos h, reallocate_overread (by omega), hlen]

theorem take_set_succ (d : List Int) (n : Nat) (v : Int) (h : n < d.length) :
    (d.set n v).take (n + 1) = d.take n ++ [v] := by
  induction d generalizing n with
  | nil => simp at h
  | cons x xs ih =>
    cases n with
    | zero => simp
    | succ n => simp [ih n (by simpa using h)]

theorem Push_room {l : DynList} (hwf : WF l) (h : l.size < l.capacity) (value : Int) :
    Push l value = .ok { l with data := l.data.set l.size value, size := l.size + 1 } := by
  obtain ⟨hlen, hsz, hc1, hcap⟩ := hwf
  unfold MAX_CAPACITY at hcap
  unfold Push
  rw [if_neg (by omega)]
  simp only []
  rw [if_pos (by omega), wr_ok _ (by omega) (by omega), uadd_small (by omega)]
  simp

theorem Push_double {l : DynList} (hwf : WF l) (h : l.size = l.capacity)
    (h2 : 2 * l.capacity ≤ MAX_CAPACITY) (value : Int) :
    Push l value = .ok { data := (l.data ++ List.replicate l.capacity 0).set l.size value,
                         size := l.size + 1, capacity := 2 * l.capacity } := by
  have hr := Reserve_double hwf h2
  obtain ⟨hlen, hsz, hc1, hcap⟩ := hwf
  unfold MAX_CAPACITY at hcap h2
  unfold Push
  rw [if_pos h, hr]
  simp only []
  rw [if_pos (by omega), wr_ok _ (by omega) (by simp; omega), uadd_small (by omega)]
  simp

theorem Push_clamp_overread {l : DynList} (hwf : WF l) (h : l.size = l.capacity)
    (hlt : l.capacity < MAX_CAPACITY) (h2 : MAX_CAPACITY < 2 * l.capacity) (value : Int) :
    Push l value = .error (.outOfBounds l.capacity) := by
  have hcap := hwf.2.2.2
  unfold MAX_CAPACITY at hcap h2 hlt
  have hu : uadd l.capacity l.capacity = 2 * l.capacity := by rw [uadd_small (by omega)]; omega
  unfold Push
  rw [if_pos h, Reserve_clamp_overread hwf (by unfold MAX_CAPACITY; omega) _
    (by rw [hu]; unfold MAX_CAPACITY; omega)]

theorem Push_spec {l : DynList} (hwf : WF l)
    (hroom : l.size < l.capacity ∨ 2 * l.capacity ≤ MAX_CAPACITY) (value : Int) :
    ∃ l', Push l value = .ok l' ∧ WF l' ∧ l'.size = l.size + 1 ∧
      live l' = live l ++ [value] ∧
      l'.capacity = if l.size = l.capacity then 2 * l.capacity else l.capacity := by
  have hwf' := hwf
  obtain ⟨hlen, hsz, hc1, hcap⟩ := hwf
  by_cases hlt : l.size < l.capacity
  · refine ⟨_, Push_room hwf' hlt value, ⟨by simpa using hlen, by simp; omega, hc1, hcap⟩, rfl,
      ?_, by rw [if_neg (by omega)]⟩
    simp only [live]
    exact take_set_succ _ _ _ (by omega)
  · have heq : l.size = l.capacity := by omega
    have h2 : 2 * l.capacity ≤ MAX_CAPACITY := by
      rcases hroom with h | h
      · exact absurd h hlt
      · exact h
    refine ⟨_, Push_double hwf' heq h2 value, ⟨by simp; omega, by simp; omega, by simp; omega, h2⟩,
      rfl, ?_, by rw [if_pos heq]⟩
    simp only [live]
    rw [take_set_succ _ _ _ (by simp; omega), List.take_append_of_le_length (by omega)]

/-- C13: on a list that is full at the maximum capacity (`size == capacity == MAX_CAPACITY`),
`Push(value)` returns without error and leaves the whole state (size, capacity, every
element) unchanged. -/
theorem Push_full_max (l : DynList) (value : Int) (hfull : l.size = l.capacity)
    (hmax : l.capacity = MAX_CAPACITY) : Push l value = .ok l := by
  unfold Push Reserve
  rw [if_pos hfull, if_pos hmax]
  simp only []
  rw [if_neg (by simpa using hfull)]

/-- Witness for C13: `Push(7)` on a full list of 500 elements. -/
theorem Push_full_max_witness :
    Push ⟨List.replicate 500 0, 500, 500⟩ 7 = .ok ⟨List.replicate 500 0, 500, 500⟩ :=
  Push_full_max ⟨List.replicate 500 0, 500, 500⟩ 7 (by decide) (by decide)

set_option maxRecDepth 100000 in
/-- C12: a full list of capacity 300 (`size == capacity == 300 < MAX_CAPACITY`): `Push(7)`
calls `Reserve(300)`, whose clamping branch copies `MAX_CAPACITY` elements out of the buffer
of 300 and so reads outside it; no capacity 500 and no stored value result. -/
theorem Push_grow_clamp_reads_outside :
    WF ⟨List.replicate 300 0, 300, 300⟩ ∧ (300 : Nat) < MAX_CAPACITY ∧
    Push ⟨List.replicate 300 0, 300, 300⟩ 7 = .error (.outOfBounds 300) := by
  decide

theorem PushAll_ok : ∀ (vs : List Int) (l : DynList) (k : Nat), WF l →
    l.size + vs.length ≤ l.capacity * 2 ^ k → l.capacity * 2 ^ k ≤ MAX_CAPACITY →
    ∃ l', PushAll l vs = .ok l' ∧ WF l' ∧ l'.size = l.size + vs.length ∧
      live l' = live l ++ vs := by
  intro vs
  induction vs with
  | nil => intro l k hwf _ _; exact ⟨l, rfl, hwf, by simp, by simp⟩
  | cons v vs ih =>
    intro l k hwf hfit hmax
    have hroom : l.size < l.capacity ∨ 2 * l.capacity ≤ MAX_CAPACITY := by
      by_cases hlt : l.size < l.capacity
      · exact Or.inl hlt
      · right
        cases k with
        | zero => simp at hfit; omega
        | succ k =>
          have h1 : 1 ≤ 2 ^ k := Nat.one_le_two_pow
          have h2 : l.capacity * 2 ^ (k + 1) = 2 * (l.capacity * 2 ^ k) := by ring
          have h3 : l.capacity ≤ l.capacity * 2 ^ k := Nat.le_mul_of_pos_right _ (by omega)
          omega
    obtain ⟨l1, hrun1, hwf1, hs1, hlive1, hcap1⟩ := Push_spec hwf hroom v
    have hk : ∃ k', l1.size + vs.length ≤ l1.capacity * 2 ^ k' ∧
        l1.capacity * 2 ^ k' ≤ MAX_CAPACITY := by
      by_cases heq : l.size = l.capacity
      · rw [if_pos heq] at hcap1
        cases k with
        | zero => simp at hfit; omega
        | succ k =>
          refine ⟨k, ?_, ?_⟩
          · rw [hcap1, hs1]
            have h2 : l.capacity * 2 ^ (k + 1) = 2 * l.capacity * 2 ^ k := by ring
            simp only [List.length_cons] at hfit
            omega
          · rw [hcap1]
            have h2 : l.capacity * 2 ^ (k + 1) = 2 * l.capacity * 2 ^ k := by ring
            omega
      · rw [if_neg heq] at hcap1
        refine ⟨k, ?_, ?_⟩
        · rw [hcap1, hs1]; simp only [List.length_cons] at hfit; omega
        · rw [hcap1]; exact hmax
    obtain ⟨k', hfit', hmax'⟩ := hk
    obtain ⟨l', hrun, hwf', hs', hlive'⟩ := ih l1 k' hwf1 hfit' hmax'
    refine ⟨l', ?_, hwf', ?_, ?_⟩
    · simp only [PushAll, hrun1, hrun]
    · rw [hs', hs1]; simp only [List.length_cons]; omega
    · rw [hlive', hlive1]; simp

/-- C16: for an index beyond the size, `Insert(index, value)` returns without error and leaves
the whole state unchanged. -/
theorem Insert_index_beyond_size (l : DynList) (index : Nat) (value : Int)
    (h : index > l.size) : Insert l index value = .ok l := by
  unfold Insert
  rw [if_pos h]

/-- Witness for C16: `Insert(4, 9)` on `[2,4,6]`. -/
theorem Insert_index_beyond_size_witness :
    Insert ⟨[2, 4, 6, 0, 0], 3, 5⟩ 4 9 = .ok ⟨[2, 4, 6, 0, 0], 3, 5⟩ :=
  Insert_index_beyond_size ⟨[2, 4, 6, 0, 0], 3, 5⟩ 4 9 (by decide)

/-! ## ReduceSize, Pop and the shrink policy -/

theorem ReduceSize_one_shrink {l : DynList} (hwf : WF l) (hs : 0 < l.size)
    (hc : l.capacity > 5) (hlow : l.size - 1 < l.capacity / 2 - 2) :
    ReduceSize l 1 = .ok { data := l.data.take (l.capacity - l.capacity / 2),
                           size := l.size - 1, capacity := l.capacity - l.capacity / 2 } := by
  obtain ⟨hlen, hsz, hc1, hcap⟩ := hwf
  have hu1 : usub l.size 1 = l.size - 1 := usub_small (by omega)
  have hu2 : usub (l.capacity / 2) 2 = l.capacity / 2 - 2 := usub_small (by omega)
  have hu3 : usub l.capacity (l.capacity / 2) = l.capacity - l.capacity / 2 :=
    usub_small (by omega)
  unfold ReduceSize Discard
  simp only [if_neg (show ¬ 1 > l.size by omega), hu1, hu2, hu3]
  rw [if_pos ⟨hc, hlow⟩, if_neg (by omega), reallocate_ok (by omega) (le_refl _)]
  simp only []
  rw [if_neg (by omega)]
  simp

theorem ReduceSize_one_keep {l : DynList} (hs : 0 < l.size)
    (hno : ¬ (l.capacity > 5 ∧ l.size - 1 < l.capacity / 2 - 2)) :
    ReduceSize l 1 = .ok { l with size := l.size - 1 } := by
  have hu1 : usub l.size 1 = l.size - 1 := usub_small (by omega)
  unfold ReduceSize
  simp only [if_neg (show ¬ 1 > l.size by omega), hu1]
  by_cases hc : l.capacity > 5
  · have hu2 : usub (l.capacity / 2) 2 = l.capacity / 2 - 2 := usub_small (by omega)
    rw [hu2, if_neg hno]
  · rw [if_neg (fun h => hc h.1)]

theorem ReduceSize_one_spec {l : DynList} (hwf : WF l) (hs : 0 < l.size) :
    ∃ l', ReduceSize l 1 = .ok l' ∧ WF l' ∧ l'.size = l.size - 1 ∧
      live l' = l.data.take (l.size - 1) ∧
      l'.capacity = if l.capacity > 5 ∧ l.size - 1 < l.capacity / 2 - 2
        then l.capacity - l.capacity / 2 else l.capacity := by
  have hwf' := hwf
  obtain ⟨hlen, hsz, hc1, hcap⟩ := hwf
  by_cases hsh : l.capacity > 5 ∧ l.size - 1 < l.capacity / 2 - 2
  · refine ⟨_, ReduceSize_one_shrink hwf' hs hsh.1 hsh.2, ⟨?_, ?_, ?_, ?_⟩, rfl, ?_,
      by rw [if_pos hsh]⟩
    · simp; omega
    · simp only []; omega
    · simp only []; omega
    · simp only []; omega
    · simp only [live]
      rw [List.take_take, min_eq_left (by omega)]
  · refine ⟨_, ReduceSize_one_keep hs hsh, ⟨hlen, ?_, hc1, hcap⟩, rfl, rfl,
      by rw [if_neg hsh]⟩
    simp only []; omega

theorem Pop_eq_ReduceSize {l : DynList} (hs : 0 < l.size) : Pop l = ReduceSize l 1 := by
  unfold Pop
  rw [if_pos hs]

/-- C18: `Pop()` on a non-empty list decrements the size by one and keeps the elements at the
indices `[0, size - 1)`, whether or not the buffer shrinks; on an empty list it changes
nothing. -/
theorem Pop_spec (l : DynList) (hwf : WF l) :
    (0 < l.size → ∃ l', Pop l = .ok l' ∧ l'.size = l.size - 1 ∧
      live l' = (live l).take (l.size - 1)) ∧
    (l.size = 0 → Pop l = .ok l) := by
  constructor
  · intro hs
    obtain ⟨l', hrun, -, hsize, hlive, -⟩ := ReduceSize_one_spec hwf hs
    refine ⟨l', by rw [Pop_eq_ReduceSize hs]; exact hrun, hsize, ?_⟩
    rw [hlive]
    simp only [live]
    rw [List.take_take, min_eq_left (by omega)]
  · intro h0
    unfold Pop
    rw [if_neg (by omega)]

/-- Witness for C18: `Pop()` on `[1,2,3]` with capacity 10 (the buffer shrinks) and on the
default-constructed empty list. -/
theorem Pop_spec_witness :
    WF ⟨[1, 2, 3, 0, 0, 0, 0, 0, 0, 0], 3, 10⟩ ∧
    (∃ l', Pop ⟨[1, 2, 3, 0, 0, 0, 0, 0, 0, 0], 3, 10⟩ = .ok l' ∧ l'.size = 3 - 1 ∧
      live l' = (live ⟨[1, 2, 3, 0, 0, 0, 0, 0, 0, 0], 3, 10⟩).take (3 - 1)) ∧
    Pop mkDefault = .ok mkDefault :=
  ⟨by decide, (Pop_spec ⟨[1, 2, 3, 0, 0, 0, 0, 0, 0, 0], 3, 10⟩ (by decide)).1 (by decide),
    (Pop_spec mkDefault (by decide)).2 rfl⟩

/-- C19: `Pop()` on a non-empty list changes the capacity exactly when the capacity is above 5
and the new size `size - 1` is below `capacity / 2 - 2`. -/
theorem Pop_capacity_changes_iff (l : DynList) (hwf : WF l) (hs : 0 < l.size) :
    ∃ l', Pop l = .ok l' ∧
      (l'.capacity ≠ l.capacity ↔ (l.capacity > 5 ∧ l.size - 1 < l.capacity / 2 - 2)) := by
  obtain ⟨l', hrun, -, -, -, hcap⟩ := ReduceSize_one_spec hwf hs
  refine ⟨l', by rw [Pop_eq_ReduceSize hs]; exact hrun, ?_⟩
  by_cases hsh : l.capacity > 5 ∧ l.size - 1 < l.capacity / 2 - 2
  · rw [if_pos hsh] at hcap
    constructor
    · intro _; exact hsh
    · intro _; rw [hcap]; omega
  · rw [if_neg hsh] at hcap
    constructor
    · intro h; exact absurd hcap h
    · intro h; exact absurd h hsh

/-- Witness for C19: `Pop()` on `[1,2,3]` with capacity 10. -/
theorem Pop_capacity_changes_iff_witness :
    WF ⟨[1, 2, 3, 0, 0, 0, 0, 0, 0, 0], 3, 10⟩ ∧
    ∃ l', Pop ⟨[1, 2, 3, 0, 0, 0, 0, 0, 0, 0], 3, 10⟩ = .ok l' ∧
      (l'.capacity ≠ 10 ↔ (10 > 5 ∧ 3 - 1 < 10 / 2 - 2)) :=
  ⟨by decide, Pop_capacity_changes_iff ⟨[1, 2, 3, 0, 0, 0, 0, 0, 0, 0], 3, 10⟩ (by decide)
    (by decide)⟩

theorem take_set_ge (d : List Int) (n m : Nat) (v : Int) (h : m ≤ n) :
    (d.set n v).take m = d.take m := by
  rw [List.set_take, List.set_eq_of_length_le (by simp; omega)]

theorem Remove_index_spec {l : DynList} (hwf : WF l) {index : Nat} (hidx : index < l.size) :
    ∃ l', Remove l index = .ok l' ∧ WF l' ∧ l'.size = l.size - 1 ∧
      live l' = (l.data.set index (at0 l.data ((l.size : Int) - 1))).take (l.size - 1) ∧
      l'.capacity = if l.capacity > 5 ∧ l.size - 1 < l.capacity / 2 - 2
        then l.capacity - l.capacity / 2 else l.capacity := by
  have hwf' := hwf
  obtain ⟨hlen, hsz, hc1, hcap⟩ := hwf
  have hs : 0 < l.size := by omega
  have hu1 : usub l.size 1 = l.size - 1 := usub_small (by omega)
  unfold Remove
  rw [if_pos ⟨hs, hidx⟩, hu1]
  by_cases hlast : l.size = 1 ∨ index = l.size - 1
  · rw [if_pos hlast, Pop_eq_ReduceSize hs]
    obtain ⟨l', hrun, hwf1, hsize, hlive, hcap'⟩ := ReduceSize_one_spec hwf' hs
    refine ⟨l', hrun, hwf1, hsize, ?_, hcap'⟩
    rw [hlive, take_set_ge _ _ _ _ (by omega)]
  · rw [if_neg hlast]
    have hr : rd l.data ((l.size - 1 : Nat) : Int) = .ok (at0 l.data ((l.size : Int) - 1)) := by
      rw [rd_ok (by omega) (by omega)]
      congr 2
      omega
    have hw : wr l.data (index : Int) (at0 l.data ((l.size : Int) - 1)) =
        .ok (l.data.set index (at0 l.data ((l.size : Int) - 1))) := by
      rw [wr_ok _ (by omega) (by omega)]
      simp
    simp only [hr, hw]
    have hwf2 : WF { l with data := l.data.set index (at0 l.data ((l.size : Int) - 1)) } :=
      ⟨by simpa using hlen, hsz, hc1, hcap⟩
    obtain ⟨l', hrun, hwf1, hsize, hlive, hcap'⟩ := ReduceSize_one_spec hwf2 hs
    exact ⟨l', hrun, hwf1, hsize, hlive, hcap'⟩

/-- C20 (amended): for a list with capacity `c > 5`, when `Pop()` or `Remove(index)` drives the
size below `c / 2 - 2`, the capacity afterwards is `c - c / 2`, that is `c / 2` rounded up; it
is exactly `c / 2` when `c` is even. -/
theorem shrink_capacity_is_upper_half (l : DynList) (hwf : WF l) (hc : l.capacity > 5)
    (hs : 0 < l.size) (hlow : l.size - 1 < l.capacity / 2 - 2) :
    (∃ l', Pop l = .ok l' ∧ l'.capacity = l.capacity - l.capacity / 2 ∧
      (l.capacity % 2 = 0 → l'.capacity = l.capacity / 2)) ∧
    (∀ index, index < l.size → ∃ l', Remove l index = .ok l' ∧
      l'.capacity = l.capacity - l.capacity / 2 ∧
      (l.capacity % 2 = 0 → l'.capacity = l.capacity / 2)) := by
  constructor
  · obtain ⟨l', hrun, -, -, -, hcap⟩ := ReduceSize_one_spec hwf hs
    rw [if_pos ⟨hc, hlow⟩] at hcap
    exact ⟨l', by rw [Pop_eq_ReduceSize hs]; exact hrun, hcap, fun _ => by omega⟩
  · intro index hidx
    obtain ⟨l', hrun, -, -, -, hcap⟩ := Remove_index_spec hwf hidx
    rw [if_pos ⟨hc, hlow⟩] at hcap
    exact ⟨l', hrun, hcap, fun _ => by omega⟩

/-- Witness for C20 (amended): `[1,2,3]` with capacity 10. -/
theorem shrink_capacity_is_upper_half_witness :
    WF ⟨[1, 2, 3, 0, 0, 0, 0, 0, 0, 0], 3, 10⟩ ∧
    (∃ l', Pop ⟨[1, 2, 3, 0, 0, 0, 0, 0, 0, 0], 3, 10⟩ = .ok l' ∧ l'.capacity = 10 - 10 / 2 ∧
      (10 % 2 = 0 → l'.capacity = 10 / 2)) ∧
    (∀ index, index < 3 → ∃ l', Remove ⟨[1, 2, 3, 0, 0, 0, 0, 0, 0, 0], 3, 10⟩ index = .ok l' ∧
      l'.capacity = 10 - 10 / 2 ∧ (10 % 2 = 0 → l'.capacity = 10 / 2)) :=
  ⟨by decide, shrink_capacity_is_upper_half ⟨[1, 2, 3, 0, 0, 0, 0, 0, 0, 0], 3, 10⟩ (by decide)
    (by decide) (by decide) (by decide)⟩

/-- Counterexample for C20: a list built by `List(7)` and one `Push(1)`; `Pop()` drives the
size to `0 < 7 / 2 - 2` and the capacity becomes `7 - 7 / 2 = 4`, not `7 / 2 = 3`. -/
theorem shrink_capacity_odd_not_half :
    WF ⟨[1, 0, 0, 0, 0, 0, 0], 1, 7⟩ ∧ (7 : Nat) > 5 ∧
    Pop ⟨[1, 0, 0, 0, 0, 0, 0], 1, 7⟩ = .ok ⟨[1, 0, 0, 0], 0, 4⟩ ∧
    (0 : Nat) < 7 / 2 - 2 ∧ (4 : Nat) ≠ 7 / 2 := by
  decide

/-- Scenario 2 of the specification: capacity 10, size 6, four calls of `Pop()`; the size is 2
and the capacity 5. -/
theorem Pop_scenario :
    PopTimes 4 ⟨[1, 2, 3, 4, 5, 6, 0, 0, 0, 0], 6, 10⟩ = .ok ⟨[1, 2, 3, 4, 5], 2, 5⟩ := by
  decide

/-! ## Insert -/

theorem at0_of_neg (d : List Int) {k : Int} (h : k < 0) : at0 d k = 0 := by
  unfold at0; rw [if_neg (by omega)]

theorem at0_of_ge (d : List Int) {k : Int} (h : (d.length : Int) ≤ k) : at0 d k = 0 := by
  unfold at0
  have : d.length ≤ k.toNat := by omega
  simp [List.getElem?_eq_none this]

theorem at0_append (a b : List Int) {k : Int} (hk : 0 ≤ k) :
    at0 (a ++ b) k = if k < a.length then at0 a k else at0 b (k - a.length) := by
  unfold at0
  rw [if_pos hk]
  by_cases h : k < a.length
  · have h' : k.toNat < a.length := by omega
    rw [if_pos h, if_pos hk]
    simp [List.getElem?_append_left h']
  · have h' : a.length ≤ k.toNat := by omega
    rw [if_neg h, if_pos (by omega)]
    simp only [List.getD_eq_getElem?_getD]
    rw [List.getElem?_append_right h']
    congr 2
    omega

theorem at0_cons (x : Int) (b : List Int) (k : Int) :
    at0 (x :: b) k = if k = 0 then x else at0 b (k - 1) := by
  by_cases h0 : k = 0
  · subst h0; simp [at0]
  · rw [if_neg h0]
    by_cases hk : 0 < k
    · unfold at0
      rw [if_pos (by omega), if_pos (by omega)]
      obtain ⟨m, hm⟩ : ∃ m : Nat, k.toNat = m + 1 := ⟨k.toNat - 1, by omega⟩
      have hm' : (k - 1).toNat = m := by omega
      rw [hm, hm']
      simp
    · rw [at0_of_neg _ (by omega), at0_of_neg _ (by omega)]

theorem at0_drop (s : List Int) (m : Nat) {k : Int} (hk : 0 ≤ k) :
    at0 (s.drop m) k = at0 s (k + m) := by
  unfold at0
  rw [if_pos hk, if_pos (by omega)]
  simp only [List.getD_eq_getElem?_getD, List.getElem?_drop]
  congr 2
  omega

theorem at0_take (s : List Int) (m : Nat) (k : Int) :
    at0 (s.take m) k = if k < m then at0 s k else 0 := by
  by_cases hk : 0 ≤ k
  · unfold at0
    rw [if_pos hk]
    by_cases h : k < m
    · have h' : k.toNat < m := by omega
      rw [if_pos h, if_pos hk]
      simp [List.getElem?_take, h']
    · have h' : ¬ k.toNat < m := by omega
      rw [if_neg h]
      simp [List.getElem?_take, h']
  · rw [at0_of_neg _ (by omega), at0_of_neg _ (by omega)]
    simp

theorem Insert_shift_spec (index : Nat) :
    ∀ (fuel : Nat) (d : List Int) (i : Nat), index ≤ i → i < d.length → i - index < fuel →
      ∃ d', Insert.shift index fuel d i = .ok d' ∧ d'.length = d.length ∧
        ∀ k : Int, at0 d' k =
          if k < index ∨ (i : Int) < k then at0 d k
          else if k = index then at0 d i else at0 d (k - 1) := by
  intro fuel
  induction fuel with
  | zero => intro d i h1 h2 h3; omega
  | succ m ih =>
    intro d i hi hlen hf
    by_cases hne : i ≠ index
    · have hu : usub i 1 = i - 1 := usub_small (by omega)
      have hc : ((i - 1 : Nat) : Int) = (i : Int) - 1 := by omega
      have hsw : Swap d (i : Int) ((i : Int) - 1) = .ok (swapL d i ((i : Int) - 1)) :=
        Swap_ok (by omega) (by omega) (by omega) (by omega)
      have hat := at0_swapL (d := d) (a := (i : Int)) (b := (i : Int) - 1) (by omega) (by omega)
        (by omega) (by omega)
      obtain ⟨d', hrun, hl', hpt⟩ := ih (swapL d i ((i : Int) - 1)) (i - 1) (by omega)
        (by rw [length_swapL]; omega) (by omega)
      simp only [Insert.shift, if_pos hne, hu, hc, hsw]
      refine ⟨d', hrun, by rw [hl', length_swapL], ?_⟩
      intro k
      rw [hpt k, hc]
      by_cases h1 : k < index ∨ (i : Int) - 1 < k
      · rw [if_pos h1, hat]
        by_cases hki : k = i
        · have e1 : ¬ (k = (i : Int) - 1) := by omega
          have e2 : ¬ (k < index ∨ (i : Int) < k) := by omega
          have e3 : ¬ (k = (index : Int)) := by omega
          rw [if_neg e1, if_pos hki, if_neg e2, if_neg e3, hki]
        · have e1 : ¬ (k = (i : Int) - 1) := by omega
          have e2 : k < index ∨ (i : Int) < k := by omega
          rw [if_neg e1, if_neg hki, if_pos e2]
      · have e2 : ¬ (k < index ∨ (i : Int) < k) := by omega
        rw [if_neg h1, if_neg e2]
        by_cases hkx : k = index
        · rw [if_pos hkx, if_pos hkx, hat, if_pos rfl]
        · have e1 : ¬ (k - 1 = (i : Int) - 1) := by omega
          have e3 : ¬ (k - 1 = (i : Int)) := by omega
          rw [if_neg hkx, if_neg hkx, hat, if_neg e1, if_neg e3]
    · simp only [Insert.shift, if_neg hne]
      have hii : i = index := by omega
      refine ⟨d, rfl, rfl, ?_⟩
      intro k
      by_cases h1 : k < index ∨ (i : Int) < k
      · rw [if_pos h1]
      · rw [if_neg h1]
        have : k = index := by omega
        rw [if_pos this, this, hii]

theorem at0_set_nat {d : List Int} {a : Nat} (v : Int) (h : a < d.length) (k : Int) :
    at0 (d.set a v) k = if k = a then v else at0 d k := by
  have := at0_set (d := d) (a := (a : Int)) v (by omega) (by omega) k
  simpa using this

theorem at0_insert_list (s : List Int) (index : Nat) (v : Int) (hidx : index ≤ s.length)
    {k : Int} (hk : 0 ≤ k) :
    at0 (s.take index ++ v :: s.drop index) k =
      if k < index then at0 s k else if k = index then v else at0 s (k - 1) := by
  have hl : ((s.take index).length : Int) = index := by simp; omega
  rw [at0_append _ _ hk, hl]
  by_cases h1 : k < index
  · rw [if_pos h1, if_pos h1, at0_take, if_pos h1]
  · rw [if_neg h1, if_neg h1, at0_cons]
    by_cases h2 : k = index
    · rw [if_pos (by omega), if_pos h2]
    · rw [if_neg (by omega), if_neg h2, at0_drop _ _ (by omega)]
      congr 1
      omega

theorem Insert_spec {l : DynList} (hwf : WF l) {index : Nat} (hidx : index ≤ l.size)
    (hroom : l.size < l.capacity ∨ 2 * l.capacity ≤ MAX_CAPACITY) (value : Int) :
    ∃ l', Insert l index value = .ok l' ∧ WF l' ∧ l'.size = l.size + 1 ∧
      live l' = (live l).take index ++ value :: (live l).drop index ∧
      l'.capacity = if l.size = l.capacity then 2 * l.capacity else l.capacity := by
  obtain ⟨l1, hrun1, hwf1, hs1, hlive1, hcap1⟩ := Push_spec hwf hroom value
  have hslen := live_length hwf
  by_cases heq : index = l.size
  · refine ⟨l1, ?_, hwf1, hs1, ?_, hcap1⟩
    · unfold Insert
      rw [if_neg (by omega), if_pos heq, hrun1]
    · rw [hlive1, List.take_of_length_le (by omega), List.drop_of_length_le (by omega)]
  · have hlt : index < l.size := by omega
    have hlen1 : l1.size ≤ l1.data.length := by have := hwf1.1; have := hwf1.2.1; omega
    have hu : usub l1.size 1 = l.size := by rw [usub_small (by omega), hs1]; omega
    obtain ⟨d', hrun2, hl', hpt⟩ := Insert_shift_spec index (l1.size + 1) l1.data l.size
      (by omega) (by omega) (by omega)
    have hw : wr d' (index : Int) value = .ok (d'.set index value) := by
      rw [wr_ok _ (by omega) (by omega)]; simp
    refine ⟨{ l1 with data := d'.set index value }, ?_, ?_, hs1, ?_, hcap1⟩
    · unfold Insert
      rw [if_neg (by omega), if_neg heq, hrun1]
      simp only [hu, hrun2, hw]
    · exact ⟨by simp only [List.length_set]; rw [hl']; exact hwf1.1, hwf1.2⟩
    · have hD : ∀ j : Int, 0 ≤ j → j < l.size → at0 l1.data j = at0 (live l) j := by
        intro j hj0 hj
        have h1 : at0 (live l1) j = at0 l1.data j := by
          simp only [live]; rw [at0_take, if_pos (by omega)]
        rw [← h1, hlive1, at0_append _ _ hj0, if_pos (by omega)]
      have hDn : at0 l1.data (l.size : Int) = value := by
        have h1 : at0 (live l1) (l.size : Int) = at0 l1.data (l.size : Int) := by
          simp only [live]; rw [at0_take, if_pos (by omega)]
        rw [← h1, hlive1, at0_append _ _ (by omega), if_neg (by omega), hslen]
        simp [at0]
      apply ext_at0
      · simp only [live, List.length_take, List.length_set, List.length_append,
          List.length_cons, List.length_drop]
        have := hwf.1; have := hwf.2.1
        omega
      · intro k hk0 hk
        rw [at0_insert_list _ _ _ (by omega) hk0]
        have hkn : k < (l.size : Int) + 1 := by
          simp only [List.length_append, List.length_take, List.length_cons,
            List.length_drop, hslen] at hk
          omega
        simp only [live]
        rw [at0_take, if_pos (by rw [hs1]; push_cast; omega), at0_set_nat _ (by omega), hpt k]
        by_cases h1 : k < index
        · rw [if_neg (by omega), if_pos (Or.inl h1), if_pos h1]
          have := hD k hk0 (by omega)
          simp only [live] at this
          exact this
        · rw [if_neg h1]
          by_cases h2 : k = index
          · rw [if_pos h2, if_pos h2]
          · have e : ¬ (k < index ∨ (l.size : Int) < k) := by omega
            rw [if_neg h2, if_neg h2, if_neg e, if_neg h2]
            have := hD (k - 1) (by omega) (by omega)
            simp only [live] at this
            exact this

/-- Scenario 4 of the specification: `Insert(0, 9)` on `[2,4,6]` gives `[9,2,4,6]`. -/
theorem Insert_scenario :
    Insert ⟨[2, 4, 6, 0, 0], 3, 5⟩ 0 9 = .ok ⟨[9, 2, 4, 6, 0], 4, 5⟩ := by
  decide

set_option maxRecDepth 100000 in
/-- C15: the full list of capacity 300 (`size == 300 < MAX_CAPACITY`): `Insert(0, 7)` calls
`Push(7)` and so `Reserve(300)`, whose clamping branch reads outside the buffer; no list with
the value inserted results. -/
theorem Insert_grow_clamp_reads_outside :
    WF ⟨List.replicate 300 0, 300, 300⟩ ∧ (300 : Nat) < MAX_CAPACITY ∧ (0 : Nat) ≤ 300 ∧
    Insert ⟨List.replicate 300 0, 300, 300⟩ 0 7 = .error (.outOfBounds 300) := by
  decide

set_option maxRecDepth 100000 in
/-- C17: the full list of capacity 300 and the one-element list `[7]`: `300 + 1 <=
MAX_CAPACITY`, and `Insert(0, [7])` calls `Insert(0, 7)`, `Push(7)` and `Reserve(300)`, whose
clamping branch reads outside the buffer. -/
theorem InsertList_grow_clamp_reads_outside :
    WF ⟨List.replicate 300 0, 300, 300⟩ ∧ WF ⟨[7, 0, 0, 0, 0], 1, 5⟩ ∧
    (300 : Nat) + 1 ≤ MAX_CAPACITY ∧
    InsertList ⟨List.replicate 300 0, 300, 300⟩ 0 ⟨[7, 0, 0, 0, 0], 1, 5⟩ =
      .error (.outOfBounds 300) := by
  decide

set_option maxRecDepth 1000000 in
/-- C14: the list of 500 zeros is full at the maximum capacity; `Insert(499, 9)` does not
leave it unchanged: `Push(9)` drops the value, and the assignment `data[index] = value` then
overwrites the last element. -/
theorem Insert_full_max_overwrites :
    WF ⟨List.replicate 500 0, 500, 500⟩ ∧ (500 : Nat) = MAX_CAPACITY ∧
    Insert ⟨List.replicate 500 0, 500, 500⟩ 499 9 =
      .ok ⟨List.replicate 499 0 ++ [9], 500, 500⟩ ∧
    (List.replicate 499 0 ++ [9] : List Int) ≠ List.replicate 500 0 := by
  decide

/-! ## Sequences of Push on a fresh list -/

theorem WF_mkDefault : WF mkDefault := by decide

theorem WF_mkCapacity (n : Nat) : WF (mkCapacity n) := by
  unfold mkCapacity WF MAX_CAPACITY
  simp only [List.length_replicate]
  refine ⟨trivial, Nat.zero_le _, ?_, ?_⟩ <;> split <;> (try split) <;> omega

theorem rd_of_getElem? {d : List Int} {i : Nat} {v : Int} (h : d[i]? = some v) :
    rd d (i : Int) = .ok v := by
  unfold rd
  simp [h]

theorem subscript_of_live {l : DynList} {i : Nat} {v : Int} (h : (live l)[i]? = some v) :
    subscript l i = .ok v := by
  simp only [live, List.getElem?_take] at h
  by_cases hi : i < l.size
  · rw [if_pos hi] at h
    unfold subscript
    rw [if_pos hi]
    exact rd_of_getElem? h
  · rw [if_neg hi] at h
    exact absurd h (by simp)

/-- On a fresh list whose capacity reaches the number of pushed values by doublings that stay
within `MAX_CAPACITY` (`N <= capacity * 2 ^ k <= MAX_CAPACITY`), a sequence of `Push` calls
returns, the size is the number of values and `operator[]` reads them back in push order. -/
theorem PushAll_fresh (l0 : DynList) (hfresh : l0 = mkDefault ∨ ∃ n, l0 = mkCapacity n)
    (vs : List Int) (k : Nat) (hfit : vs.length ≤ l0.capacity * 2 ^ k)
    (hmax : l0.capacity * 2 ^ k ≤ MAX_CAPACITY) :
    ∃ l', PushAll l0 vs = .ok l' ∧ l'.size = vs.length ∧
      ∀ i v, vs[i]? = some v → subscript l' i = .ok v := by
  have hwf : WF l0 := by
    rcases hfresh with h | ⟨n, h⟩
    · rw [h]; exact WF_mkDefault
    · rw [h]; exact WF_mkCapacity n
  have hs0 : l0.size = 0 := by
    rcases hfresh with h | ⟨n, h⟩
    · rw [h]; rfl
    · rw [h]; rfl
  obtain ⟨l', hrun, -, hsize, hlive⟩ := PushAll_ok vs l0 k hwf (by omega) hmax
  refine ⟨l', hrun, by omega, ?_⟩
  intro i v hv
  apply subscript_of_live
  rw [hlive]
  simp only [live, hs0, List.take_zero, List.nil_append]
  exact hv

set_option maxRecDepth 1000000 in
/-- C11: 321 calls of `Push` on the default-constructed list (`321 <= MAX_CAPACITY`): the
capacity doubles from 5 to 320, and the 321st call runs `Reserve(320)`, whose clamping branch
copies `MAX_CAPACITY` elements out of the buffer of 320 and so reads outside it; no list of
size 321 results. -/
theorem PushAll_default_reads_outside :
    (List.replicate 321 (7 : Int)).length ≤ MAX_CAPACITY ∧
    PushAll mkDefault (List.replicate 321 7) = .error (.outOfBounds 320) := by
  decide

/-! ## Insert on a full list and Insert of a list -/

/-- On a list that is full at the maximum capacity, `Insert(index, value)` with `index < size`
returns a list of the same size and capacity in which the value stands at `index`, the
elements from `index` on moved one place up and the last element is lost. -/
theorem Insert_full_max_spec {l : DynList} (hwf : WF l) (hfull : l.size = l.capacity)
    (hmax : l.capacity = MAX_CAPACITY) {index : Nat} (hidx : index < l.size) (value : Int) :
    ∃ l', Insert l index value = .ok l' ∧ l'.size = l.size ∧ l'.capacity = l.capacity ∧
      live l' = ((live l).take index ++ value :: (live l).drop index).take l.size := by
  have hslen := live_length hwf
  have hlen : l.data.length = l.capacity := hwf.1
  have hu : usub l.size 1 = l.size - 1 := usub_small (by omega)
  obtain ⟨d', hrun2, hl', hpt⟩ := Insert_shift_spec index (l.size + 1) l.data (l.size - 1)
    (by omega) (by omega) (by omega)
  have hw : wr d' (index : Int) value = .ok (d'.set index value) := by
    rw [wr_ok _ (by omega) (by omega)]; simp
  have hpush : Push l value = .ok l := by
    unfold Push Reserve
    rw [if_pos hfull, if_pos hmax]
    simp only []
    rw [if_neg (by simpa using hfull)]
  refine ⟨{ l with data := d'.set index value }, ?_, rfl, rfl, ?_⟩
  · unfold Insert
    rw [if_neg (by omega), if_neg (by omega), hpush]
    simp only [hu, hrun2, hw]
  · apply ext_at0
    · simp only [live, List.length_take, List.length_set, List.length_append,
        List.length_cons, List.length_drop]
      omega
    · intro k hk0 hk
      have hkn : k < (l.size : Int) := by
        simp only [List.length_take, List.length_append, List.length_cons,
          List.length_drop, hslen] at hk
        omega
      rw [at0_take, if_pos hkn, at0_insert_list _ _ _ (by omega) hk0]
      simp only [live]
      rw [at0_take, if_pos hkn, at0_set_nat _ (by omega), hpt k]
      by_cases h1 : k < index
      · rw [if_neg (by omega), if_pos (Or.inl h1), if_pos h1, at0_take, if_pos hkn]
      · rw [if_neg h1]
        by_cases h2 : k = index
        · rw [if_pos h2, if_pos h2]
        · have e : ¬ (k < index ∨ ((l.size - 1 : Nat) : Int) < k) := by omega
          rw [if_neg h2, if_neg h2, if_neg e, if_neg h2, at0_take, if_pos (by omega)]

theorem room_step {l : DynList} (hwf : WF l) {r k : Nat} (hr : 1 ≤ r)
    (hfit : l.size + r ≤ l.capacity * 2 ^ k) (hmax : l.capacity * 2 ^ k ≤ MAX_CAPACITY) :
    (l.size < l.capacity ∨ 2 * l.capacity ≤ MAX_CAPACITY) ∧
    ∃ k', l.size + r ≤ (if l.size = l.capacity then 2 * l.capacity else l.capacity) * 2 ^ k' ∧
      (if l.size = l.capacity then 2 * l.capacity else l.capacity) * 2 ^ k' ≤ MAX_CAPACITY := by
  by_cases heq : l.size = l.capacity
  · rw [if_pos heq]
    cases k with
    | zero => simp at hfit; omega
    | succ k =>
      have h1 : 1 ≤ 2 ^ k := Nat.one_le_two_pow
      have h2 : l.capacity * 2 ^ (k + 1) = 2 * l.capacity * 2 ^ k := by ring
      have h3 : 2 * l.capacity ≤ 2 * l.capacity * 2 ^ k := Nat.le_mul_of_pos_right _ (by omega)
      exact ⟨Or.inr (by omega), k, by omega, by omega⟩
  · rw [if_neg heq]
    have := hwf.2.1
    exact ⟨Or.inl (by omega), k, hfit, hmax⟩

theorem InsertList_loop_spec (index : Nat) (values : DynList) (hwfv : WF values) :
    ∀ (fuel : Nat) (l : DynList) (i k : Nat), WF l → i ≤ values.size → index + i ≤ l.size →
      values.size - i < fuel → l.size + (values.size - i) ≤ l.capacity * 2 ^ k →
      l.capacity * 2 ^ k ≤ MAX_CAPACITY →
      ∃ l', InsertList.loop index values fuel l i = .ok l' ∧ WF l' ∧
        l'.size = l.size + (values.size - i) ∧
        live l' = (live l).take (index + i) ++ (live values).drop i ++
          (live l).drop (index + i) := by
  have hvlen := live_length hwfv
  intro fuel
  induction fuel with
  | zero => intro l i k _ _ _ h; omega
  | succ m ih =>
    intro l i k hwf him hidx hf hfit hmax
    have hcap := hwf.2.2.2
    have hsz := hwf.2.1
    unfold MAX_CAPACITY at hcap
    by_cases hlt : i < values.size
    · have hget : (live values)[i]? = some (at0 (live values) i) := by
        have hi : i < (live values).length := by omega
        rw [List.getElem?_eq_getElem hi, at0_nat hi]
      obtain ⟨hroom, k', hfit', hmax'⟩ := room_step hwf (r := values.size - i) (by omega) hfit hmax
      obtain ⟨l1, hrun1, hwf1, hs1, hlive1, hcap1⟩ :=
        Insert_spec hwf hidx hroom (at0 (live values) i)
      rw [← hcap1] at hfit' hmax'
      obtain ⟨l', hrun, hwf', hs', hlive'⟩ := ih l1 (i + 1) k' hwf1 (by omega) (by omega)
        (by omega) (by omega) hmax'
      refine ⟨l', ?_, hwf', by omega, ?_⟩
      · simp only [InsertList.loop, if_pos hlt, subscript_of_live hget]
        rw [uadd_small (by omega), hrun1, uadd_small (by omega)]
        exact hrun
      · have hll := live_length hwf
        have htl : ((live l).take (index + i)).length = index + i := by
          simp only [List.length_take]; omega
        have e1 : (live l1).take (index + (i + 1)) =
            (live l).take (index + i) ++ [at0 (live values) i] := by
          rw [hlive1, show index + (i + 1) = ((live l).take (index + i)).length + 1 by omega,
            List.take_append]
          simp
        have e2 : (live l1).drop (index + (i + 1)) = (live l).drop (index + i) := by
          rw [hlive1, show index + (i + 1) = ((live l).take (index + i)).length + 1 by omega,
            List.drop_append]
          simp
        have e3 : (live values).drop i = at0 (live values) i :: (live values).drop (i + 1) := by
          have hi : i < (live values).length := by omega
          rw [List.drop_eq_getElem_cons hi, at0_nat hi]
        rw [hlive', e1, e2, e3]
        simp
    · have him' : i = values.size := by omega
      refine ⟨l, ?_, hwf, by omega, ?_⟩
      · simp only [InsertList.loop, if_neg hlt]
      · rw [List.drop_of_length_le (by omega)]
        simp

/-- When the capacity reaches `size + |values|` by doublings that stay within `MAX_CAPACITY`,
`Insert(index, values)` with `index <= size` returns and puts the elements of `values`, in
order, between the first `index` elements and the remaining ones. -/
theorem InsertList_spec {l values : DynList} (hwf : WF l) (hwfv : WF values) {index : Nat}
    (hidx : index ≤ l.size) {k : Nat} (hfit : l.size + values.size ≤ l.capacity * 2 ^ k)
    (hmax : l.capacity * 2 ^ k ≤ MAX_CAPACITY) :
    ∃ l', InsertList l index values = .ok l' ∧ l'.size = l.size + values.size ∧
      live l' = (live l).take index ++ live values ++ (live l).drop index := by
  unfold InsertList
  by_cases h0 : values.size = 0
  · rw [if_pos h0]
    have hv : live values = [] := by simp [live, h0]
    exact ⟨l, rfl, by omega, by rw [hv]; simp⟩
  · rw [if_neg h0]
    obtain ⟨l', hrun, -, hs', hlive'⟩ := InsertList_loop_spec index values hwfv
      (values.size + 1) l 0 k hwf (by omega) (by omega) (by omega) (by omega) hmax
    exact ⟨l', hrun, by omega, by simpa using hlive'⟩

/-! ## Remove and RemoveKeepOrder -/

theorem take_eraseIdx_self (s : List Int) (i : Nat) (h : i ≤ s.length) :
    (s.eraseIdx i).take i = s.take i := by
  rw [List.eraseIdx_eq_take_drop_succ, List.take_left']
  simp; omega

theorem drop_eraseIdx_self (s : List Int) (i : Nat) (h : i ≤ s.length) :
    (s.eraseIdx i).drop i = s.drop (i + 1) := by
  rw [List.eraseIdx_eq_take_drop_succ, List.drop_left']
  simp; omega

theorem take_succ_of_drop {s : List Int} {i : Nat} {x : Int} {r : List Int}
    (h : s.drop i = x :: r) : s.take (i + 1) = s.take i ++ [x] := by
  have hi : i < s.length := by
    by_contra hc
    rw [List.drop_eq_nil_of_le (by omega)] at h
    cases h
  rw [List.drop_eq_getElem_cons hi] at h
  injection h with h1 h2
  rw [List.take_succ, List.getElem?_eq_getElem hi, h1]
  rfl

theorem swap_last_eq (p w : List Int) (a y : Int) :
    (((p ++ a :: (w ++ [y])).set p.length
      ((p ++ a :: (w ++ [y])).getD ((p ++ a :: (w ++ [y])).length - 1) 0)).take
        ((p ++ a :: (w ++ [y])).length - 1)) = p ++ y :: w := by
  have e1 : (p ++ a :: (w ++ [y])).length - 1 = p.length + (w.length + 1) := by simp
  have e0 : p ++ a :: (w ++ [y]) = (p ++ a :: w) ++ [y] := by simp
  have e2 : (p ++ a :: (w ++ [y])).getD (p.length + (w.length + 1)) 0 = y := by
    rw [e0, List.getD_eq_getElem?_getD, List.getElem?_append_right (by simp)]
    simp
  rw [e1, e2]
  simp [List.set_append_right, List.take_append]

/-- Overwriting position `index` with the last element and dropping the last position keeps
the prefix before `index`, and leaves after it a rearrangement of what followed `index`. -/
theorem swap_last_perm (s : List Int) (index : Nat) (h : index < s.length) :
    ((s.set index (s.getD (s.length - 1) 0)).take (s.length - 1)).take index = s.take index ∧
    (((s.set index (s.getD (s.length - 1) 0)).take (s.length - 1)).drop index).Perm
      (s.drop (index + 1)) := by
  constructor
  · rw [List.take_take, min_eq_left (by omega), List.set_take,
      List.set_eq_of_length_le (by simp)]
  · by_cases hl : index = s.length - 1
    · rw [List.drop_eq_nil_of_le (by simp; omega), List.drop_eq_nil_of_le (by omega)]
    · have hu : s.drop (index + 1) ≠ [] := by
        intro hc
        have := congrArg List.length hc
        simp at this
        omega
      have hs : s = s.take index ++ s[index] ::
          ((s.drop (index + 1)).dropLast ++ [(s.drop (index + 1)).getLast hu]) := by
        rw [List.dropLast_append_getLast, ← List.drop_eq_getElem_cons h, List.take_append_drop]
      have hp : (s.take index).length = index := by simp; omega
      have key := swap_last_eq (s.take index) (s.drop (index + 1)).dropLast s[index]
        ((s.drop (index + 1)).getLast hu)
      rw [← hs, hp] at key
      rw [key, List.drop_left' hp]
      conv_rhs => rw [← List.dropLast_append_getLast hu]
      exact (List.perm_append_singleton _ _).symm

theorem length_filter_ne_add_count (s : List Int) (v : Int) :
    (s.filter (· ≠ v)).length + s.count v = s.length := by
  induction s with
  | nil => rfl
  | cons x t ih =>
    simp only [ne_eq, decide_not] at ih ⊢
    by_cases hx : x = v
    · subst hx
      simp
      omega
    · rw [List.filter_cons_of_pos (by simpa using hx), List.count_cons_of_ne (Ne.symm hx)]
      simp
      omega

theorem not_mem_filter_ne (s : List Int) (v : Int) : v ∉ s.filter (· ≠ v) := by
  simp

theorem uadd_usub_one {i : Nat} (h : i < 4294967296) : uadd (usub i 1) 1 = i := by
  unfold uadd usub
  split <;> split <;> omega

theorem live_last {l : DynList} (hwf : WF l) (hs : 0 < l.size) :
    (live l).getD (l.size - 1) 0 = at0 l.data ((l.size : Int) - 1) := by
  obtain ⟨hlen, hsz, -, -⟩ := hwf
  have e : ((l.size : Int) - 1) = ((l.size - 1 : Nat) : Int) := by omega
  rw [e]
  unfold at0 live
  rw [if_pos (by omega)]
  simp only [List.getD_eq_getElem?_getD, List.getElem?_take, Int.toNat_ofNat]
  rw [if_pos (by omega)]

theorem Remove_index_live {l : DynList} (hwf : WF l) {index : Nat} (hidx : index < l.size) :
    ∃ l', Remove l index = .ok l' ∧ WF l' ∧ l'.size = l.size - 1 ∧
      live l' = ((live l).set index ((live l).getD (l.size - 1) 0)).take (l.size - 1) := by
  obtain ⟨l', hrun, hwf1, hsize, hlive, -⟩ := Remove_index_spec hwf hidx
  refine ⟨l', hrun, hwf1, hsize, ?_⟩
  rw [hlive, live_last hwf (by omega)]
  unfold live
  rw [List.set_take, List.set_take, List.take_take, min_eq_left (by omega)]

/-- C21: for `index < size`, `Remove(index)` returns with the size decreased by one and the
live sequence equal to the old one with the element at `index` replaced by the old last
element and the last position dropped; for `index == size - 1` the call is `Pop()`. -/
theorem Remove_index_replaces_by_last (l : DynList) (hwf : WF l) (index : Nat)
    (hidx : index < l.size) :
    ∃ l', Remove l index = .ok l' ∧ l'.size = l.size - 1 ∧
      live l' = ((live l).set index ((live l).getD (l.size - 1) 0)).take (l.size - 1) ∧
      (index = l.size - 1 → Remove l index = Pop l) := by
  obtain ⟨l', hrun, -, hsize, hlive⟩ := Remove_index_live hwf hidx
  refine ⟨l', hrun, hsize, hlive, ?_⟩
  intro hlast
  unfold Remove
  rw [if_pos ⟨by omega, hidx⟩, usub_small (by omega), if_pos (Or.inr hlast)]

/-- Witness for C21: `Remove(1)` and `Remove(3)` on `[1,2,3,4]`. -/
theorem Remove_index_replaces_by_last_witness :
    WF ⟨[1, 2, 3, 4, 0], 4, 5⟩ ∧ 1 < 4 ∧
    ∃ l', Remove ⟨[1, 2, 3, 4, 0], 4, 5⟩ 1 = .ok l' ∧ l'.size = 4 - 1 ∧
      live l' = ((live ⟨[1, 2, 3, 4, 0], 4, 5⟩).set 1
        ((live ⟨[1, 2, 3, 4, 0], 4, 5⟩).getD (4 - 1) 0)).take (4 - 1) ∧
      (1 = 4 - 1 → Remove ⟨[1, 2, 3, 4, 0], 4, 5⟩ 1 = Pop ⟨[1, 2, 3, 4, 0], 4, 5⟩) :=
  ⟨by decide, by decide,
    Remove_index_replaces_by_last ⟨[1, 2, 3, 4, 0], 4, 5⟩ (by decide) 1 (by decide)⟩

theorem Remove_scenario :
    Remove ⟨[1, 2, 3, 4, 0], 4, 5⟩ 1 = .ok ⟨[1, 4, 3, 4, 0], 3, 5⟩ ∧
    Remove ⟨[1, 2, 3, 4, 0], 4, 5⟩ 3 = .ok ⟨[1, 2, 3, 4, 0], 3, 5⟩ ∧
    Remove ⟨[1, 2, 3, 4, 0], 4, 5⟩ 4 = .ok ⟨[1, 2, 3, 4, 0], 4, 5⟩ := by
  decide

theorem RemoveKeepOrder_shift_spec (size : Nat) (hs500 : size ≤ 500) :
    ∀ (fuel : Nat) (d : List Int) (i : Nat), size ≤ d.length → 1 ≤ size → i ≤ size - 1 →
      size - 1 - i < fuel →
      ∃ d', RemoveKeepOrder.shift size fuel d i = .ok d' ∧ d'.length = d.length ∧
        ∀ k : Int, at0 d' k =
          if (i : Int) ≤ k ∧ k < (size : Int) - 1 then at0 d (k + 1) else at0 d k := by
  intro fuel
  induction fuel with
  | zero => intro d i _ _ _ hf; omega
  | succ fuel ih =>
    intro d i hlen hs1 hi hf
    have hu : usub size 1 = size - 1 := usub_small hs1
    unfold RemoveKeepOrder.shift
    rw [hu]
    by_cases hlt : i < size - 1
    · have hu1 : uadd i 1 = i + 1 := uadd_small (by omega)
      rw [if_pos hlt, hu1, rd_ok (by omega) (by omega)]
      simp only []
      rw [wr_ok _ (by omega) (by omega)]
      simp only [Int.toNat_ofNat]
      obtain ⟨d', hrun, hl', hat⟩ := ih (d.set i (at0 d ((i + 1 : Nat) : Int))) (i + 1)
        (by simpa using hlen) hs1 (by omega) (by omega)
      refine ⟨d', hrun, by simpa using hl', ?_⟩
      intro k
      rw [hat k, at0_set_nat _ (by omega), at0_set_nat _ (by omega)]
      by_cases hk1 : ((i + 1 : Nat) : Int) ≤ k ∧ k < (size : Int) - 1
      · rw [if_pos hk1, if_neg (by omega), if_pos (by omega)]
      · rw [if_neg hk1]
        by_cases hki : k = (i : Int)
        · rw [if_pos hki, if_pos (by omega)]
          congr 1
          omega
        · rw [if_neg hki, if_neg (by omega)]
    · rw [if_neg hlt]
      refine ⟨d, rfl, rfl, ?_⟩
      intro k
      rw [if_neg (by omega)]

theorem at0_eraseIdx (s : List Int) (i : Nat) {k : Int} (hk : 0 ≤ k) :
    at0 (s.eraseIdx i) k = if k < i then at0 s k else at0 s (k + 1) := by
  have e : (k + 1).toNat = k.toNat + 1 := by omega
  by_cases h : k < i
  · rw [if_pos h]
    unfold at0
    rw [if_pos hk, if_pos hk]
    simp only [List.getD_eq_getElem?_getD, List.getElem?_eraseIdx]
    rw [if_pos (by omega)]
  · rw [if_neg h]
    unfold at0
    rw [if_pos hk, if_pos (by omega), e]
    simp only [List.getD_eq_getElem?_getD, List.getElem?_eraseIdx]
    rw [if_neg (by omega)]

theorem take_eq_eraseIdx {d d' : List Int} {size index : Nat} (hidx : index < size)
    (hsize : size ≤ d.length) (hlen : d'.length = d.length)
    (h : ∀ k : Int, at0 d' k =
      if (index : Int) ≤ k ∧ k < (size : Int) - 1 then at0 d (k + 1) else at0 d k) :
    d'.take (size - 1) = (d.take size).eraseIdx index := by
  have hl : ((d.take size).eraseIdx index).length = size - 1 := by
    rw [List.length_eraseIdx]
    simp only [List.length_take]
    rw [if_pos (by omega)]
    omega
  apply ext_at0
  · rw [hl]; simp; omega
  · intro k hk0 hk
    rw [hl] at hk
    rw [at0_take, if_pos (by omega), h k, at0_eraseIdx _ _ hk0]
    by_cases hki : k < index
    · rw [if_pos hki, if_neg (by omega), at0_take, if_pos (by omega)]
    · rw [if_neg hki, if_pos (by omega), at0_take, if_pos (by omega)]

theorem RemoveKeepOrder_index_spec {l : DynList} (hwf : WF l) {index : Nat}
    (hidx : index < l.size) :
    ∃ l', RemoveKeepOrder l index = .ok l' ∧ WF l' ∧ l'.size = l.size - 1 ∧
      live l' = (live l).eraseIdx index := by
  have hwf' := hwf
  obtain ⟨hlen, hsz, hc1, hcap⟩ := hwf
  have hs : 0 < l.size := by omega
  have hu1 : usub l.size 1 = l.size - 1 := usub_small (by omega)
  unfold MAX_CAPACITY at hcap
  unfold RemoveKeepOrder
  rw [if_neg (by omega), hu1]
  by_cases hlast : index = l.size - 1 ∨ l.size = 1
  · rw [if_pos hlast, Pop_eq_ReduceSize hs]
    obtain ⟨l', hrun, hwf1, hsize, hlive, -⟩ := ReduceSize_one_spec hwf' hs
    refine ⟨l', hrun, hwf1, hsize, ?_⟩
    rw [hlive]
    exact take_eq_eraseIdx hidx (by omega) rfl (fun k => by rw [if_neg (by omega)])
  · rw [if_neg hlast]
    obtain ⟨d', hrun, hl', hat⟩ := RemoveKeepOrder_shift_spec l.size (by omega) (l.size + 1)
      l.data index (by omega) (by omega) (by omega) (by omega)
    rw [hrun]
    simp only []
    have hwf2 : WF { l with data := d' } := ⟨by simpa [hl'] using hlen, hsz, hc1, by
      unfold MAX_CAPACITY; exact hcap⟩
    obtain ⟨l', hrun', hwf1, hsize, hlive, -⟩ := ReduceSize_one_spec hwf2 hs
    simp only [] at hlive hsize
    refine ⟨l', hrun', hwf1, hsize, ?_⟩
    rw [hlive]
    exact take_eq_eraseIdx hidx (by omega) hl' hat

/-- C22: for `index < size`, `RemoveKeepOrder(index)` returns with the live sequence equal to
the old one with the element at position `index` erased, the other elements in their original
order, and the size decreased by one. -/
theorem RemoveKeepOrder_index_erases (l : DynList) (hwf : WF l) (index : Nat)
    (hidx : index < l.size) :
    ∃ l', RemoveKeepOrder l index = .ok l' ∧ l'.size = l.size - 1 ∧
      live l' = (live l).eraseIdx index := by
  obtain ⟨l', hrun, -, hsize, hlive⟩ := RemoveKeepOrder_index_spec hwf hidx
  exact ⟨l', hrun, hsize, hlive⟩

/-- Witness for C22: `RemoveKeepOrder(1)` on `[1,2,3,4]`. -/
theorem RemoveKeepOrder_index_erases_witness :
    WF ⟨[1, 2, 3, 4, 0], 4, 5⟩ ∧ 1 < 4 ∧
    ∃ l', RemoveKeepOrder ⟨[1, 2, 3, 4, 0], 4, 5⟩ 1 = .ok l' ∧ l'.size = 4 - 1 ∧
      live l' = (live ⟨[1, 2, 3, 4, 0], 4, 5⟩).eraseIdx 1 :=
  ⟨by decide, by decide,
    RemoveKeepOrder_index_erases ⟨[1, 2, 3, 4, 0], 4, 5⟩ (by decide) 1 (by decide)⟩

theorem RemoveKeepOrder_scenario :
    RemoveKeepOrder ⟨[1, 2, 3, 4, 0], 4, 5⟩ 1 = .ok ⟨[1, 3, 4, 4, 0], 3, 5⟩ ∧
    RemoveKeepOrder ⟨[1, 2, 3, 4, 0], 4, 5⟩ 3 = .ok ⟨[1, 2, 3, 4, 0], 3, 5⟩ := by
  decide

/-! ## Remove and RemoveKeepOrder with a reference to the value -/

/-- On a well-formed list, `ReduceSize(1)` keeps the capacity exactly when it does not call
`Discard`, so that the capacity tells whether the buffer was released. -/
theorem ReduceSize_one_keeps_capacity_iff {l : DynList} (hwf : WF l) (hs : 0 < l.size) :
    ∃ l', ReduceSize l 1 = .ok l' ∧
      (l'.capacity = l.capacity ↔ ¬ (l.capacity > 5 ∧ l.size - 1 < l.capacity / 2 - 2)) := by
  obtain ⟨l', hrun, -, -, -, hcap⟩ := ReduceSize_one_spec hwf hs
  refine ⟨l', hrun, ?_⟩
  rw [hcap]
  by_cases h : l.capacity > 5 ∧ l.size - 1 < l.capacity / 2 - 2
  · rw [if_pos h]
    constructor
    · intro h'; omega
    · intro h'; exact absurd h h'
  · rw [if_neg h]
    exact ⟨fun _ => h, fun _ => rfl⟩

theorem RemoveKeepOrderValue_loop_spec (value : Int) :
    ∀ (fuel : Nat) (l : DynList) (i : Nat), WF l → i ≤ l.size → l.size - i < fuel →
      ∃ l', RemoveKeepOrderValue.loop fuel (.outside value) l i = .ok l' ∧ WF l' ∧
        live l' = (live l).take i ++ ((live l).drop i).filter (· ≠ value) := by
  intro fuel
  induction fuel with
  | zero => intro l i _ _ hf; omega
  | succ fuel ih =>
    intro l i hwf hi hf
    have hwf' := hwf
    have hll := live_length hwf
    obtain ⟨hlen, hsz, hc1, hcap⟩ := hwf
    unfold MAX_CAPACITY at hcap
    unfold RemoveKeepOrderValue.loop
    by_cases hlt : i < l.size
    · rw [if_pos hlt, rd_ok (by omega) (by omega)]
      simp only [Ref.read, Ref.after]
      have hget : (live l).drop i = at0 l.data (i : Int) :: (live l).drop (i + 1) := by
        rw [List.drop_eq_getElem_cons (by omega), at0_live hwf' (by omega)]
      by_cases hx : at0 l.data (i : Int) = value
      · rw [if_pos hx]
        obtain ⟨l1, hrun, hwf1, hsize, hlive⟩ := RemoveKeepOrder_index_spec hwf' hlt
        rw [hrun]
        simp only []
        rw [uadd_usub_one (by omega)]
        obtain ⟨l', hrun', hwf2, hlive'⟩ := ih l1 i hwf1 (by omega) (by omega)
        refine ⟨l', hrun', hwf2, ?_⟩
        rw [hlive', hlive, hget, List.filter_cons_of_neg (by simpa using hx),
          take_eraseIdx_self _ _ (by omega), drop_eraseIdx_self _ _ (by omega)]
      · rw [if_neg hx, uadd_small (by omega)]
        obtain ⟨l', hrun', hwf2, hlive'⟩ := ih l (i + 1) hwf' (by omega) (by omega)
        refine ⟨l', hrun', hwf2, ?_⟩
        rw [hlive', hget, List.filter_cons_of_pos (by simpa using hx), take_succ_of_drop hget,
          List.append_assoc]
        rfl
    · rw [if_neg hlt]
      refine ⟨l, rfl, hwf', ?_⟩
      rw [List.drop_eq_nil_of_le (by omega), List.take_of_length_le (by omega)]
      simp

/-- With a reference to an object outside the list's buffer that holds `v`,
`RemoveKeepOrder(value)` returns, and leaves the live sequence equal to the old one with every
element equal to `v` filtered out, in the original order: no remaining element equals `v` and
the size drops by the number of occurrences of `v`. -/
theorem RemoveKeepOrderValue_outside (l : DynList) (hwf : WF l) (value : Int) :
    ∃ l', RemoveKeepOrderValue l (.outside value) = .ok l' ∧
      live l' = (live l).filter (· ≠ value) ∧ value ∉ live l' ∧
      l'.size + (live l).count value = l.size := by
  obtain ⟨l', hrun, hwf1, hlive⟩ :=
    RemoveKeepOrderValue_loop_spec value (2 * l.size + 1) l 0 hwf (by omega) (by omega)
  rw [List.take_zero, List.nil_append, List.drop_zero] at hlive
  refine ⟨l', hrun, hlive, ?_, ?_⟩
  · rw [hlive]
    exact not_mem_filter_ne _ _
  · rw [← live_length hwf1, ← live_length hwf, hlive]
    exact length_filter_ne_add_count _ _

/-- `RemoveKeepOrder(value)` on `[7,1,7,7,2,7]` with a reference to an outside object holding
7. -/
theorem RemoveKeepOrderValue_outside_example :
    WF ⟨[7, 1, 7, 7, 2, 7, 0, 0, 0, 0], 6, 10⟩ ∧
    ∃ l', RemoveKeepOrderValue ⟨[7, 1, 7, 7, 2, 7, 0, 0, 0, 0], 6, 10⟩ (.outside 7) = .ok l' ∧
      live l' = (live ⟨[7, 1, 7, 7, 2, 7, 0, 0, 0, 0], 6, 10⟩).filter (· ≠ 7) ∧
      (7 : Int) ∉ live l' ∧
      l'.size + (live ⟨[7, 1, 7, 7, 2, 7, 0, 0, 0, 0], 6, 10⟩).count 7 = 6 :=
  ⟨by decide,
    RemoveKeepOrderValue_outside ⟨[7, 1, 7, 7, 2, 7, 0, 0, 0, 0], 6, 10⟩ (by decide) 7⟩

theorem RemoveKeepOrderValue_scenario :
    RemoveKeepOrderValue ⟨[7, 1, 7, 7, 2, 7, 0, 0, 0, 0], 6, 10⟩ (.outside 7) =
      .ok ⟨[1, 2, 7, 7, 7], 2, 5⟩ := by
  decide

/-- C23: the list `[1,2,3,2]` (capacity 5) and `RemoveKeepOrder(list[1])`, the value 2 passed
as the reference `list[1]`: after the first removal the slot 1 holds 3, the comparison
`data[1] == value` compares the slot with itself, and the 3 and the second 2 are removed as
well.  The list that results is `[1]`, not `[1,3]`. -/
theorem RemoveKeepOrderValue_own_slot_removes_others :
    WF ⟨[1, 2, 3, 2, 0], 4, 5⟩ ∧ subscript ⟨[1, 2, 3, 2, 0], 4, 5⟩ 1 = .ok 2 ∧
    (live ⟨[1, 2, 3, 2, 0], 4, 5⟩).filter (· ≠ 2) = [1, 3] ∧
    RemoveKeepOrderValue ⟨[1, 2, 3, 2, 0], 4, 5⟩ (.slot 1) = .ok ⟨[1, 2, 2, 2, 0], 1, 5⟩ ∧
    live ⟨[1, 2, 2, 2, 0], 1, 5⟩ = [1] := by
  decide

theorem RemoveValue_loop_spec (value : Int) :
    ∀ (fuel : Nat) (l : DynList) (i : Nat), WF l → i ≤ l.size → l.size - i < fuel →
      ∃ l', RemoveValue.loop fuel (.outside value) l i = .ok l' ∧ WF l' ∧
        (live l').Perm ((live l).take i ++ ((live l).drop i).filter (· ≠ value)) := by
  intro fuel
  induction fuel with
  | zero => intro l i _ _ hf; omega
  | succ fuel ih =>
    intro l i hwf hi hf
    have hwf' := hwf
    have hll := live_length hwf
    obtain ⟨hlen, hsz, hc1, hcap⟩ := hwf
    unfold MAX_CAPACITY at hcap
    unfold RemoveValue.loop
    by_cases hlt : i < l.size
    · rw [if_pos hlt, rd_ok (by omega) (by omega)]
      simp only [Ref.read, Ref.after]
      have hget : (live l).drop i = at0 l.data (i : Int) :: (live l).drop (i + 1) := by
        rw [List.drop_eq_getElem_cons (by omega), at0_live hwf' (by omega)]
      by_cases hx : at0 l.data (i : Int) = value
      · rw [if_pos hx]
        obtain ⟨l1, hrun, hwf1, hsize, hlive⟩ := Remove_index_live hwf' hlt
        rw [hrun]
        simp only []
        rw [uadd_usub_one (by omega)]
        obtain ⟨l', hrun', hwf2, hperm⟩ := ih l1 i hwf1 (by omega) (by omega)
        refine ⟨l', hrun', hwf2, ?_⟩
        rw [← hll] at hlive
        obtain ⟨htake, hdrop⟩ := swap_last_perm (live l) i (by omega)
        rw [← hlive] at htake hdrop
        rw [htake] at hperm
        rw [hget, List.filter_cons_of_neg (by simpa using hx)]
        exact hperm.trans ((hdrop.filter _).append_left _)
      · rw [if_neg hx, uadd_small (by omega)]
        obtain ⟨l', hrun', hwf2, hperm⟩ := ih l (i + 1) hwf' (by omega) (by omega)
        refine ⟨l', hrun', hwf2, ?_⟩
        rw [hget, List.filter_cons_of_pos (by simpa using hx)]
        rw [take_succ_of_drop hget, List.append_assoc] at hperm
        exact hperm
    · rw [if_neg hlt]
      refine ⟨l, rfl, hwf', ?_⟩
      rw [List.drop_eq_nil_of_le (by omega), List.take_of_length_le (by omega)]
      simp

/-- With a reference to an object outside the list's buffer that holds `v`, `Remove(value)`
returns; afterwards no live element equals `v`, and the live elements are a permutation of
the original live elements with all occurrences of `v` deleted. -/
theorem RemoveValue_outside (l : DynList) (hwf : WF l) (value : Int) :
    ∃ l', RemoveValue l (.outside value) = .ok l' ∧ value ∉ live l' ∧
      (live l').Perm ((live l).filter (· ≠ value)) := by
  obtain ⟨l', hrun, -, hperm⟩ :=
    RemoveValue_loop_spec value (2 * l.size + 1) l 0 hwf (by omega) (by omega)
  rw [List.take_zero, List.nil_append, List.drop_zero] at hperm
  refine ⟨l', hrun, ?_, hperm⟩
  intro hmem
  exact not_mem_filter_ne _ _ (hperm.mem_iff.mp hmem)

/-- `Remove(value)` on `[7,1,7,7,2,7]` with a reference to an outside object holding 7:
matches sit at the last index and the swapped-in last element equals the value too. -/
theorem RemoveValue_outside_example :
    WF ⟨[7, 1, 7, 7, 2, 7, 0, 0, 0, 0], 6, 10⟩ ∧
    ∃ l', RemoveValue ⟨[7, 1, 7, 7, 2, 7, 0, 0, 0, 0], 6, 10⟩ (.outside 7) = .ok l' ∧
      (7 : Int) ∉ live l' ∧
      (live l').Perm ((live ⟨[7, 1, 7, 7, 2, 7, 0, 0, 0, 0], 6, 10⟩).filter (· ≠ 7)) :=
  ⟨by decide, RemoveValue_outside ⟨[7, 1, 7, 7, 2, 7, 0, 0, 0, 0], 6, 10⟩ (by decide) 7⟩

theorem RemoveValue_scenario :
    RemoveValue ⟨[7, 1, 7, 7, 2, 7, 0, 0, 0, 0], 6, 10⟩ (.outside 7) =
      .ok ⟨[2, 1, 7, 7, 2], 2, 5⟩ := by
  decide

/-- C24: the list `[7,1,2]` (capacity 5) and `Remove(list[0])`, the value 7 passed as the
reference `list[0]`: the first removal stores the last element in the slot 0, from then on
`data[0] == value` compares the slot with itself, and the 2 and the 1 are removed as well.
The list that results is empty, not a permutation of `[1,2]`. -/
theorem RemoveValue_own_slot_removes_others :
    WF ⟨[7, 1, 2, 0, 0], 3, 5⟩ ∧ subscript ⟨[7, 1, 2, 0, 0], 3, 5⟩ 0 = .ok 7 ∧
    (live ⟨[7, 1, 2, 0, 0], 3, 5⟩).filter (· ≠ 7) = [1, 2] ∧
    RemoveValue ⟨[7, 1, 2, 0, 0], 3, 5⟩ (.slot 0) = .ok ⟨[1, 1, 2, 0, 0], 0, 5⟩ ∧
    live ⟨[1, 1, 2, 0, 0], 0, 5⟩ = [] := by
  decide

/-- A removal that shrinks the buffer releases it: on `[7,1,2]` with capacity 10,
`Remove(list[0])` calls `Discard(5)` in the first removal, and the next comparison reads the
value through a reference into the released buffer. -/
theorem RemoveValue_own_slot_dangles :
    WF ⟨[7, 1, 2, 0, 0, 0, 0, 0, 0, 0], 3, 10⟩ ∧
    RemoveValue ⟨[7, 1, 2, 0, 0, 0, 0, 0, 0, 0], 3, 10⟩ (.slot 0) = .error .useAfterFree ∧
    RemoveKeepOrderValue ⟨[7, 1, 2, 0, 0, 0, 0, 0, 0, 0], 3, 10⟩ (.slot 0) =
      .error .useAfterFree := by
  decide

/-! ## operator[], Reserve, Discard, Clear and the constructors -/

/-- C25: `operator[]` signals the out-of-range error exactly for `index >= size`, and for
`index < size` it returns the element stored at that index. -/
theorem subscript_spec (l : DynList) (hwf : WF l) (index : Nat) :
    (subscript l index = .error .outOfRange ↔ index ≥ l.size) ∧
    (index < l.size → ∃ x, l.data[index]? = some x ∧ subscript l index = .ok x) := by
  obtain ⟨hlen, hsz, -, -⟩ := hwf
  unfold subscript
  by_cases h : index < l.size
  · have hlt : index < l.data.length := by omega
    rw [if_pos h, rd_ok (by omega) (by omega)]
    refine ⟨⟨fun he => (by cases he), fun hge => (by omega)⟩,
      fun _ => ⟨at0 l.data index, ?_, rfl⟩⟩
    rw [List.getElem?_eq_getElem hlt, at0_nat hlt]
  · rw [if_neg h]
    exact ⟨⟨fun _ => by omega, fun _ => rfl⟩, fun h' => absurd h' h⟩

/-- Witness for C25: `list[1]` and `list[3]` on `[2,4,6]`. -/
theorem subscript_spec_witness :
    WF ⟨[2, 4, 6, 0, 0], 3, 5⟩ ∧
    (subscript ⟨[2, 4, 6, 0, 0], 3, 5⟩ 3 = .error .outOfRange ↔ 3 ≥ 3) ∧
    (1 < 3 → ∃ x, ([2, 4, 6, 0, 0] : List Int)[1]? = some x ∧ subscript ⟨[2, 4, 6, 0, 0], 3, 5⟩ 1 = .ok x) :=
  ⟨by decide, (subscript_spec ⟨[2, 4, 6, 0, 0], 3, 5⟩ (by decide) 3).1,
    (subscript_spec ⟨[2, 4, 6, 0, 0], 3, 5⟩ (by decide) 1).2⟩

theorem Reserve_at_max (l : DynList) (amount : Nat) (h : l.capacity = MAX_CAPACITY) :
    Reserve l amount = .ok l := by
  unfold Reserve
  rw [if_pos h]

/-- Where `capacity + amount` stays within `MAX_CAPACITY`, `Reserve(amount)` adds `amount`
slots and keeps the size and the live elements. -/
theorem Reserve_spec {l : DynList} (hwf : WF l) {amount : Nat}
    (h : l.capacity + amount ≤ MAX_CAPACITY) :
    ∃ l', Reserve l amount = .ok l' ∧ WF l' ∧ l'.capacity = l.capacity + amount ∧
      l'.size = l.size ∧ live l' = live l := by
  have hwf' := hwf
  obtain ⟨hlen, hsz, hc1, hcap⟩ := hwf
  by_cases hmax : l.capacity = MAX_CAPACITY
  · exact ⟨l, Reserve_at_max l amount hmax, hwf', by omega, rfl, rfl⟩
  · unfold MAX_CAPACITY at h hcap
    have hu : uadd l.capacity amount = l.capacity + amount := uadd_small (by omega)
    refine ⟨{ l with data := l.data ++ List.replicate amount 0,
                     capacity := l.capacity + amount }, ?_, ?_, rfl, rfl, ?_⟩
    · unfold Reserve
      rw [if_neg hmax, hu, if_neg (by unfold MAX_CAPACITY; omega),
        reallocate_ok (by omega) (by omega)]
      simp only []
      rw [List.take_of_length_le (by omega),
        show l.capacity + amount - l.capacity = amount by omega]
    · exact ⟨by simp; omega, by simp only []; omega, by simp only []; omega,
        by unfold MAX_CAPACITY; simp only []; omega⟩
    · simp only [live]
      rw [List.take_append_of_le_length (by omega)]

/-- C26: `Reserve` on the default-constructed list (capacity 5).  `Reserve(496)`: the clamping
branch copies `MAX_CAPACITY` elements out of the buffer of 5 and so reads outside it.
`Reserve(4294967295)`: `capacity + amount` wraps to 4, the new buffer has 4 slots and the copy
of 5 elements writes outside it. -/
theorem Reserve_clamp_reads_outside :
    WF mkDefault ∧ mkDefault.capacity ≤ MAX_CAPACITY ∧
    Reserve mkDefault 496 = .error (.outOfBounds 5) ∧
    Reserve mkDefault 4294967295 = .error (.outOfBounds 4) := by
  decide

theorem Discard_all (l : DynList) : Discard l l.capacity = .ok ⟨[0], 0, 1⟩ := by
  unfold Discard
  rw [usub_small (le_refl _), Nat.sub_self, if_pos (le_refl _)]

/-- C27: `Discard(6)` on the default-constructed list (capacity 5, `5 - 6 <= 0`): the
`unsigned` difference `capacity - amount` wraps to 4294967295, the test `<= 0` fails, and the
copy of 4294967295 elements reads outside the buffer of 5; no list of capacity 1 results. -/
theorem Discard_beyond_capacity_reads_outside :
    WF mkDefault ∧ ((mkDefault.capacity : Int) - 6 ≤ 0) ∧ usub mkDefault.capacity 6 = 4294967295 ∧
    Discard mkDefault 6 = .error (.outOfBounds 5) := by
  decide

/-- C28: for `amount < capacity`, `Discard(amount)` returns with capacity `capacity - amount`,
size `min(size, capacity - amount)`, and the elements below the new size unchanged. -/
theorem Discard_spec (l : DynList) (hwf : WF l) (amount : Nat) (h : amount < l.capacity) :
    ∃ l', Discard l amount = .ok l' ∧ l'.capacity = l.capacity - amount ∧
      l'.size = min l.size (l.capacity - amount) ∧ live l' = (live l).take l'.size := by
  obtain ⟨hlen, hsz, hc1, hcap⟩ := hwf
  have hu : usub l.capacity amount = l.capacity - amount := usub_small (by omega)
  unfold Discard
  rw [hu, if_neg (by omega), reallocate_ok (by omega) (le_refl _)]
  refine ⟨_, rfl, rfl, ?_, ?_⟩
  · simp only []
    split <;> omega
  · simp only [live, Nat.sub_self, List.replicate_zero, List.append_nil, List.take_take]
    congr 1
    split <;> omega

/-- Witness for C28: `Discard(3)` on `[1,2,3]` with capacity 5. -/
theorem Discard_spec_witness :
    WF ⟨[1, 2, 3, 0, 0], 3, 5⟩ ∧ 3 < 5 ∧
    ∃ l', Discard ⟨[1, 2, 3, 0, 0], 3, 5⟩ 3 = .ok l' ∧ l'.capacity = 5 - 3 ∧
      l'.size = min 3 (5 - 3) ∧ live l' = (live ⟨[1, 2, 3, 0, 0], 3, 5⟩).take l'.size :=
  ⟨by decide, by decide, Discard_spec ⟨[1, 2, 3, 0, 0], 3, 5⟩ (by decide) 3 (by decide)⟩

/-- C29: for every list, `Clear()` returns a list with capacity 1 and size 0. -/
theorem Clear_spec (l : DynList) :
    ∃ l', Clear l = .ok l' ∧ l'.capacity = 1 ∧ l'.size = 0 := by
  unfold Clear Discard
  rw [usub_small (le_refl _), Nat.sub_self, if_pos (le_refl _)]
  exact ⟨_, rfl, rfl, rfl⟩

/-- C30: `List(n)` has size 0 and capacity `n` clamped into `[1, MAX_CAPACITY]` (1 for
`n == 0`, 500 for `n > 500`, `n` otherwise), with a buffer of that many slots; the
default-constructed list has size 0 and capacity 5. -/
theorem constructor_spec (n : Nat) :
    (mkCapacity n).size = 0 ∧
    (mkCapacity n).capacity = max 1 (min n MAX_CAPACITY) ∧
    (mkCapacity n).capacity = (if n = 0 then 1 else if n > 500 then 500 else n) ∧
    (mkCapacity n).data.length = (mkCapacity n).capacity ∧
    mkDefault.size = 0 ∧ mkDefault.capacity = 5 ∧ mkDefault.data.length = 5 := by
  refine ⟨rfl, ?_, ?_, ?_, rfl, rfl, rfl⟩
  · unfold mkCapacity MAX_CAPACITY
    simp only []
    split
    · omega
    · split <;> omega
  · unfold mkCapacity MAX_CAPACITY
    rfl
  · unfold mkCapacity
    simp

/-! ## The four sorts: frame, invariant and repetition -/

theorem toInt_usub_one {n : Nat} (h : n ≤ 500) : toInt (usub n 1) = (n : Int) - 1 := by
  by_cases h0 : n = 0
  · rw [h0, usub_zero_one, toInt_max]; rfl
  · rw [usub_small (by omega), toInt_small (by omega)]; omega

theorem QuickSort_run (l : DynList) (hn : l.size ≤ l.data.length) (h500 : l.size ≤ 500) :
    ∃ d', QuickSort l = .ok { l with data := d' } ∧ Rearr l.size l.data d' ∧
      SortedUpTo d' l.size := by
  obtain ⟨d', hrun, hre, -, hs⟩ := QuickSort_sort_spec l.size (l.size + 1) l.data 0
    ((l.size : Int) - 1) (le_refl _) (by omega) (by omega) hn (by push_cast; omega)
  refine ⟨d', ?_, hre, ?_⟩
  · unfold QuickSort
    rw [toInt_usub_one h500, hrun]
  · intro i j hi hij hj
    exact hs i j hi hij (by omega)

theorem CocktailShakerSort_run (l : DynList) (hn : l.size ≤ l.data.length)
    (h500 : l.size ≤ 500) :
    ∃ d', CocktailShakerSort l = .ok { l with data := d' } ∧ Rearr l.size l.data d' ∧
      SortedUpTo d' l.size := by
  unfold CocktailShakerSort
  by_cases hlt : l.size < 2
  · rw [if_pos hlt]
    refine ⟨l.data, rfl, Rearr_refl _ _, ?_⟩
    intro i j hi hij hj
    have : i = j := by omega
    rw [this]
  · rw [if_neg hlt]
    obtain ⟨d', hrun, hre, hs⟩ := CocktailShakerSort_outer_spec l.size h500 (l.size + 1) l.data 0
      (by omega) hn (by omega) (fun a b ha0 hak => by simp at hak; omega)
    refine ⟨d', ?_, hre, hs⟩
    have hrun' : CocktailShakerSort.outer l.size (l.size + 1) l.data 0 = .ok d' := by
      exact_mod_cast hrun
    rw [hrun']

theorem InsertionSort_run (l : DynList) (hn : l.size ≤ l.data.length) (h500 : l.size ≤ 500) :
    ∃ d', InsertionSort l = .ok { l with data := d' } ∧ Rearr l.size l.data d' ∧
      SortedUpTo d' l.size := by
  obtain ⟨d', hrun, hre, hs⟩ := InsertionSort_outer_spec l.size h500 (l.size + 1) l.data 1
    (le_refl _) (by omega) hn (by omega) (by exact_mod_cast sortedUpTo_one l.data)
  refine ⟨d', ?_, hre, hs⟩
  unfold InsertionSort
  rw [hrun]

theorem HeapSort_run (l : DynList) (hn : l.size ≤ l.data.length) (h500 : l.size ≤ 500) :
    ∃ d', HeapSort l = .ok { l with data := d' } ∧ Rearr l.size l.data d' ∧
      SortedUpTo d' l.size := by
  have hstart : toInt (usub (l.size / 2) 1) = ((l.size / 2 : Nat) : Int) - 1 :=
    toInt_usub_one (by omega)
  obtain ⟨d1, hrun1, hre1, hheap1⟩ := HeapSort_build_spec l.size h500 (l.size + 1) l.data
    (((l.size / 2 : Nat) : Int) - 1) (by omega) (by omega) hn (by push_cast; omega)
    (fun k hk ch hch hlt => by omega)
  obtain ⟨d2, hrun2, hre2, hs⟩ := HeapSort_extract_spec l.size (l.size + 1) d1
    ((l.size : Int) - 1) (by omega) (by omega) (by have := hre1.1; omega) (by push_cast; omega)
    (by rw [show (l.size : Int) - 1 + 1 = l.size by omega]; exact hheap1)
    (fun a b ha hab hb => by omega) (fun a b ha0 hai hib hb => by omega)
  refine ⟨d2, ?_, Rearr_trans hre1 hre2, hs⟩
  unfold HeapSort
  rw [hstart, hrun1]
  simp only []
  rw [toInt_usub_one h500, hrun2]

theorem WF_size_le {l : DynList} (hwf : WF l) : l.size ≤ l.data.length ∧ l.size ≤ 500 := by
  obtain ⟨hlen, hsz, -, hcap⟩ := hwf
  unfold MAX_CAPACITY at hcap
  omega

theorem WF_of_Rearr {l : DynList} {d' : List Int} (hwf : WF l) (hre : Rearr l.size l.data d') :
    WF { l with data := d' } :=
  ⟨hre.1.trans hwf.1, hwf.2⟩

theorem Frame_of_Rearr {l : DynList} {d' : List Int} (hre : Rearr l.size l.data d') :
    Frame l { l with data := d' } :=
  ⟨rfl, rfl, hre.1, hre.2.2⟩

/-- A rearrangement of the live range that is in order, of a buffer whose live range is in
order, is the same buffer. -/
theorem sorted_Rearr_eq {l : DynList} (hwf : WF l) {d' : List Int}
    (hs : SortedUpTo l.data l.size) (hre : Rearr l.size l.data d')
    (hs' : SortedUpTo d' l.size) : d' = l.data := by
  obtain ⟨hsorted', hperm⟩ := live_of_Rearr hwf hre hs'
  have hsorted := live_sorted_of_sortedUpTo hwf hs
  have htake : d'.take l.size = l.data.take l.size :=
    List.eq_of_perm_of_sorted hperm hsorted' hsorted
  rw [← List.take_append_drop l.size d', ← List.take_append_drop l.size l.data, htake, hre.2.2]

/-- C32: for each of `QuickSort`, `CocktailShakerSort`, `InsertionSort` and `HeapSort`, the
sort returns a list `l1`, and the same sort run on `l1` returns `l1` again: the second run
leaves the live sequence (and the whole buffer) as the first run left it. -/
theorem sorts_idempotent (l : DynList) (hwf : WF l) :
    (∃ l1, QuickSort l = .ok l1 ∧ ∃ l2, QuickSort l1 = .ok l2 ∧ live l2 = live l1 ∧ l2 = l1) ∧
    (∃ l1, CocktailShakerSort l = .ok l1 ∧
      ∃ l2, CocktailShakerSort l1 = .ok l2 ∧ live l2 = live l1 ∧ l2 = l1) ∧
    (∃ l1, InsertionSort l = .ok l1 ∧
      ∃ l2, InsertionSort l1 = .ok l2 ∧ live l2 = live l1 ∧ l2 = l1) ∧
    (∃ l1, HeapSort l = .ok l1 ∧ ∃ l2, HeapSort l1 = .ok l2 ∧ live l2 = live l1 ∧ l2 = l1) := by
  obtain ⟨hn, h500⟩ := WF_size_le hwf
  refine ⟨?_, ?_, ?_, ?_⟩
  · obtain ⟨d1, hrun1, hre1, hs1⟩ := QuickSort_run l hn h500
    have hwf1 := WF_of_Rearr hwf hre1
    obtain ⟨d2, hrun2, hre2, hs2⟩ := QuickSort_run { l with data := d1 } (WF_size_le hwf1).1 h500
    have e : d2 = d1 := sorted_Rearr_eq hwf1 hs1 hre2 hs2
    subst e
    exact ⟨_, hrun1, _, hrun2, rfl, rfl⟩
  · obtain ⟨d1, hrun1, hre1, hs1⟩ := CocktailShakerSort_run l hn h500
    have hwf1 := WF_of_Rearr hwf hre1
    obtain ⟨d2, hrun2, hre2, hs2⟩ :=
      CocktailShakerSort_run { l with data := d1 } (WF_size_le hwf1).1 h500
    have e : d2 = d1 := sorted_Rearr_eq hwf1 hs1 hre2 hs2
    subst e
    exact ⟨_, hrun1, _, hrun2, rfl, rfl⟩
  · obtain ⟨d1, hrun1, hre1, hs1⟩ := InsertionSort_run l hn h500
    have hwf1 := WF_of_Rearr hwf hre1
    obtain ⟨d2, hrun2, hre2, hs2⟩ :=
      InsertionSort_run { l with data := d1 } (WF_size_le hwf1).1 h500
    have e : d2 = d1 := sorted_Rearr_eq hwf1 hs1 hre2 hs2
    subst e
    exact ⟨_, hrun1, _, hrun2, rfl, rfl⟩
  · obtain ⟨d1, hrun1, hre1, hs1⟩ := HeapSort_run l hn h500
    have hwf1 := WF_of_Rearr hwf hre1
    obtain ⟨d2, hrun2, hre2, hs2⟩ := HeapSort_run { l with data := d1 } (WF_size_le hwf1).1 h500
    have e : d2 = d1 := sorted_Rearr_eq hwf1 hs1 hre2 hs2
    subst e
    exact ⟨_, hrun1, _, hrun2, rfl, rfl⟩

/-- Witness for C32: the four sorts on `[5,1,4,1]` inside a buffer of six slots. -/
theorem sorts_idempotent_witness :
    WF ⟨[5, 1, 4, 1, 9, 9], 4, 6⟩ ∧
    (∃ l1, QuickSort ⟨[5, 1, 4, 1, 9, 9], 4, 6⟩ = .ok l1 ∧
      ∃ l2, QuickSort l1 = .ok l2 ∧ live l2 = live l1 ∧ l2 = l1) ∧
    (∃ l1, CocktailShakerSort ⟨[5, 1, 4, 1, 9, 9], 4, 6⟩ = .ok l1 ∧
      ∃ l2, CocktailShakerSort l1 = .ok l2 ∧ live l2 = live l1 ∧ l2 = l1) ∧
    (∃ l1, InsertionSort ⟨[5, 1, 4, 1, 9, 9], 4, 6⟩ = .ok l1 ∧
      ∃ l2, InsertionSort l1 = .ok l2 ∧ live l2 = live l1 ∧ l2 = l1) ∧
    (∃ l1, HeapSort ⟨[5, 1, 4, 1, 9, 9], 4, 6⟩ = .ok l1 ∧
      ∃ l2, HeapSort l1 = .ok l2 ∧ live l2 = live l1 ∧ l2 = l1) :=
  ⟨by decide, sorts_idempotent ⟨[5, 1, 4, 1, 9, 9], 4, 6⟩ (by decide)⟩

theorem sorted_take_of_sortedUpTo {d : List Int} {n : Nat} (hn : n ≤ d.length)
    (hs : SortedUpTo d n) : (d.take n).Sorted (· ≤ ·) := by
  have hl : (d.take n).length = n := by simp; omega
  apply List.pairwise_iff_getElem.mpr
  intro i j hi hj hij
  have := hs i j (by omega) (by omega) (by omega)
  rw [at0_nat (by omega), at0_nat (by omega)] at this
  simpa using this

/-- A sorting run on the buffer and a sorting run on the buffer cut down to the live range give
the same live range: the first result is the second one followed by the reserved slots. -/
theorem sorted_runs_agree {l : DynList} (hn : l.size ≤ l.data.length) {d' d'' : List Int}
    (hre : Rearr l.size l.data d') (hs : SortedUpTo d' l.size)
    (hre' : Rearr l.size (live l) d'') (hs' : SortedUpTo d'' l.size) :
    d' = d'' ++ l.data.drop l.size := by
  have hll : (live l).length = l.size := by simp [live]; omega
  have h1 := sorted_take_of_sortedUpTo (by rw [hre.1]; exact hn) hs
  have h2 := sorted_take_of_sortedUpTo (by rw [hre'.1, hll]) hs'
  have hp2 : (d''.take l.size).Perm (l.data.take l.size) := by
    have := hre'.2.1
    rwa [List.take_of_length_le (le_of_eq hll)] at this
  have e : d'.take l.size = d''.take l.size :=
    List.eq_of_perm_of_sorted (hre.2.1.trans hp2.symm) h1 h2
  have e2 : d''.take l.size = d'' := List.take_of_length_le (by rw [hre'.1, hll])
  rw [e2] at e
  rw [← List.take_append_drop l.size d', e, hre.2.2]

/-- C33: each of `QuickSort`, `CocktailShakerSort`, `InsertionSort` and `HeapSort` returns
with size and capacity unchanged, the buffer of the same length, and the reserved slots
`[size, capacity)` holding what they held before.  Each sort returns on the buffer cut down to
the live range too, where an access outside `[0, size)` is an access outside the buffer, and
the result on the whole buffer is that result followed by the reserved slots. -/
theorem sorts_frame (l : DynList) (hwf : WF l) :
    (∃ l', QuickSort l = .ok l' ∧ Frame l l' ∧
      ∃ c, QuickSort { l with data := live l } = .ok c ∧
        l'.data = c.data ++ l.data.drop l.size) ∧
    (∃ l', CocktailShakerSort l = .ok l' ∧ Frame l l' ∧
      ∃ c, CocktailShakerSort { l with data := live l } = .ok c ∧
        l'.data = c.data ++ l.data.drop l.size) ∧
    (∃ l', InsertionSort l = .ok l' ∧ Frame l l' ∧
      ∃ c, InsertionSort { l with data := live l } = .ok c ∧
        l'.data = c.data ++ l.data.drop l.size) ∧
    (∃ l', HeapSort l = .ok l' ∧ Frame l l' ∧
      ∃ c, HeapSort { l with data := live l } = .ok c ∧
        l'.data = c.data ++ l.data.drop l.size) := by
  obtain ⟨hn, h500⟩ := WF_size_le hwf
  have hcut : l.size ≤ (live l).length := by simp [live]; omega
  refine ⟨?_, ?_, ?_, ?_⟩
  · obtain ⟨d1, hrun1, hre1, hs1⟩ := QuickSort_run l hn h500
    obtain ⟨d2, hrun2, hre2, hs2⟩ := QuickSort_run { l with data := live l } hcut h500
    exact ⟨_, hrun1, Frame_of_Rearr hre1, _, hrun2, sorted_runs_agree hn hre1 hs1 hre2 hs2⟩
  · obtain ⟨d1, hrun1, hre1, hs1⟩ := CocktailShakerSort_run l hn h500
    obtain ⟨d2, hrun2, hre2, hs2⟩ := CocktailShakerSort_run { l with data := live l } hcut h500
    exact ⟨_, hrun1, Frame_of_Rearr hre1, _, hrun2, sorted_runs_agree hn hre1 hs1 hre2 hs2⟩
  · obtain ⟨d1, hrun1, hre1, hs1⟩ := InsertionSort_run l hn h500
    obtain ⟨d2, hrun2, hre2, hs2⟩ := InsertionSort_run { l with data := live l } hcut h500
    exact ⟨_, hrun1, Frame_of_Rearr hre1, _, hrun2, sorted_runs_agree hn hre1 hs1 hre2 hs2⟩
  · obtain ⟨d1, hrun1, hre1, hs1⟩ := HeapSort_run l hn h500
    obtain ⟨d2, hrun2, hre2, hs2⟩ := HeapSort_run { l with data := live l } hcut h500
    exact ⟨_, hrun1, Frame_of_Rearr hre1, _, hrun2, sorted_runs_agree hn hre1 hs1 hre2 hs2⟩

/-- Witness for C33: the four sorts on `[5,1,4,1]` inside a buffer of six slots. -/
theorem sorts_frame_witness :
    WF ⟨[5, 1, 4, 1, 9, 9], 4, 6⟩ ∧
    (∃ l', QuickSort ⟨[5, 1, 4, 1, 9, 9], 4, 6⟩ = .ok l' ∧ Frame ⟨[5, 1, 4, 1, 9, 9], 4, 6⟩ l' ∧
      ∃ c, QuickSort ⟨live ⟨[5, 1, 4, 1, 9, 9], 4, 6⟩, 4, 6⟩ = .ok c ∧
        l'.data = c.data ++ ([5, 1, 4, 1, 9, 9] : List Int).drop 4) ∧
    (∃ l', CocktailShakerSort ⟨[5, 1, 4, 1, 9, 9], 4, 6⟩ = .ok l' ∧
      Frame ⟨[5, 1, 4, 1, 9, 9], 4, 6⟩ l' ∧
      ∃ c, CocktailShakerSort ⟨live ⟨[5, 1, 4, 1, 9, 9], 4, 6⟩, 4, 6⟩ = .ok c ∧
        l'.data = c.data ++ ([5, 1, 4, 1, 9, 9] : List Int).drop 4) ∧
    (∃ l', InsertionSort ⟨[5, 1, 4, 1, 9, 9], 4, 6⟩ = .ok l' ∧
      Frame ⟨[5, 1, 4, 1, 9, 9], 4, 6⟩ l' ∧
      ∃ c, InsertionSort ⟨live ⟨[5, 1, 4, 1, 9, 9], 4, 6⟩, 4, 6⟩ = .ok c ∧
        l'.data = c.data ++ ([5, 1, 4, 1, 9, 9] : List Int).drop 4) ∧
    (∃ l', HeapSort ⟨[5, 1, 4, 1, 9, 9], 4, 6⟩ = .ok l' ∧ Frame ⟨[5, 1, 4, 1, 9, 9], 4, 6⟩ l' ∧
      ∃ c, HeapSort ⟨live ⟨[5, 1, 4, 1, 9, 9], 4, 6⟩, 4, 6⟩ = .ok c ∧
        l'.data = c.data ++ ([5, 1, 4, 1, 9, 9] : List Int).drop 4) :=
  ⟨by decide, sorts_frame ⟨[5, 1, 4, 1, 9, 9], 4, 6⟩ (by decide)⟩

/-- The four sorts on `[5,1,4,1]` inside a buffer of six slots, and each of them once more on
its own result. -/
theorem sorts_scenario :
    QuickSort ⟨[5, 1, 4, 1, 9, 9], 4, 6⟩ = .ok ⟨[1, 1, 4, 5, 9, 9], 4, 6⟩ ∧
    CocktailShakerSort ⟨[5, 1, 4, 1, 9, 9], 4, 6⟩ = .ok ⟨[1, 1, 4, 5, 9, 9], 4, 6⟩ ∧
    InsertionSort ⟨[5, 1, 4, 1, 9, 9], 4, 6⟩ = .ok ⟨[1, 1, 4, 5, 9, 9], 4, 6⟩ ∧
    HeapSort ⟨[5, 1, 4, 1, 9, 9], 4, 6⟩ = .ok ⟨[1, 1, 4, 5, 9, 9], 4, 6⟩ ∧
    QuickSort ⟨[1, 1, 4, 5, 9, 9], 4, 6⟩ = .ok ⟨[1, 1, 4, 5, 9, 9], 4, 6⟩ ∧
    CocktailShakerSort ⟨[1, 1, 4, 5, 9, 9], 4, 6⟩ = .ok ⟨[1, 1, 4, 5, 9, 9], 4, 6⟩ ∧
    InsertionSort ⟨[1, 1, 4, 5, 9, 9], 4, 6⟩ = .ok ⟨[1, 1, 4, 5, 9, 9], 4, 6⟩ ∧
    HeapSort ⟨[1, 1, 4, 5, 9, 9], 4, 6⟩ = .ok ⟨[1, 1, 4, 5, 9, 9], 4, 6⟩ := by
  decide

/-! ## Partition and the heap of HeapSort -/

theorem take_eq_of_at0 {d d' : List Int} (hl : d'.length = d.length) (m : Nat)
    (h : ∀ k : Int, 0 ≤ k → k < m → at0 d' k = at0 d k) : d'.take m = d.take m := by
  apply ext_at0 (by simp [hl])
  intro k hk0 hk
  have hkm : k < m := by simp at hk; omega
  rw [at0_take, at0_take, if_pos hkm, if_pos hkm]
  exact h k hk0 hkm

theorem drop_eq_of_at0 {d d' : List Int} (hl : d'.length = d.length) (m : Nat)
    (h : ∀ k : Int, (m : Int) ≤ k → at0 d' k = at0 d k) : d'.drop m = d.drop m := by
  apply ext_at0 (by simp [hl])
  intro k hk0 hk
  rw [at0_drop _ _ hk0, at0_drop _ _ hk0]
  exact h _ (by omega)

theorem split_three (x : List Int) (lo k : Nat) :
    x = x.take lo ++ ((x.drop lo).take k ++ x.drop (lo + k)) := by
  have e : x.drop (lo + k) = (x.drop lo).drop k := by
    rw [List.drop_drop]
  rw [e, List.take_append_drop, List.take_append_drop]

theorem perm_slots {d d' : List Int} (lo k : Nat) (hperm : d'.Perm d)
    (htake : d'.take lo = d.take lo) (hdrop : d'.drop (lo + k) = d.drop (lo + k)) :
    ((d'.drop lo).take k).Perm ((d.drop lo).take k) := by
  rw [split_three d' lo k, split_three d lo k, htake, hdrop] at hperm
  exact (List.perm_append_right_iff _).mp ((List.perm_append_left_iff _).mp hperm)

/-- C36: for `0 <= low <= high < size`, `Partition(low, high)` returns `p` with
`low <= p <= high`; afterwards `data[p]` is the old `data[high]` (the pivot), every element of
`[low, p)` is `<=` the pivot, every element of `(p, high]` is `>` the pivot, the slots
`[low, high]` are a permutation of their old contents, and the slots outside `[low, high]` are
unchanged. -/
theorem Partition_partitions (l : DynList) (hwf : WF l) (low high : Int) (hlow : 0 ≤ low)
    (hlh : low ≤ high) (hhigh : high < l.size) :
    ∃ d' p, Partition l.data low high = .ok (d', p) ∧ low ≤ p ∧ p ≤ high ∧
      at0 d' p = at0 l.data high ∧
      (∀ k : Int, low ≤ k → k < p → at0 d' k ≤ at0 l.data high) ∧
      (∀ k : Int, p < k → k ≤ high → at0 l.data high < at0 d' k) ∧
      (slots d' low high).Perm (slots l.data low high) ∧
      d'.length = l.data.length ∧
      (∀ k : Int, k < low ∨ high < k → at0 d' k = at0 l.data k) := by
  obtain ⟨hn, -⟩ := WF_size_le hwf
  obtain ⟨d', p, hrun, hp1, hp2, hpiv, hle, hgt, hre, hw⟩ :=
    Partition_spec l.data.length l.data low high hlow hlh (by omega) (le_refl _)
  refine ⟨d', p, hrun, hp1, hp2, hpiv, hle, hgt, ?_, hre.1, hw.1⟩
  have hperm : d'.Perm l.data := by
    have := hre.2.1
    rwa [List.take_of_length_le (by rw [hre.1]), List.take_of_length_le (le_refl _)] at this
  have htake : d'.take low.toNat = l.data.take low.toNat :=
    take_eq_of_at0 hre.1 _ (fun k hk0 hk => hw.1 k (Or.inl (by omega)))
  have hdrop : d'.drop (low.toNat + (high - low + 1).toNat) =
      l.data.drop (low.toNat + (high - low + 1).toNat) :=
    drop_eq_of_at0 hre.1 _ (fun k hk => hw.1 k (Or.inr (by omega)))
  exact perm_slots _ _ hperm htake hdrop

/-- Witness for C36: `Partition(1, 4)` on `[9,5,1,8,4,7]`. -/
theorem Partition_partitions_witness :
    WF ⟨[9, 5, 1, 8, 4, 7, 0, 0], 6, 8⟩ ∧ (0 : Int) ≤ 1 ∧ (1 : Int) ≤ 4 ∧ (4 : Int) < (6 : Nat) ∧
    ∃ d' p, Partition [9, 5, 1, 8, 4, 7, 0, 0] 1 4 = .ok (d', p) ∧ 1 ≤ p ∧ p ≤ 4 ∧
      at0 d' p = at0 [9, 5, 1, 8, 4, 7, 0, 0] 4 ∧
      (∀ k : Int, 1 ≤ k → k < p → at0 d' k ≤ at0 [9, 5, 1, 8, 4, 7, 0, 0] 4) ∧
      (∀ k : Int, p < k → k ≤ 4 → at0 [9, 5, 1, 8, 4, 7, 0, 0] 4 < at0 d' k) ∧
      (slots d' 1 4).Perm (slots [9, 5, 1, 8, 4, 7, 0, 0] 1 4) ∧
      d'.length = ([9, 5, 1, 8, 4, 7, 0, 0] : List Int).length ∧
      (∀ k : Int, k < 1 ∨ 4 < k → at0 d' k = at0 [9, 5, 1, 8, 4, 7, 0, 0] k) :=
  ⟨by decide, by decide, by decide, by decide,
    Partition_partitions ⟨[9, 5, 1, 8, 4, 7, 0, 0], 6, 8⟩ (by decide) 1 4 (by decide)
      (by decide) (by decide)⟩

theorem Partition_scenario :
    Partition [9, 5, 1, 8, 4, 7, 0, 0] 1 4 = .ok ([9, 1, 4, 8, 5, 7, 0, 0], 2) := by
  decide

theorem MaxHeap_of_HeapFrom {d : List Int} {m : Int} (h : HeapFrom d 0 m) : MaxHeap d m := by
  intro i hi him
  exact h ((i - 1) / 2) (by omega) i (by omega) him

theorem HeapFrom_of_MaxHeap {d : List Int} {m : Int} (h : MaxHeap d m) : HeapFrom d 0 m := by
  intro k hk ch hch hlt
  have := h ch (by omega) hlt
  have e : (ch - 1) / 2 = k := by omega
  rwa [e] at this

/-- C37: the first loop of `HeapSort` returns a buffer of the same length whose live range is
a rearrangement of the old live range (the reserved slots untouched) and a max-heap
(`data[(i - 1) / 2] >= data[i]` for `0 < i < size`).  On every buffer of that length whose
first `i + 1` slots are a max-heap (`0 <= i < size`), the body of the second loop,
`Swap(&data[0], &data[i])` followed by `Heapify(i, 0)`, returns a buffer of the same length
that rearranges the slots `[0, i]` only, holds the old root, the largest of these slots, in the
slot `i`, and has the first `i` slots a max-heap again, so that the next iteration starts from
a heap. -/
theorem HeapSort_keeps_heap (l : DynList) (hwf : WF l) :
    (∃ d1, HeapSort.build l.size (l.size + 1) l.data (toInt (usub (l.size / 2) 1)) = .ok d1 ∧
      Rearr l.size l.data d1 ∧ MaxHeap d1 l.size) ∧
    (∀ (d : List Int) (i : Int), d.length = l.data.length → 0 ≤ i → i < l.size →
      MaxHeap d (i + 1) →
      ∃ d1 d2, Swap d 0 i = .ok d1 ∧ Heapify (d.length + 1) d1 i 0 = .ok d2 ∧
        d2.length = d.length ∧ Rearr (i + 1).toNat d d2 ∧ at0 d2 i = at0 d 0 ∧
        (∀ k : Nat, (k : Int) ≤ i → at0 d k ≤ at0 d2 i) ∧ MaxHeap d2 i) := by
  obtain ⟨hn, h500⟩ := WF_size_le hwf
  constructor
  · have hstart : toInt (usub (l.size / 2) 1) = ((l.size / 2 : Nat) : Int) - 1 :=
      toInt_usub_one (by omega)
    obtain ⟨d1, hrun1, hre1, hheap1⟩ := HeapSort_build_spec l.size h500 (l.size + 1) l.data
      (((l.size / 2 : Nat) : Int) - 1) (by omega) (by omega) hn (by push_cast; omega)
      (fun k hk ch hch hlt => by omega)
    rw [hstart]
    exact ⟨d1, hrun1, hre1, MaxHeap_of_HeapFrom hheap1⟩
  · intro d i hlen hi0 hi hheap
    have hheap' := HeapFrom_of_MaxHeap hheap
    have hsw : Swap d 0 i = .ok (swapL d 0 i) :=
      Swap_ok (le_refl _) (by omega) (by omega) (by omega)
    have hat := at0_swapL (d := d) (a := 0) (b := i) (le_refl _) (by omega) (by omega)
      (by omega)
    have hlen1 : (swapL d 0 i).length = d.length := length_swapL _ _ _
    have hre0 : Rearr (i + 1).toNat d (swapL d 0 i) :=
      Rearr_swapL (le_refl _) (by omega) hi0 (by omega) (by omega)
    obtain ⟨d2, hrun2, hre2, hw2, hheap2⟩ := Heapify_spec (i + 1).toNat i 0 (le_refl _)
      (by omega) (d.length + 1) (swapL d 0 i) 0 (le_refl _) (by omega) (by omega)
      (by push_cast; omega)
      (by
        intro k hk hk0 ch hch hlt
        rw [hat, hat, if_neg (by omega), if_neg (by omega), if_neg (by omega),
          if_neg (by omega)]
        exact hheap' k hk ch hch (by omega))
      (fun q hq hqi => by omega)
    have hati : at0 d2 i = at0 d 0 := by
      rw [hw2.1 i (Or.inr (by omega)), hat, if_pos rfl]
    refine ⟨swapL d 0 i, d2, hsw, hrun2, hre2.1.trans hlen1, Rearr_trans hre0 hre2, hati, ?_,
      MaxHeap_of_HeapFrom hheap2⟩
    intro k hk
    rw [hati]
    exact heap_root_max hheap' k (by omega)

/-- Witness for C37: `HeapSort` on `[1,5,4,7]` inside a buffer of six slots; the first loop
has to sift, and the step is taken on the heap `[7,5,4,1]` with `i = 3`. -/
theorem HeapSort_keeps_heap_witness :
    WF ⟨[1, 5, 4, 7, 9, 9], 4, 6⟩ ∧
    (∃ d1, HeapSort.build 4 (4 + 1) [1, 5, 4, 7, 9, 9] (toInt (usub (4 / 2) 1)) = .ok d1 ∧
      Rearr 4 [1, 5, 4, 7, 9, 9] d1 ∧ MaxHeap d1 (4 : Nat)) ∧
    (∃ d1 d2, Swap [7, 5, 4, 1, 9, 9] 0 3 = .ok d1 ∧
      Heapify (([7, 5, 4, 1, 9, 9] : List Int).length + 1) d1 3 0 = .ok d2 ∧
      d2.length = ([7, 5, 4, 1, 9, 9] : List Int).length ∧
      Rearr ((3 : Int) + 1).toNat [7, 5, 4, 1, 9, 9] d2 ∧
      at0 d2 3 = at0 [7, 5, 4, 1, 9, 9] 0 ∧
      (∀ k : Nat, (k : Int) ≤ 3 → at0 [7, 5, 4, 1, 9, 9] k ≤ at0 d2 3) ∧ MaxHeap d2 3) :=
  ⟨by decide, (HeapSort_keeps_heap ⟨[1, 5, 4, 7, 9, 9], 4, 6⟩ (by decide)).1,
    (HeapSort_keeps_heap ⟨[1, 5, 4, 7, 9, 9], 4, 6⟩ (by decide)).2 [7, 5, 4, 1, 9, 9] 3 rfl
      (by decide) (by decide)
      (by
        intro i h1 h2
        have hi : i = 1 ∨ i = 2 ∨ i = 3 := by omega
        rcases hi with rfl | rfl | rfl <;> decide)⟩

/-- The two loops of `HeapSort` on `[1,5,4,7]`: the heap after the first loop, and the first
iteration of the second loop. -/
theorem HeapSort_scenario :
    HeapSort.build 4 (4 + 1) [1, 5, 4, 7, 9, 9] (toInt (usub (4 / 2) 1)) =
      .ok [7, 5, 4, 1, 9, 9] ∧
    Swap [7, 5, 4, 1, 9, 9] 0 3 = .ok [1, 5, 4, 7, 9, 9] ∧
    Heapify 7 [1, 5, 4, 7, 9, 9] 3 0 = .ok [5, 1, 4, 7, 9, 9] := by
  decide

/-! ## The number of passes of CocktailShakerSort -/

theorem Top_swapL {d : List Int} {k n x y : Int} (h : Top d k n) (hx0 : 0 ≤ x)
    (hx : x < n - k) (hy0 : 0 ≤ y) (hy : y < n - k) (hk : 0 ≤ k) (hn : n ≤ d.length) :
    Top (swapL d x y) k n := by
  intro a b ha0 hab hb1 hb2
  rw [at0_swapL hx0 (by omega) hy0 (by omega), at0_swapL hx0 (by omega) hy0 (by omega)]
  rw [if_neg (show ¬ b = y by omega), if_neg (show ¬ b = x by omega)]
  split
  · exact h x b hx0 (by omega) hb1 hb2
  · split
    · exact h y b hy0 (by omega) hb1 hb2
    · exact h a b ha0 hab hb1 hb2

/-- The forward sweep up to `bound = n - (p + 1)` moves the largest of the slots `[0, n - p)`
to the slot `n - p - 1`: one more slot at the end is final. -/
theorem CocktailShakerSort_forward_top (n p : Nat) (hp : p + 1 ≤ n) (hn500 : n ≤ 500) :
    ∀ (fuel : Nat) (d : List Int) (i : Nat) (s : Bool) (d' : List Int) (s' : Bool),
      CocktailShakerSort.forward (n - (p + 1)) fuel d i s = .ok (d', s') →
      i ≤ n - (p + 1) → n ≤ d.length → Top d p n →
      (∀ a : Int, 0 ≤ a → a < i → at0 d a ≤ at0 d i) →
      Top d' ((p + 1 : Nat) : Int) n := by
  intro fuel
  induction fuel with
  | zero =>
    intro d i s d' s' hrun
    simp only [CocktailShakerSort.forward] at hrun
    cases hrun
  | succ m ih =>
    intro d i s d' s' hrun hib hn htop hmax
    by_cases hlt : i < n - (p + 1)
    · have hr1 : rd d (i : Int) = .ok (at0 d i) := rd_ok (by omega) (by omega)
      have hu : uadd i 1 = i + 1 := uadd_small (by omega)
      have hr2 : rd d ((i + 1 : Nat) : Int) = .ok (at0 d ((i + 1 : Nat) : Int)) :=
        rd_ok (by omega) (by omega)
      simp only [CocktailShakerSort.forward, if_pos hlt, hu, hr1, hr2] at hrun
      have hc : ((i + 1 : Nat) : Int) = (i : Int) + 1 := by omega
      by_cases hgt : at0 d (i : Int) > at0 d ((i + 1 : Nat) : Int)
      · have hsw : Swap d (i : Int) ((i + 1 : Nat) : Int) = .ok (swapL d i ((i + 1 : Nat) : Int)) :=
          Swap_ok (by omega) (by omega) (by omega) (by omega)
        simp only [if_pos hgt, hsw] at hrun
        have hat := at0_swapL (d := d) (a := (i : Int)) (b := ((i + 1 : Nat) : Int)) (by omega)
          (by omega) (by omega) (by omega)
        apply ih _ _ _ _ _ hrun (by omega) (by simpa [length_swapL] using hn)
        · exact Top_swapL htop (by omega) (by omega) (by omega) (by omega) (by omega)
            (by exact_mod_cast hn)
        · intro a ha0 ha
          rw [hat, hat, if_pos rfl]
          by_cases hai : a = (i : Int)
          · rw [if_neg (by omega), if_pos hai]
            omega
          · rw [if_neg (by omega), if_neg hai]
            exact hmax a ha0 (by omega)
      · simp only [if_neg hgt] at hrun
        apply ih _ _ _ _ _ hrun (by omega) hn htop
        intro a ha0 ha
        by_cases hai : a = (i : Int)
        · rw [hai]; omega
        · have := hmax a ha0 (by omega)
          omega
    · simp only [CocktailShakerSort.forward, if_neg hlt] at hrun
      injection hrun with hrun
      injection hrun with e1 e2
      subst e1
      intro a b ha0 hab hb1 hb2
      by_cases hb : (n : Int) - p ≤ b
      · exact htop a b ha0 hab hb hb2
      · have hbi : b = (i : Int) := by omega
        by_cases hai : a = b
        · rw [hai]
        · rw [hbi]
          exact hmax a ha0 (by omega)

/-- The backward sweep leaves the final slots at the end as they are. -/
theorem CocktailShakerSort_backward_top (n : Nat) (k : Int) (hk : 0 ≤ k) :
    ∀ (fuel : Nat) (d : List Int) (i : Nat) (s : Bool) (d' : List Int) (s' : Bool),
      CocktailShakerSort.backward fuel d i s = .ok (d', s') →
      i < n → n ≤ d.length → Top d k n → Top d' k n := by
  intro fuel
  induction fuel with
  | zero =>
    intro d i s d' s' hrun
    simp only [CocktailShakerSort.backward] at hrun
    cases hrun
  | succ m ih =>
    intro d i s d' s' hrun hin hn htop
    by_cases hpos : i > 0
    · have hu : usub i 1 = i - 1 := usub_small (by omega)
      have hc : ((i - 1 : Nat) : Int) = (i : Int) - 1 := by omega
      have hr1 : rd d ((i : Int) - 1) = .ok (at0 d ((i : Int) - 1)) :=
        rd_ok (by omega) (by omega)
      have hr2 : rd d (i : Int) = .ok (at0 d i) := rd_ok (by omega) (by omega)
      simp only [CocktailShakerSort.backward, if_pos hpos, hu, hc, hr1, hr2] at hrun
      by_cases hgt : at0 d ((i : Int) - 1) > at0 d (i : Int)
      · have hsw : Swap d (i : Int) ((i : Int) - 1) = .ok (swapL d i ((i : Int) - 1)) :=
          Swap_ok (by omega) (by omega) (by omega) (by omega)
        simp only [if_pos hgt, hsw] at hrun
        have hik : (i : Int) < n - k := by
          by_contra hcon
          have := htop ((i : Int) - 1) i (by omega) (by omega) (by omega) (by omega)
          omega
        rw [← hc] at hrun
        exact ih _ _ _ _ _ hrun (by omega) (by simpa [length_swapL] using hn)
          (Top_swapL htop (by omega) hik (by omega) (by omega) hk (by exact_mod_cast hn))
      · simp only [if_neg hgt] at hrun
        exact ih _ _ _ _ _ hrun (by omega) hn htop
    · simp only [CocktailShakerSort.backward, if_neg hpos] at hrun
      injection hrun with hrun
      injection hrun with e1 e2
      subst e1
      exact htop

theorem CocktailShakerSort_outer_fuel (n : Nat) :
    ∀ (fuel extra : Nat) (d : List Int) (p : Int) (d' : List Int),
      CocktailShakerSort.outer n fuel d p = .ok d' →
      CocktailShakerSort.outer n (fuel + extra) d p = .ok d' := by
  intro fuel
  induction fuel with
  | zero =>
    intro extra d p d' hrun
    simp only [CocktailShakerSort.outer] at hrun
    cases hrun
  | succ m ih =>
    intro extra d p d' hrun
    rw [show m + 1 + extra = (m + extra) + 1 by omega]
    unfold CocktailShakerSort.outer at hrun ⊢
    cases h1 : CocktailShakerSort.forward (usub n (toUnsigned (p + 1))) (d.length + 1) d 0 true with
    | error e => rw [h1] at hrun; cases hrun
    | ok r1 =>
      obtain ⟨d1, s1⟩ := r1
      rw [h1] at hrun
      simp only [] at hrun ⊢
      cases h2 : CocktailShakerSort.backward (d.length + 1) d1 (usub n 1) s1 with
      | error e => rw [h2] at hrun; cases hrun
      | ok r2 =>
        obtain ⟨d2, s2⟩ := r2
        rw [h2] at hrun
        simp only [] at hrun ⊢
        by_cases hs : s2 = true
        · rw [if_pos hs] at hrun ⊢
          exact hrun
        · rw [if_neg hs] at hrun ⊢
          exact ih extra d2 (p + 1) d' hrun

/-- The outer loop of `CocktailShakerSort`, entered at pass `p <= n / 2` with `p` final slots
at each end, returns within `n / 2 + 1 - p` further passes. -/
theorem CocktailShakerSort_outer_passes (n : Nat) (h2 : 2 ≤ n) (hn500 : n ≤ 500) :
    ∀ (fuel : Nat) (d : List Int) (p : Nat), p ≤ n / 2 → n ≤ d.length → n / 2 + 1 ≤ fuel + p →
      Final d p n → Top d p n →
      ∃ d', CocktailShakerSort.outer n fuel d (p : Int) = .ok d' ∧ Rearr n d d' ∧
        SortedUpTo d' n := by
  intro fuel
  induction fuel with
  | zero => intro d p h1 h2 h3; omega
  | succ m ih =>
    intro d p hp hn hf hfin htop
    have hbound : usub n (toUnsigned ((p : Int) + 1)) = n - (p + 1) := by
      rw [toUnsigned_small (by omega), usub_small (by omega)]
      congr 1
    obtain ⟨d1, s1, hrun1, hre1, hfin1, hs1, hadj1⟩ :=
      CocktailShakerSort_forward_spec n (n - (p + 1)) (by omega) hn500 (d.length + 1) d 0 true
        (by omega) hn (by omega)
    have hlen1 : d1.length = d.length := hre1.1
    have htop1 : Top d1 ((p + 1 : Nat) : Int) n :=
      CocktailShakerSort_forward_top n p (by omega) hn500 _ _ _ _ _ _ hrun1 (by omega) hn htop
        (fun a ha0 ha => by omega)
    obtain ⟨d2, s2, hrun2, hre2, hfin2, hs2, hadj2⟩ :=
      CocktailShakerSort_backward_spec n (d.length + 1) d1 (n - 1) s1 (by omega) (by omega)
        (by omega)
    have htop2 : Top d2 ((p + 1 : Nat) : Int) n :=
      CocktailShakerSort_backward_top n _ (by omega) _ _ _ _ _ _ hrun2 (by omega) (by omega)
        htop1
    have hu : usub n 1 = n - 1 := usub_small (by omega)
    simp only [CocktailShakerSort.outer, hbound, hrun1, hu, hrun2]
    by_cases hs : s2 = true
    · rw [if_pos hs]
      obtain ⟨e1, e2, e3⟩ := hs2 hs
      obtain ⟨-, e4⟩ := hs1 e1
      subst e2; subst e4
      refine ⟨d2, rfl, Rearr_refl _ _, SortedUpTo_of_AdjSorted ?_⟩
      intro c hc1 hc2
      exact e3 c hc1 (by omega)
    · rw [if_neg hs]
      have hlow1 : Low d1 p ((n - 1 : Nat) : Int) n := by
        intro b hb1 hb2 hb3
        have hb : b = ((n - 1 : Nat) : Int) := by omega
        have hm : (if ((n - 1 : Nat) : Int) ≤ (p : Int) then (p : Int) else ((n - 1 : Nat) : Int))
            = ((n - 1 : Nat) : Int) := by split <;> omega
        rw [hm, hb]
      obtain ⟨hfin3, hlow3⟩ := hfin2 p (hfin1 p hfin) hlow1
      have hfin4 : Final d2 ((p + 1 : Nat) : Int) n := by
        intro a b ha0 hap hab hbn
        by_cases hpa : a < p
        · exact hfin3 a b ha0 hpa hab hbn
        · have ha : a = p := by omega
          have := hlow3 b (by omega) (by omega) hbn
          rw [if_pos (by omega)] at this
          rw [ha]; exact this
      by_cases hlast : p + 1 ≤ n / 2
      · obtain ⟨d', hrun, hre, hso⟩ := ih d2 (p + 1) hlast (by have := hre2.1; omega)
          (by omega) hfin4 htop2
        exact ⟨d', by exact_mod_cast hrun, Rearr_trans (Rearr_trans hre1 hre2) hre, hso⟩
      · exfalso
        have hadj : AdjSorted d n := by
          intro c hc1 hc2
          by_cases hcp : c - 1 < p
          · exact hfin (c - 1) c (by omega) hcp (by omega) hc2
          · exact htop (c - 1) c (by omega) (by omega) (by omega) hc2
        obtain ⟨e1, e2⟩ := hadj1 hadj
        subst e1
        obtain ⟨-, e4⟩ := hadj2 hadj
        rw [e4, e2] at hs
        exact hs rfl

/-- C38: for a list of size `n >= 2`, the outer loop of `CocktailShakerSort` returns within
`n / 2 + 1` iterations (its fuel counts the iterations), with the result of
`CocktailShakerSort`; it does so on the buffer cut down to the live range too, where every
slot outside `[0, size)` is outside the buffer; and in each of these iterations
`passes + 1 <= n`, so that the forward bound `size - (passes + 1)` does not wrap around. -/
theorem CocktailShakerSort_pass_bound (l : DynList) (hwf : WF l) (h2 : 2 ≤ l.size) :
    (∃ d', CocktailShakerSort.outer l.size (l.size / 2 + 1) l.data 0 = .ok d' ∧
      CocktailShakerSort l = .ok { l with data := d' }) ∧
    (∃ d', CocktailShakerSort.outer l.size (l.size / 2 + 1) (live l) 0 = .ok d') ∧
    (∀ passes : Nat, passes < l.size / 2 + 1 →
      passes + 1 ≤ l.size ∧
      usub l.size (toUnsigned ((passes : Int) + 1)) = l.size - (passes + 1)) := by
  obtain ⟨hn, h500⟩ := WF_size_le hwf
  have hfin : ∀ d : List Int, Final d ((0 : Nat) : Int) l.size :=
    fun d a b ha0 hak => by simp at hak; omega
  have htop : ∀ d : List Int, Top d ((0 : Nat) : Int) l.size :=
    fun d a b ha0 hab hb1 hb2 => by simp at hb1; omega
  refine ⟨?_, ?_, ?_⟩
  · obtain ⟨d', hrun, -, -⟩ := CocktailShakerSort_outer_passes l.size h2 h500 (l.size / 2 + 1)
      l.data 0 (by omega) hn (by omega) (hfin _) (htop _)
    have hrun' : CocktailShakerSort.outer l.size (l.size / 2 + 1) l.data 0 = .ok d' := by
      exact_mod_cast hrun
    refine ⟨d', hrun', ?_⟩
    have hfuel := CocktailShakerSort_outer_fuel l.size (l.size / 2 + 1) (l.size - l.size / 2)
      l.data 0 d' hrun'
    rw [show l.size / 2 + 1 + (l.size - l.size / 2) = l.size + 1 by omega] at hfuel
    unfold CocktailShakerSort
    rw [if_neg (by omega), hfuel]
  · have hlen : l.size ≤ (live l).length := by simp [live]; omega
    obtain ⟨d', hrun, -, -⟩ := CocktailShakerSort_outer_passes l.size h2 h500 (l.size / 2 + 1)
      (live l) 0 (by omega) hlen (by omega) (hfin _) (htop _)
    exact ⟨d', by exact_mod_cast hrun⟩
  · intro passes hp
    refine ⟨by omega, ?_⟩
    rw [toUnsigned_small (by omega), usub_small (by omega)]
    congr 1

/-- Witness for C38: `CocktailShakerSort` on `[5,1,4,1]` inside a buffer of six slots. -/
theorem CocktailShakerSort_pass_bound_witness :
    WF ⟨[5, 1, 4, 1, 9, 9], 4, 6⟩ ∧ 2 ≤ 4 ∧
    (∃ d', CocktailShakerSort.outer 4 (4 / 2 + 1) [5, 1, 4, 1, 9, 9] 0 = .ok d' ∧
      CocktailShakerSort ⟨[5, 1, 4, 1, 9, 9], 4, 6⟩ = .ok { data := d', size := 4, capacity := 6 }) ∧
    (∃ d', CocktailShakerSort.outer 4 (4 / 2 + 1) (live ⟨[5, 1, 4, 1, 9, 9], 4, 6⟩) 0 = .ok d') ∧
    (∀ passes : Nat, passes < 4 / 2 + 1 →
      passes + 1 ≤ 4 ∧ usub 4 (toUnsigned ((passes : Int) + 1)) = 4 - (passes + 1)) :=
  ⟨by decide, by decide, CocktailShakerSort_pass_bound ⟨[5, 1, 4, 1, 9, 9], 4, 6⟩ (by decide)
    (by decide)⟩

/-- The bound of C38 is reached: `[2,1]` needs two iterations of the outer loop, one is not
enough. -/
theorem CocktailShakerSort_pass_bound_tight :
    CocktailShakerSort.outer 2 1 [2, 1] 0 = .error .outOfFuel ∧
    CocktailShakerSort.outer 2 2 [2, 1] 0 = .ok [1, 2] := by
  decide

/-! ## The searches on arbitrary data -/

theorem JumpSearch_scan_any (l : DynList) (value : Int) (step : Int)
    (hm : Min step (toInt l.size) ≤ l.size) (hn : l.size ≤ l.data.length)
    (hbound : ¬ at0 l.data (Min step (toInt l.size) - 1) < value) :
    ∀ (fuel : Nat) (prev : Int), 0 ≤ prev → prev ≤ Min step (toInt l.size) - 1 →
      Min step (toInt l.size) - prev ≤ fuel →
      ∃ r, JumpSearch.scan l value step fuel prev = .ok r ∧
        (r = -1 ∨ (0 ≤ r ∧ r < l.size ∧ at0 l.data r = value)) := by
  intro fuel
  induction fuel with
  | zero => intro prev h0 hle hf; omega
  | succ n ih =>
    intro prev h0 hle hf
    have hr : rd l.data prev = .ok (at0 l.data prev) := rd_ok h0 (by omega)
    simp only [JumpSearch.scan, hr]
    by_cases hlt : at0 l.data prev < value
    · have hne : prev ≠ Min step (toInt l.size) - 1 := by
        intro h; rw [h] at hlt; exact hbound hlt
      have hne2 : ¬ prev + 1 = Min step (toInt l.size) := by omega
      simp only [if_pos hlt, if_neg hne2]
      exact ih (prev + 1) (by omega) (by omega) (by omega)
    · simp only [if_neg hlt]
      by_cases heq : at0 l.data prev = value
      · simp only [if_pos heq]
        exact ⟨prev, rfl, Or.inr ⟨h0, by omega, heq⟩⟩
      · simp only [if_neg heq]
        exact ⟨-1, rfl, Or.inl rfl⟩

theorem JumpSearch_jump_any (l : DynList) (value : Int) (hn : l.size ≤ l.data.length)
    (h500 : l.size ≤ 500) :
    ∀ (fuel : Nat) (step prev : Int), 0 ≤ prev → prev < step → prev < l.size →
      (l.size : Int) - prev ≤ fuel → step = prev + sqrtFloor l.size →
      ∃ r, JumpSearch.jump l value fuel step prev = .ok r ∧
        (r = -1 ∨ (0 ≤ r ∧ r < l.size ∧ at0 l.data r = value)) := by
  have hto : toInt l.size = (l.size : Int) := toInt_small (by omega)
  intro fuel
  induction fuel with
  | zero => intro step prev h0 h1 h2 hf; omega
  | succ n ih =>
    intro step prev h0 hps hpl hf hstep
    have hm1 : 1 ≤ Min step (toInt l.size) := by
      rw [hto]; unfold Min; split <;> omega
    have hm2 : Min step (toInt l.size) ≤ l.size := by
      rw [hto]; unfold Min; split <;> omega
    have hr : rd l.data (Min step (toInt l.size) - 1) =
        .ok (at0 l.data (Min step (toInt l.size) - 1)) := rd_ok (by omega) (by omega)
    simp only [JumpSearch.jump, hr]
    by_cases hlt : at0 l.data (Min step (toInt l.size) - 1) < value
    · simp only [if_pos hlt]
      by_cases hge : step ≥ toInt l.size
      · simp only [if_pos hge]
        exact ⟨-1, rfl, Or.inl rfl⟩
      · simp only [if_neg hge]
        rw [hto] at hge
        have hpos := sqrtFloor_pos (n := l.size) (by omega)
        exact ih (step + sqrtFloor l.size) step (by omega) (by omega) (by omega) (by omega) rfl
    · simp only [if_neg hlt]
      have hpm : prev ≤ Min step (toInt l.size) - 1 := by
        rw [hto]; unfold Min; split <;> omega
      exact JumpSearch_scan_any l value step hm2 hn hlt (l.size + 1) prev h0 hpm
        (by push_cast; omega)

/-- On every list, sorted or not, `JumpSearch` returns `-1` or an index of the live range that
holds the value; it does so on the buffer cut down to the live range too, where every slot
outside `[0, size)` is outside the buffer. -/
theorem JumpSearch_any_data (l : DynList) (hwf : WF l) (value : Int) :
    (∃ r, JumpSearch l value = .ok r ∧
      (r = -1 ∨ (0 ≤ r ∧ r < l.size ∧ at0 l.data r = value))) ∧
    (∃ r, JumpSearch { l with data := live l } value = .ok r) := by
  obtain ⟨hn, h500⟩ := WF_size_le hwf
  have key : ∀ l' : DynList, l'.size ≤ l'.data.length → l'.size ≤ 500 →
      ∃ r, JumpSearch l' value = .ok r ∧
        (r = -1 ∨ (0 ≤ r ∧ r < l'.size ∧ at0 l'.data r = value)) := by
    intro l' hn' h500'
    unfold JumpSearch
    by_cases h0 : l'.size = 0
    · rw [if_pos h0]
      exact ⟨-1, rfl, Or.inl rfl⟩
    · rw [if_neg h0]
      have hpos := sqrtFloor_pos (n := l'.size) (by omega)
      exact JumpSearch_jump_any l' value hn' h500' (l'.size + 1) (sqrtFloor l'.size) 0
        (le_refl _) (by omega) (by omega) (by push_cast; omega) (by omega)
  refine ⟨key l hn h500, ?_⟩
  obtain ⟨r, hrun, -⟩ := key { l with data := live l } (by simp [live]; omega) h500
  exact ⟨r, hrun⟩

/-- C34: `BinarySearch` of 3 on the list `[5,7]` reads `data[2147483647]`; `FibonacciSearch`
of 9 on the full list `[3,1,4,1]` reads `data[4]`, outside the buffer, and on `[1,2,3,4]` with
the reserved slot 4 holding a stale 9 it reads that slot and returns the index 4, which is
not in the live range `[0, 4)`. -/
theorem searches_read_outside_live_range :
    WF ⟨[5, 7, 0, 0, 0], 2, 5⟩ ∧
    BinarySearch ⟨[5, 7, 0, 0, 0], 2, 5⟩ 3 = .error (.outOfBounds 2147483647) ∧
    WF ⟨[3, 1, 4, 1], 4, 4⟩ ∧
    FibonacciSearch ⟨[3, 1, 4, 1], 4, 4⟩ 9 = .error (.outOfBounds 4) ∧
    WF ⟨[1, 2, 3, 4, 9, 0], 4, 6⟩ ∧ (9 : Int) ∉ live ⟨[1, 2, 3, 4, 9, 0], 4, 6⟩ ∧
    FibonacciSearch ⟨[1, 2, 3, 4, 9, 0], 4, 6⟩ 9 = .ok 4 := by
  decide

/-! ## RemoveKeepOrder with an index outside the live range -/

/-- On a non-empty list, `RemoveKeepOrder(index)` with `index >= size` is `Pop()`: the shifting
loop does not run and `ReduceSize(1)` drops the last element. -/
theorem RemoveKeepOrder_beyond_size {l : DynList} (hs : 0 < l.size) {index : Nat}
    (hidx : l.size ≤ index) : RemoveKeepOrder l index = Pop l := by
  have hu1 : usub l.size 1 = l.size - 1 := usub_small (by omega)
  unfold RemoveKeepOrder
  rw [if_neg (by omega), hu1]
  by_cases h1 : l.size = 1
  · rw [if_pos (Or.inr h1)]
  · have e : ¬ (index = l.size - 1 ∨ l.size = 1) := by omega
    rw [if_neg e]
    have hsh : RemoveKeepOrder.shift l.size (l.size + 1) l.data index = .ok l.data := by
      unfold RemoveKeepOrder.shift
      rw [hu1, if_neg (by omega)]
    rw [hsh]
    simp only []
    rw [Pop_eq_ReduceSize hs]

theorem RemoveKeepOrder_beyond_size_spec {l : DynList} (hwf : WF l) (hs : 0 < l.size)
    {index : Nat} (hidx : l.size ≤ index) :
    ∃ l', RemoveKeepOrder l index = .ok l' ∧ WF l' ∧ l'.size = l.size - 1 ∧
      live l' = (live l).take (l.size - 1) := by
  obtain ⟨l', hrun, hwf1, hsize, hlive, -⟩ := ReduceSize_one_spec hwf hs
  refine ⟨l', ?_, hwf1, hsize, ?_⟩
  · rw [RemoveKeepOrder_beyond_size hs hidx, Pop_eq_ReduceSize hs, hrun]
  · rw [hlive]
    unfold live
    rw [List.take_take, min_eq_left (by omega)]

/-- C39: the list `[1,2,3]` (capacity 5) and the index 7 `>= size`: `RemoveKeepOrder(7)`
returns with size 2, the element 3 is no longer live; `Remove(7)` leaves the list as it is. -/
theorem RemoveKeepOrder_beyond_size_removes_last :
    WF ⟨[1, 2, 3, 0, 0], 3, 5⟩ ∧ (3 : Nat) ≤ 7 ∧
    RemoveKeepOrder ⟨[1, 2, 3, 0, 0], 3, 5⟩ 7 = .ok ⟨[1, 2, 3, 0, 0], 2, 5⟩ ∧
    live ⟨[1, 2, 3, 0, 0], 2, 5⟩ = [1, 2] ∧ live ⟨[1, 2, 3, 0, 0], 3, 5⟩ = [1, 2, 3] ∧
    Remove ⟨[1, 2, 3, 0, 0], 3, 5⟩ 7 = .ok ⟨[1, 2, 3, 0, 0], 3, 5⟩ := by
  decide

/-! ## Push followed by Pop, growth followed by shrink -/

/-- Where `Push` has room or can double the capacity, `Push(v)` followed by `Pop()` gives back
the size and the live sequence. -/
theorem Push_Pop_spec {l : DynList} (hwf : WF l)
    (hroom : l.size < l.capacity ∨ 2 * l.capacity ≤ MAX_CAPACITY) (value : Int) :
    ∃ l1 l2, Push l value = .ok l1 ∧ Pop l1 = .ok l2 ∧ l2.size = l.size ∧ live l2 = live l ∧
      l1.capacity = (if l.size = l.capacity then 2 * l.capacity else l.capacity) ∧
      l2.capacity = (if l1.capacity > 5 ∧ l.size < l1.capacity / 2 - 2
        then l1.capacity - l1.capacity / 2 else l1.capacity) := by
  obtain ⟨l1, hrun1, hwf1, hsize1, hlive1, hcap1⟩ := Push_spec hwf hroom value
  obtain ⟨l2, hrun2, -, hsize2, hlive2, hcap2⟩ := ReduceSize_one_spec hwf1 (by omega)
  refine ⟨l1, l2, hrun1, ?_, by omega, ?_, hcap1, ?_⟩
  · rw [Pop_eq_ReduceSize (by omega), hrun2]
  · have hll := live_length hwf
    have e : l1.data.take (l1.size - 1) = (live l1).take l.size := by
      unfold live
      rw [List.take_take, min_eq_left (by omega), hsize1]
      rfl
    rw [hlive2, e, hlive1, List.take_left' hll]
  · rw [hcap2, hsize1]
    rfl

/-- The full list of capacity `MAX_CAPACITY`: `Push(v)` changes nothing, and the following
`Pop()` removes the last element. -/
theorem Push_Pop_full_max {l : DynList} (hwf : WF l) (hfull : l.size = l.capacity)
    (hmax : l.capacity = MAX_CAPACITY) (value : Int) :
    Push l value = .ok l ∧ ∃ l2, Pop l = .ok l2 ∧ l2.size = l.size - 1 := by
  constructor
  · unfold Push
    rw [if_pos hfull, Reserve_at_max l _ hmax]
    simp only []
    rw [if_neg (by simp [hfull])]
  · obtain ⟨l2, hrun2, -, hsize2, -, -⟩ := ReduceSize_one_spec hwf (by
      have := hwf.2.2.1; omega)
    exact ⟨l2, by rw [Pop_eq_ReduceSize (by have := hwf.2.2.1; omega), hrun2], hsize2⟩

set_option maxRecDepth 100000 in
/-- C40: the full list of capacity 450 (`size == 450 < MAX_CAPACITY`): `Push(7)` calls
`Reserve(450)`, whose clamping branch copies `MAX_CAPACITY` elements out of the buffer of 450
and so reads outside it; `Push(7)` followed by `Pop()` does not give the list back. -/
theorem Push_Pop_clamp_reads_outside :
    WF ⟨List.replicate 450 0, 450, 450⟩ ∧ (450 : Nat) < MAX_CAPACITY ∧
    (Push ⟨List.replicate 450 0, 450, 450⟩ 7).bind Pop = .error (.outOfBounds 450) := by
  decide

/-- Growth and shrink do not follow each other, where `Push` can double the capacity: after a
`Push` that doubles the capacity, `Pop` keeps the capacity; after a `Pop` that shrinks the
buffer, `Push` keeps the capacity. -/
theorem grow_shrink_spec {l : DynList} (hwf : WF l) (value : Int) :
    (l.size = l.capacity → 2 * l.capacity ≤ MAX_CAPACITY →
      ∃ l1 l2, Push l value = .ok l1 ∧ l1.capacity = 2 * l.capacity ∧ Pop l1 = .ok l2 ∧
        l2.capacity = l1.capacity) ∧
    (0 < l.size → l.capacity > 5 ∧ l.size - 1 < l.capacity / 2 - 2 →
      ∃ l1 l2, Pop l = .ok l1 ∧ l1.capacity = l.capacity - l.capacity / 2 ∧
        Push l1 value = .ok l2 ∧ l2.capacity = l1.capacity) := by
  have hwf' := hwf
  obtain ⟨hlen, hsz, hc1, hcap⟩ := hwf
  constructor
  · intro hfull h2
    obtain ⟨l1, l2, hrun1, hrun2, -, -, hcap1, hcap2⟩ := Push_Pop_spec hwf' (Or.inr h2) value
    rw [if_pos hfull] at hcap1
    refine ⟨l1, l2, hrun1, hcap1, hrun2, ?_⟩
    rw [hcap2, if_neg (by omega)]
  · intro hs hshrink
    obtain ⟨l1, hrun1, hwf1, hsize1, -, hcap1⟩ := ReduceSize_one_spec hwf' hs
    rw [if_pos hshrink] at hcap1
    obtain ⟨l2, hrun2, -, -, -, hcap2⟩ := Push_spec hwf1 (Or.inl (by omega)) value
    refine ⟨l1, l2, by rw [Pop_eq_ReduceSize hs, hrun1], hcap1, hrun2, ?_⟩
    rw [hcap2, if_neg (by omega)]

set_option maxRecDepth 100000 in
/-- C35: the full list of capacity 260 (`size == capacity == 260 < MAX_CAPACITY`): `Push(7)`
triggers growth, `Reserve(260)`, whose clamping branch copies `MAX_CAPACITY` elements out of
the buffer of 260 and so reads outside it; no list on which the following `Pop()` could keep
the capacity results. -/
theorem Push_growth_clamp_reads_outside :
    WF ⟨List.replicate 260 0, 260, 260⟩ ∧
    (⟨List.replicate 260 0, 260, 260⟩ : DynList).size =
      (⟨List.replicate 260 0, 260, 260⟩ : DynList).capacity ∧
    (260 : Nat) < MAX_CAPACITY ∧
    Push ⟨List.replicate 260 0, 260, 260⟩ 7 = .error (.outOfBounds 260) ∧
    (Push ⟨List.replicate 260 0, 260, 260⟩ 7).bind Pop = .error (.outOfBounds 260) := by
  decide

/-! ## The size and capacity bounds across the operations -/

theorem Inv_of_WF {l : DynList} (hwf : WF l) : Inv l :=
  ⟨hwf.2.2.1, hwf.2.2.2, Nat.zero_le _, hwf.2.1⟩

/-- The constructors establish the invariant. -/
theorem constructors_Inv (n : Nat) : Inv mkDefault ∧ Inv (mkCapacity n) :=
  ⟨Inv_of_WF WF_mkDefault, Inv_of_WF (WF_mkCapacity n)⟩

/-- The removing operations keep the invariant: for every index, and for every reference to a
value held outside the list's buffer. -/
theorem removals_keep_WF {l : DynList} (hwf : WF l) (index : Nat) (value : Int) :
    (∃ l', Pop l = .ok l' ∧ WF l') ∧
    (∃ l', Remove l index = .ok l' ∧ WF l') ∧
    (∃ l', RemoveValue l (.outside value) = .ok l' ∧ WF l') ∧
    (∃ l', RemoveKeepOrder l index = .ok l' ∧ WF l') ∧
    (∃ l', RemoveKeepOrderValue l (.outside value) = .ok l' ∧ WF l') ∧
    (∃ l', Clear l = .ok l' ∧ WF l') := by
  have hpop : ∃ l', Pop l = .ok l' ∧ WF l' := by
    by_cases hs : 0 < l.size
    · obtain ⟨l', hrun, hwf1, -⟩ := ReduceSize_one_spec hwf hs
      exact ⟨l', by rw [Pop_eq_ReduceSize hs, hrun], hwf1⟩
    · exact ⟨l, by unfold Pop; rw [if_neg hs], hwf⟩
  refine ⟨hpop, ?_, ?_, ?_, ?_, ?_⟩
  · by_cases hidx : index < l.size
    · obtain ⟨l', hrun, hwf1, -⟩ := Remove_index_spec hwf hidx
      exact ⟨l', hrun, hwf1⟩
    · refine ⟨l, ?_, hwf⟩
      unfold Remove
      rw [if_neg (fun h => hidx h.2)]
  · obtain ⟨l', hrun, hwf1, -⟩ :=
      RemoveValue_loop_spec value (2 * l.size + 1) l 0 hwf (by omega) (by omega)
    exact ⟨l', hrun, hwf1⟩
  · by_cases hidx : index < l.size
    · obtain ⟨l', hrun, hwf1, -⟩ := RemoveKeepOrder_index_spec hwf hidx
      exact ⟨l', hrun, hwf1⟩
    · by_cases hs : 0 < l.size
      · have hge : l.size ≤ index := by omega
        obtain ⟨l', hrun, hwf1, -⟩ := RemoveKeepOrder_beyond_size_spec hwf hs hge
        exact ⟨l', hrun, hwf1⟩
      · refine ⟨l, ?_, hwf⟩
        unfold RemoveKeepOrder
        rw [if_pos (by omega)]
  · obtain ⟨l', hrun, hwf1, -⟩ :=
      RemoveKeepOrderValue_loop_spec value (2 * l.size + 1) l 0 hwf (by omega) (by omega)
    exact ⟨l', hrun, hwf1⟩
  · exact ⟨⟨[0], 0, 1⟩, Discard_all l, by decide⟩

/-- The four sorts keep the invariant. -/
theorem sorts_keep_WF {l : DynList} (hwf : WF l) :
    (∃ l', QuickSort l = .ok l' ∧ WF l') ∧
    (∃ l', CocktailShakerSort l = .ok l' ∧ WF l') ∧
    (∃ l', InsertionSort l = .ok l' ∧ WF l') ∧
    (∃ l', HeapSort l = .ok l' ∧ WF l') := by
  obtain ⟨hn, h500⟩ := WF_size_le hwf
  refine ⟨?_, ?_, ?_, ?_⟩
  · obtain ⟨d1, hrun1, hre1, -⟩ := QuickSort_run l hn h500
    exact ⟨_, hrun1, WF_of_Rearr hwf hre1⟩
  · obtain ⟨d1, hrun1, hre1, -⟩ := CocktailShakerSort_run l hn h500
    exact ⟨_, hrun1, WF_of_Rearr hwf hre1⟩
  · obtain ⟨d1, hrun1, hre1, -⟩ := InsertionSort_run l hn h500
    exact ⟨_, hrun1, WF_of_Rearr hwf hre1⟩
  · obtain ⟨d1, hrun1, hre1, -⟩ := HeapSort_run l hn h500
    exact ⟨_, hrun1, WF_of_Rearr hwf hre1⟩

/-- `Push` and both `Insert` overloads keep the invariant wherever `Reserve` does not have to
clamp: the list has room, or its capacity can double within `MAX_CAPACITY`. -/
theorem insertions_keep_WF {l : DynList} (hwf : WF l)
    (hroom : l.size < l.capacity ∨ 2 * l.capacity ≤ MAX_CAPACITY) (index : Nat) (value : Int) :
    (∃ l', Push l value = .ok l' ∧ WF l') ∧
    (∃ l', Insert l index value = .ok l' ∧ WF l') ∧
    (∀ (values : DynList) (k : Nat), WF values → index ≤ l.size →
      l.size + values.size ≤ l.capacity * 2 ^ k → l.capacity * 2 ^ k ≤ MAX_CAPACITY →
      ∃ l', InsertList l index values = .ok l' ∧ WF l') := by
  refine ⟨?_, ?_, ?_⟩
  · obtain ⟨l', hrun, hwf1, -⟩ := Push_spec hwf hroom value
    exact ⟨l', hrun, hwf1⟩
  · by_cases hidx : index ≤ l.size
    · obtain ⟨l', hrun, hwf1, -⟩ := Insert_spec hwf hidx hroom value
      exact ⟨l', hrun, hwf1⟩
    · refine ⟨l, ?_, hwf⟩
      unfold Insert
      rw [if_pos (by omega)]
  · intro values k hwfv hidx hfit hmax
    unfold InsertList
    by_cases h0 : values.size = 0
    · rw [if_pos h0]
      exact ⟨l, rfl, hwf⟩
    · rw [if_neg h0]
      obtain ⟨l', hrun, hwf1, -⟩ := InsertList_loop_spec index values hwfv
        (values.size + 1) l 0 k hwf (by omega) (by omega) (by omega) (by omega) hmax
      exact ⟨l', hrun, hwf1⟩

set_option maxRecDepth 100000 in
/-- C31: the full list of capacity 400 satisfies `1 <= capacity <= MAX_CAPACITY` and
`size <= capacity`; `Push(7)` and `Insert(0, 7)` call `Reserve(400)`, whose clamping branch
copies `MAX_CAPACITY` elements out of the buffer of 400 and so reads outside it: no list on
which the bounds could hold results. -/
theorem Push_clamp_leaves_no_state :
    Inv ⟨List.replicate 400 0, 400, 400⟩ ∧ WF ⟨List.replicate 400 0, 400, 400⟩ ∧
    Push ⟨List.replicate 400 0, 400, 400⟩ 7 = .error (.outOfBounds 400) ∧
    Insert ⟨List.replicate 400 0, 400, 400⟩ 0 7 = .error (.outOfBounds 400) := by
  decide

end DynamicList
